import Mathlib

/-!
# Pancake alignment tools: trace decoding and CIGAR refinement

A shallow embedding of `src/src/alignment/AlignmentTools.cpp` and the properties
of its five functions:

* `EdlibAlignmentToCigar`    : run-length encoding of a per-base Edlib trace,
* `EdlibAlignmentDiffCounts` : tallies of a per-base trace,
* `CigarDiffCounts`          : tallies of a run sequence,
* `AppendToCigar`            : the append-merge rule,
* `ExpandMismatches`         : rewriting of adjacent insertion/deletion runs.

## Modelling conventions

* A `PacBio::BAM::Cigar` (a `std::vector` of `CigarOperation`) is a `List`.
* Raw buffers (`const unsigned char* aln`, `const char* query`, `const char* target`)
  are functions from an index to the element stored there; the lengths that go
  with them (`alnLen`, `queryLen`, `targetLen`) are separate signed arguments,
  exactly as in the source.
* The two decoders, `EdlibAlignmentToCigar` and `EdlibAlignmentDiffCounts`, count with
  natural numbers: each of their counters is at most `alnLen`, an `int32_t`, so that
  none of them wraps around.
* `CigarDiffCounts`, `AppendToCigar` and `ExpandMismatches` are embedded twice.  The
  definitions of the namespace `Machine` compute with the integer widths of the
  source: `uint32_t` run lengths, `int32_t` counters, `newLen`, `minLen` and hangs,
  `int64_t` cursors.  The definitions outside that namespace compute the same
  functions in exact arithmetic, where a sum of run lengths is never reduced and a
  cursor never moves backwards.  `machine_ExpandMismatches_eq` shows that both return the
  same run sequences when every run length is below `2^31` and the run lengths add up
  to less than `2^32`.  A property that the source has only on such inputs is stated
  of the `Machine` definitions with that bound, next to an input beyond the bound on
  which it fails.
* A C++ exception is an `Except.error` carrying the data that the message of
  the exception is built from.  An access outside `std::array<_, 4> opToCigar`
  has no defined behaviour in the source and is reported as
  `Failure.indexOutOfRange`.
* Loops are structural recursions on the number of iterations that are left.
* `Machine.ExpandMismatchesChecked` is `Machine.ExpandMismatches` once more, with the
  reads `query[queryPos]` and `target[targetPos]` checked against 0 and against
  `queryLen` and `targetLen`; it is used to state that the reads stay in range.
-/

namespace Pancake

/-! ## Data model -/

/-- The operation tag `PacBio::BAM::CigarOperationType` of the BAM library that
the source is compiled against.  The source names five of its values
(`SEQUENCE_MATCH`, `INSERTION`, `DELETION`, `SEQUENCE_MISMATCH` and `UNKNOWN_OP`);
the other five are the remaining CIGAR operators of the BAM format. -/
inductive CigarOperationType where
  | UNKNOWN_OP
  | ALIGNMENT_MATCH
  | INSERTION
  | DELETION
  | REFERENCE_SKIP
  | SOFT_CLIP
  | HARD_CLIP
  | PADDING
  | SEQUENCE_MATCH
  | SEQUENCE_MISMATCH
  deriving DecidableEq

open CigarOperationType

/-- One run, `PacBio::BAM::CigarOperation`: an operation tag and a length, read in
the source through `Type()` and `Length()`. -/
structure CigarOperation where
  type : CigarOperationType
  length : Nat
  deriving DecidableEq

/-- A run sequence, `PacBio::BAM::Cigar`. -/
abbrev Cigar := List CigarOperation

/-- The ways in which a call can fail to return a value. -/
inductive Failure where
  /-- Thrown by `EdlibAlignmentDiffCounts`: "Unknown Edlib operation: <code>". -/
  | unknownEdlibOperation (code : Nat)
  /-- Thrown by `ExpandMismatches`: "Invalid CIGAR string: queryPos = ..., targetPos = ...,
  queryLen = ..., targetLen = ...". -/
  | invalidCigar (queryPos targetPos : Nat) (queryLen targetLen : Int)
  /-- An access outside a fixed-size table or outside a vector, which the source does
  not check. -/
  | indexOutOfRange (index : Nat)
  deriving DecidableEq

/-- Edlib edit code of a match (`EDLIB_EDOP_MATCH` in `edlib.h`). -/
def EDLIB_EDOP_MATCH : Nat := 0

/-- Edlib edit code of an insertion (`EDLIB_EDOP_INSERT` in `edlib.h`). -/
def EDLIB_EDOP_INSERT : Nat := 1

/-- Edlib edit code of a deletion (`EDLIB_EDOP_DELETE` in `edlib.h`). -/
def EDLIB_EDOP_DELETE : Nat := 2

/-- Edlib edit code of a mismatch (`EDLIB_EDOP_MISMATCH` in `edlib.h`). -/
def EDLIB_EDOP_MISMATCH : Nat := 3

/-- The table `opToCigar` of `EdlibAlignmentToCigar`
("Edlib move codes: 0: '=', 1: 'I', 2: 'D', 3: 'X'"). -/
def opToCigar : List CigarOperationType :=
  [SEQUENCE_MATCH, INSERTION, DELETION, SEQUENCE_MISMATCH]

/-! ## `EdlibAlignmentToCigar` -/

/-- The local variables `prevOp`, `count` and `ret` of `EdlibAlignmentToCigar`. -/
structure DecodeState where
  prevOp : CigarOperationType
  count : Nat
  ret : Cigar

/-- The two statements `ret.emplace_back(CigarOperation(prevOp, count)); count = 0;`. -/
def DecodeState.emit (st : DecodeState) : DecodeState :=
  { st with ret := st.ret ++ [⟨st.prevOp, st.count⟩], count := 0 }

/-- The loop `for (i = 0; i <= alnLen; i++)` of `EdlibAlignmentToCigar`, from index `i`
on, with `remaining` iterations left. -/
def EdlibAlignmentToCigar.loop (aln : Nat → Nat) (alnLen : Nat) :
    (remaining : Nat) → (i : Nat) → DecodeState → Except Failure Cigar
  | 0, _, st => .ok st.ret
  | remaining + 1, i, st =>
    if i = alnLen then
      -- `i == alnLen` short-circuits the test, and `i < alnLen` is false
      EdlibAlignmentToCigar.loop aln alnLen remaining (i + 1) st.emit
    else
      match opToCigar[aln i]? with
      | none => .error (.indexOutOfRange (aln i))
      | some op =>
        let st1 := if op ≠ st.prevOp ∧ st.prevOp ≠ UNKNOWN_OP then st.emit else st
        let st2 := if i < alnLen then { st1 with prevOp := op, count := st1.count + 1 } else st1
        EdlibAlignmentToCigar.loop aln alnLen remaining (i + 1) st2

/-- `PacBio::BAM::Cigar EdlibAlignmentToCigar(const unsigned char* aln, int32_t alnLen)`. -/
def EdlibAlignmentToCigar (aln : Nat → Nat) (alnLen : Int) : Except Failure Cigar :=
  if alnLen ≤ 0 then .ok []
  else
    EdlibAlignmentToCigar.loop aln alnLen.toNat (alnLen.toNat + 1) 0
      { prevOp := UNKNOWN_OP, count := 0, ret := [] }

/-! ## `EdlibAlignmentDiffCounts` and `CigarDiffCounts` -/

/-- The four output parameters `numEq`, `numX`, `numI`, `numD` of the two counting
functions. -/
structure DiffCounts where
  numEq : Nat
  numX : Nat
  numI : Nat
  numD : Nat
  deriving DecidableEq

/-- The loop `for (i = 0; i < alnLen; i++)` of `EdlibAlignmentDiffCounts`, from index
`i` on, with `remaining` iterations left. -/
def EdlibAlignmentDiffCounts.loop (aln : Nat → Nat) :
    (remaining : Nat) → (i : Nat) → DiffCounts → Except Failure DiffCounts
  | 0, _, c => .ok c
  | remaining + 1, i, c =>
    if aln i = EDLIB_EDOP_MATCH then
      EdlibAlignmentDiffCounts.loop aln remaining (i + 1) { c with numEq := c.numEq + 1 }
    else if aln i = EDLIB_EDOP_MISMATCH then
      EdlibAlignmentDiffCounts.loop aln remaining (i + 1) { c with numX := c.numX + 1 }
    else if aln i = EDLIB_EDOP_INSERT then
      EdlibAlignmentDiffCounts.loop aln remaining (i + 1) { c with numI := c.numI + 1 }
    else if aln i = EDLIB_EDOP_DELETE then
      EdlibAlignmentDiffCounts.loop aln remaining (i + 1) { c with numD := c.numD + 1 }
    else
      .error (.unknownEdlibOperation (aln i))

/-- `void EdlibAlignmentDiffCounts(const unsigned char* aln, int32_t alnLen, int32_t& numEq,
int32_t& numX, int32_t& numI, int32_t& numD)`; the result is the value of the four
output parameters on return. -/
def EdlibAlignmentDiffCounts (aln : Nat → Nat) (alnLen : Int) : Except Failure DiffCounts :=
  if alnLen ≤ 0 then .ok ⟨0, 0, 0, 0⟩
  else EdlibAlignmentDiffCounts.loop aln alnLen.toNat 0 ⟨0, 0, 0, 0⟩

/-- The body of the loop `for (const auto& op : cigar)` of `CigarDiffCounts`, in exact
arithmetic; `Machine.CigarDiffCounts.step` has the `int32_t` counters of the source. -/
def CigarDiffCounts.step (c : DiffCounts) (op : CigarOperation) : DiffCounts :=
  if op.type = SEQUENCE_MATCH then { c with numEq := c.numEq + op.length }
  else if op.type = SEQUENCE_MISMATCH then { c with numX := c.numX + op.length }
  else if op.type = INSERTION then { c with numI := c.numI + op.length }
  else if op.type = DELETION then { c with numD := c.numD + op.length }
  else c

/-- `void CigarDiffCounts(const Cigar& cigar, int32_t& numEq, int32_t& numX, int32_t& numI,
int32_t& numD)`, in exact arithmetic. -/
def CigarDiffCounts (cigar : Cigar) : DiffCounts :=
  if cigar.isEmpty then ⟨0, 0, 0, 0⟩
  else cigar.foldl CigarDiffCounts.step ⟨0, 0, 0, 0⟩

/-! ## `AppendToCigar` -/

/-- `void AppendToCigar(Cigar& cigar, CigarOperationType newOp, int32_t newLen)`; the
result is the value of `cigar` on return.  The lengths are added in exact arithmetic;
`Machine.AppendToCigar` adds them modulo `2^32`, as the source does. -/
def AppendToCigar (cigar : Cigar) (newOp : CigarOperationType) (newLen : Nat) : Cigar :=
  if newLen = 0 then cigar
  else
    match cigar.getLast? with
    | none => cigar ++ [⟨newOp, newLen⟩]
    | some back =>
      if newOp ≠ back.type then cigar ++ [⟨newOp, newLen⟩]
      else cigar.dropLast ++ [⟨back.type, back.length + newLen⟩]

/-! ## `ExpandMismatches` -/

/-- The local variables `queryPos`, `targetPos`, `lastAddedOp` and `ret` of
`ExpandMismatches`. -/
structure ExpandState where
  queryPos : Nat
  targetPos : Nat
  lastAddedOp : Int
  ret : Cigar

/-- The test for an `INS+DEL` or `DEL+INS` pair. -/
def isIndelPair (prevOp currOp : CigarOperation) : Bool :=
  (prevOp.type = INSERTION && currOp.type = DELETION) ||
  (prevOp.type = DELETION && currOp.type = INSERTION)

/-- The loop `for (pos = 0; pos < minLen; ++pos)` of `ExpandMismatches`, with `remaining`
iterations left. -/
def ExpandMismatches.diagonal (query target : Nat → Char) :
    (remaining : Nat) → ExpandState → ExpandState
  | 0, st => st
  | remaining + 1, st =>
    let ret :=
      if query st.queryPos = target st.targetPos then AppendToCigar st.ret SEQUENCE_MATCH 1
      else AppendToCigar st.ret SEQUENCE_MISMATCH 1
    ExpandMismatches.diagonal query target remaining
      { st with ret := ret, queryPos := st.queryPos + 1, targetPos := st.targetPos + 1 }

/-- The branch of `ExpandMismatches` that rewrites an insertion/deletion pair found at
index `i`, in exact arithmetic; `Machine.ExpandMismatches.collapse` has the `int32_t`
variables `minLen`, `leftHang` and `rightHang` of the source. -/
def ExpandMismatches.collapse (query target : Nat → Char) (prevOp currOp : CigarOperation)
    (i : Nat) (st : ExpandState) : ExpandState :=
  let minLen := min prevOp.length currOp.length
  let leftHang := prevOp.length - minLen
  let rightHang := currOp.length - minLen
  let st1 : ExpandState := { st with ret := AppendToCigar st.ret prevOp.type leftHang }
  let st2 : ExpandState :=
    if prevOp.type = DELETION then { st1 with targetPos := st1.targetPos + leftHang }
    else { st1 with queryPos := st1.queryPos + leftHang }
  let st3 := ExpandMismatches.diagonal query target minLen st2
  let st4 : ExpandState := { st3 with ret := AppendToCigar st3.ret currOp.type rightHang }
  let st5 : ExpandState :=
    if currOp.type = DELETION then { st4 with targetPos := st4.targetPos + rightHang }
    else { st4 with queryPos := st4.queryPos + rightHang }
  { st5 with lastAddedOp := i }

/-- The branch of `ExpandMismatches` that passes `prevOp` through, at index `i`. -/
def ExpandMismatches.passThrough (prevOp : CigarOperation) (i : Nat) (st : ExpandState) :
    ExpandState :=
  let st1 : ExpandState :=
    { st with ret := AppendToCigar st.ret prevOp.type prevOp.length,
              lastAddedOp := (i : Int) - 1 }
  let st2 : ExpandState :=
    if prevOp.type ≠ DELETION then { st1 with queryPos := st1.queryPos + prevOp.length }
    else st1
  if prevOp.type ≠ INSERTION then { st2 with targetPos := st2.targetPos + prevOp.length }
  else st2

/-- The loop `for (i = 1; i < numCigarOps; ++i)` of `ExpandMismatches`, from index `i` on,
with at most `remaining` iterations left. -/
def ExpandMismatches.loop (query : Nat → Char) (queryLen : Int) (target : Nat → Char)
    (targetLen : Int) (cigar : Cigar) :
    (remaining : Nat) → (i : Nat) → ExpandState → Except Failure ExpandState
  | 0, _, st => .ok st
  | remaining + 1, i, st =>
    if i < cigar.length then
      match cigar[i - 1]?, cigar[i]? with
      | some prevOp, some currOp =>
        if (st.queryPos : Int) ≥ queryLen ∨ (st.targetPos : Int) ≥ targetLen then
          .error (.invalidCigar st.queryPos st.targetPos queryLen targetLen)
        else if isIndelPair prevOp currOp then
          ExpandMismatches.loop query queryLen target targetLen cigar remaining (i + 2)
            (ExpandMismatches.collapse query target prevOp currOp i st)
        else
          ExpandMismatches.loop query queryLen target targetLen cigar remaining (i + 1)
            (ExpandMismatches.passThrough prevOp i st)
      | _, _ => .error (.indexOutOfRange i)
    else .ok st

/-- The loop `for (i = lastAddedOp + 1; i < numCigarOps; ++i)` that ends
`ExpandMismatches`. -/
def ExpandMismatches.remainder (cigar : Cigar) (st : ExpandState) : Cigar :=
  (cigar.drop (st.lastAddedOp + 1).toNat).foldl
    (fun ret op => AppendToCigar ret op.type op.length) st.ret

/-- `Cigar ExpandMismatches(const char* query, int64_t queryLen, const char* target,
int64_t targetLen, const Cigar& cigar)`, in exact arithmetic. -/
def ExpandMismatches (query : Nat → Char) (queryLen : Int) (target : Nat → Char)
    (targetLen : Int) (cigar : Cigar) : Except Failure Cigar :=
  if cigar.length ≤ 1 then .ok cigar
  else
    match ExpandMismatches.loop query queryLen target targetLen cigar cigar.length 1
        { queryPos := 0, targetPos := 0, lastAddedOp := -1, ret := [] } with
    | .error e => .error e
    | .ok st => .ok (ExpandMismatches.remainder cigar st)

/-! ## Derived notions used in the statements -/

/-- The per-base expansion of a run sequence: every run becomes `length` copies of its
operation, in order. -/
def expand (cigar : Cigar) : List CigarOperationType :=
  cigar.flatMap (fun op => List.replicate op.length op.type)

/-- An edit code is recognised when it is one of the four Edlib codes. -/
def RecognisedCode (code : Nat) : Prop :=
  code = EDLIB_EDOP_MATCH ∨ code = EDLIB_EDOP_INSERT ∨ code = EDLIB_EDOP_DELETE ∨
    code = EDLIB_EDOP_MISMATCH

instance (code : Nat) : Decidable (RecognisedCode code) := by
  unfold RecognisedCode
  infer_instance

/-- The operation that a recognised edit code stands for: match for 0, insertion for 1,
deletion for 2, mismatch for 3. -/
def editCodeOperation (code : Nat) : CigarOperationType :=
  if code = EDLIB_EDOP_MATCH then SEQUENCE_MATCH
  else if code = EDLIB_EDOP_INSERT then INSERTION
  else if code = EDLIB_EDOP_DELETE then DELETION
  else if code = EDLIB_EDOP_MISMATCH then SEQUENCE_MISMATCH
  else UNKNOWN_OP

/-- A buffer that holds the given elements, and `pad` at every index beyond them. -/
def buffer {α : Type} (pad : α) (elements : List α) : Nat → α :=
  fun i => elements.getD i pad

/-- The sum of the lengths of the runs whose operation satisfies `p`. -/
def sumLengths (p : CigarOperationType → Bool) (cigar : Cigar) : Nat :=
  ((cigar.filter (fun op => p op.type)).map (fun op => op.length)).sum

/-- The query span of a run sequence: the sum of the lengths of its match, mismatch and
insertion runs. -/
def querySpan (cigar : Cigar) : Nat :=
  sumLengths
    (fun t => decide (t = SEQUENCE_MATCH ∨ t = SEQUENCE_MISMATCH ∨ t = INSERTION)) cigar

/-- The target span of a run sequence: the sum of the lengths of its match, mismatch and
deletion runs. -/
def targetSpan (cigar : Cigar) : Nat :=
  sumLengths
    (fun t => decide (t = SEQUENCE_MATCH ∨ t = SEQUENCE_MISMATCH ∨ t = DELETION)) cigar

/-- Every run has a positive length. -/
def PositiveLengths (cigar : Cigar) : Prop :=
  ∀ op ∈ cigar, 0 < op.length

/-- No two adjacent runs have the same operation. -/
def NoAdjacentSame (cigar : Cigar) : Prop :=
  cigar.Chain' (fun a b => a.type ≠ b.type)

/-- The units that the diagonal loop of `ExpandMismatches` produces when it runs `n`
times from the cursors `(q, t)`: unit `k` is a match exactly when `query[q + k]` and
`target[t + k]` are equal. -/
def diagonalUnits (query target : Nat → Char) (q t n : Nat) : List CigarOperationType :=
  (List.range n).map
    (fun k => if query (q + k) = target (t + k) then SEQUENCE_MATCH else SEQUENCE_MISMATCH)

/-- The cursors after a run that is passed through, as the source advances them. -/
def advance (op : CigarOperation) (pos : Nat × Nat) : Nat × Nat :=
  (if op.type ≠ DELETION then pos.1 + op.length else pos.1,
   if op.type ≠ INSERTION then pos.2 + op.length else pos.2)

/-- A per-base description of what `ExpandMismatches` does to the runs that are still to
be scanned when the cursors are `(q, t)`; `ExpandMismatches.expand_loop` relates it to
the source. -/
def refinedUnits (query target : Nat → Char) : Nat → Nat → Cigar → List CigarOperationType
  | q, t, prevOp :: currOp :: rest =>
    if isIndelPair prevOp currOp then
      let minLen := min prevOp.length currOp.length
      let leftHang := prevOp.length - minLen
      let rightHang := currOp.length - minLen
      let q1 := if prevOp.type = DELETION then q else q + leftHang
      let t1 := if prevOp.type = DELETION then t + leftHang else t
      let q2 := if currOp.type = DELETION then q1 + minLen else q1 + minLen + rightHang
      let t2 := if currOp.type = DELETION then t1 + minLen + rightHang else t1 + minLen
      List.replicate leftHang prevOp.type ++ diagonalUnits query target q1 t1 minLen
        ++ List.replicate rightHang currOp.type ++ refinedUnits query target q2 t2 rest
    else
      List.replicate prevOp.length prevOp.type
        ++ refinedUnits query target (advance prevOp (q, t)).1 (advance prevOp (q, t)).2
            (currOp :: rest)
  | _, _, rest => expand rest
termination_by _ _ cigar => cigar.length

/-- The invariant of the loop of `EdlibAlignmentToCigar` at index `i`. -/
structure DecodeInv (i : Nat) (st : DecodeState) : Prop where
  started : 0 < i → st.prevOp ≠ UNKNOWN_OP
  fresh : st.prevOp = UNKNOWN_OP → st.count = 0 ∧ st.ret = []
  counting : st.prevOp ≠ UNKNOWN_OP → 0 < st.count
  positive : PositiveLengths st.ret
  distinct : NoAdjacentSame (st.ret ++ [⟨st.prevOp, st.count⟩])

/-- The walk of the coordinate cursors over a per-base sequence of operations, from the
cursors `(q, t)`: a match or mismatch unit moves both cursors, an insertion unit the query
cursor, a deletion unit the target cursor.  The walk yields the final cursors when every
match unit sits on equal bases and every mismatch unit on different bases, and nothing
otherwise (nor when it meets an operation other than these four). -/
def walk (query target : Nat → Char) : Nat → Nat → List CigarOperationType → Option (Nat × Nat)
  | q, t, [] => some (q, t)
  | q, t, u :: units =>
    if u = SEQUENCE_MATCH then
      if query q = target t then walk query target (q + 1) (t + 1) units else none
    else if u = SEQUENCE_MISMATCH then
      if query q ≠ target t then walk query target (q + 1) (t + 1) units else none
    else if u = INSERTION then walk query target (q + 1) t units
    else if u = DELETION then walk query target q (t + 1) units
    else none

/-- A run sequence is base-consistent with `query` and `target` when its walk from the
cursors `(0, 0)` succeeds. -/
def BaseConsistent (query target : Nat → Char) (cigar : Cigar) : Prop :=
  (walk query target 0 0 (expand cigar)).isSome = true

instance (query target : Nat → Char) (cigar : Cigar) :
    Decidable (BaseConsistent query target cigar) := by
  unfold BaseConsistent
  infer_instance

/-- Appending a list of unit-length runs, one by one, with `AppendToCigar`. -/
def appendUnits (cigar : Cigar) (units : List CigarOperationType) : Cigar :=
  units.foldl (fun ret u => AppendToCigar ret u 1) cigar

/-- The cursors after an insertion/deletion pair that is rewritten, as the source moves
them through the left hang, the diagonal and the right hang. -/
def pairAdvance (prevOp currOp : CigarOperation) (pos : Nat × Nat) : Nat × Nat :=
  let minLen := min prevOp.length currOp.length
  let leftHang := prevOp.length - minLen
  let rightHang := currOp.length - minLen
  let q1 := if prevOp.type = DELETION then pos.1 else pos.1 + leftHang
  let t1 := if prevOp.type = DELETION then pos.2 + leftHang else pos.2
  (if currOp.type = DELETION then q1 + minLen else q1 + minLen + rightHang,
   if currOp.type = DELETION then t1 + minLen + rightHang else t1 + minLen)

/-- The operation is one of the four that the alignment tools produce. -/
def IsEditOperation (t : CigarOperationType) : Prop :=
  t = SEQUENCE_MATCH ∨ t = SEQUENCE_MISMATCH ∨ t = INSERTION ∨ t = DELETION

instance (t : CigarOperationType) : Decidable (IsEditOperation t) := by
  unfold IsEditOperation
  infer_instance

/-! ## The scanning loop of `ExpandMismatches` with checked base reads

The scanning loop in exact arithmetic, in which the two reads `query[queryPos]` and
`target[targetPos]` of the diagonal loop are checked against the stated lengths: a read at
or beyond `queryLen` or `targetLen` ends the call with `Failure.indexOutOfRange`.
Everything else is as in `ExpandMismatches.loop`. -/

/-- The diagonal loop of `ExpandMismatches`, with its reads checked. -/
def ExpandMismatches.diagonalChecked (query : Nat → Char) (queryLen : Int)
    (target : Nat → Char) (targetLen : Int) :
    (remaining : Nat) → ExpandState → Except Failure ExpandState
  | 0, st => .ok st
  | remaining + 1, st =>
    if ¬ ((st.queryPos : Int) < queryLen) then .error (.indexOutOfRange st.queryPos)
    else if ¬ ((st.targetPos : Int) < targetLen) then .error (.indexOutOfRange st.targetPos)
    else
      let ret :=
        if query st.queryPos = target st.targetPos then AppendToCigar st.ret SEQUENCE_MATCH 1
        else AppendToCigar st.ret SEQUENCE_MISMATCH 1
      ExpandMismatches.diagonalChecked query queryLen target targetLen remaining
        { st with ret := ret, queryPos := st.queryPos + 1, targetPos := st.targetPos + 1 }

/-- The branch of `ExpandMismatches` that rewrites an insertion/deletion pair, with the
reads of its diagonal loop checked. -/
def ExpandMismatches.collapseChecked (query : Nat → Char) (queryLen : Int)
    (target : Nat → Char) (targetLen : Int) (prevOp currOp : CigarOperation)
    (i : Nat) (st : ExpandState) : Except Failure ExpandState :=
  let minLen := min prevOp.length currOp.length
  let leftHang := prevOp.length - minLen
  let rightHang := currOp.length - minLen
  let st1 : ExpandState := { st with ret := AppendToCigar st.ret prevOp.type leftHang }
  let st2 : ExpandState :=
    if prevOp.type = DELETION then { st1 with targetPos := st1.targetPos + leftHang }
    else { st1 with queryPos := st1.queryPos + leftHang }
  match ExpandMismatches.diagonalChecked query queryLen target targetLen minLen st2 with
  | .error e => .error e
  | .ok st3 =>
    let st4 : ExpandState := { st3 with ret := AppendToCigar st3.ret currOp.type rightHang }
    let st5 : ExpandState :=
      if currOp.type = DELETION then { st4 with targetPos := st4.targetPos + rightHang }
      else { st4 with queryPos := st4.queryPos + rightHang }
    .ok { st5 with lastAddedOp := i }

/-- The scanning loop of `ExpandMismatches`, with the reads of the diagonal loop checked. -/
def ExpandMismatches.loopChecked (query : Nat → Char) (queryLen : Int) (target : Nat → Char)
    (targetLen : Int) (cigar : Cigar) :
    (remaining : Nat) → (i : Nat) → ExpandState → Except Failure ExpandState
  | 0, _, st => .ok st
  | remaining + 1, i, st =>
    if i < cigar.length then
      match cigar[i - 1]?, cigar[i]? with
      | some prevOp, some currOp =>
        if (st.queryPos : Int) ≥ queryLen ∨ (st.targetPos : Int) ≥ targetLen then
          .error (.invalidCigar st.queryPos st.targetPos queryLen targetLen)
        else if isIndelPair prevOp currOp then
          match ExpandMismatches.collapseChecked query queryLen target targetLen
              prevOp currOp i st with
          | .error e => .error e
          | .ok st' =>
            ExpandMismatches.loopChecked query queryLen target targetLen cigar remaining
              (i + 2) st'
        else
          ExpandMismatches.loopChecked query queryLen target targetLen cigar remaining (i + 1)
            (ExpandMismatches.passThrough prevOp i st)
      | _, _ => .error (.indexOutOfRange i)
    else .ok st

/-- The Edlib edit code of an operation: 0 for a match, 1 for an insertion, 2 for a
deletion, 3 for a mismatch.  No edit code stands for any other operation; they are given
4, which is not a recognised code. -/
def operationEditCode : CigarOperationType → Nat
  | SEQUENCE_MATCH => EDLIB_EDOP_MATCH
  | INSERTION => EDLIB_EDOP_INSERT
  | DELETION => EDLIB_EDOP_DELETE
  | SEQUENCE_MISMATCH => EDLIB_EDOP_MISMATCH
  | _ => 4

/-- The per-base trace of a run sequence: every run becomes `length` copies of the edit
code of its operation. -/
def traceOf (cigar : Cigar) : List Nat :=
  (expand cigar).map operationEditCode

/-- The operation is an insertion or a deletion. -/
def IsIndel (t : CigarOperationType) : Prop :=
  t = INSERTION ∨ t = DELETION

instance (t : CigarOperationType) : Decidable (IsIndel t) := by
  unfold IsIndel
  infer_instance

/-- An insertion next to a deletion, in either order. -/
def IndelAdjacent (u v : CigarOperationType) : Prop :=
  (u = INSERTION ∧ v = DELETION) ∨ (u = DELETION ∧ v = INSERTION)

/-- No three consecutive runs are all insertions or deletions. -/
def NoIndelTriple : Cigar → Prop
  | [] => True
  | a :: rest =>
    (match rest with
      | b :: c :: _ => ¬ (IsIndel a.type ∧ IsIndel b.type ∧ IsIndel c.type)
      | _ => True) ∧ NoIndelTriple rest

/-! ## The source's integer widths

The definitions above compute run lengths, counters and cursors in exact arithmetic.
The definitions of the namespace `Machine` below embed the same functions with the
integer types of the source: a run length is a `uint32_t`; the counters, `newLen`,
`minLen`, `leftHang` and `rightHang` are `int32_t`; the cursors are `int64_t`.

* A `uint32_t` is a natural number below `2^32`; an `int32_t` and an `int64_t` are
  integers.  `toInt32` is the conversion of a `uint32_t` to `int32_t` and `toUInt32` the
  conversion of an integer to `uint32_t`, both modulo `2^32`.
* An `int32_t` subtraction that leaves the range of `int32_t`, which has no defined
  behaviour in the source, is taken to wrap around modulo `2^32`.
* A run sequence has fewer than `2^31` runs, so that `cigar.size()` is an `int32_t`, and
  the cursors do not wrap: an `int64_t` holds every sum of fewer than `2^31` run lengths.
* The buffers `query` and `target` are indexed by integers, as pointers are.

`machine_ExpandMismatches_eq` shows that the two embeddings return the same run sequences
on the inputs that satisfy `Fits`. -/

/-- The conversion of a `uint32_t` to `int32_t`: values from `2^31` on become negative. -/
def toInt32 (x : Nat) : Int :=
  if x % 4294967296 < 2147483648 then ((x % 4294967296 : Nat) : Int)
  else ((x % 4294967296 : Nat) : Int) - 4294967296

/-- The conversion of an integer to `uint32_t`: the residue modulo `2^32`. -/
def toUInt32 (z : Int) : Nat :=
  (z % 4294967296).toNat

/-- The sum of the lengths of all runs. -/
def totalLength (cigar : Cigar) : Nat :=
  (cigar.map CigarOperation.length).sum

/-- The run sequences on which no 32-bit quantity of `ExpandMismatches` wraps around:
every run length is below `2^31` and the run lengths add up to less than `2^32`. -/
def Fits (cigar : Cigar) : Prop :=
  (∀ op ∈ cigar, op.length < 2147483648) ∧ totalLength cigar < 4294967296

instance (cigar : Cigar) : Decidable (Fits cigar) := by
  unfold Fits
  infer_instance

/-- A buffer indexed by integers that holds the given elements from index 0 on, and `pad`
at every other index. -/
def memory {α : Type} (pad : α) (elements : List α) : Int → α :=
  fun z => if z < 0 then pad else elements.getD z.toNat pad

namespace Machine

/-- The ways in which a call of `ExpandMismatches` can fail to return a value. -/
inductive Failure where
  /-- Thrown by `ExpandMismatches`: "Invalid CIGAR string: queryPos = ..., targetPos = ...,
  queryLen = ..., targetLen = ...". -/
  | invalidCigar (queryPos targetPos queryLen targetLen : Int)
  /-- An access outside a vector or outside the bases of `query` or `target`, which the
  source does not check. -/
  | indexOutOfRange (index : Int)
  deriving DecidableEq

/-- The four `int32_t` output parameters `numEq`, `numX`, `numI`, `numD` of
`CigarDiffCounts`. -/
structure DiffCounts where
  numEq : Int
  numX : Int
  numI : Int
  numD : Int
  deriving DecidableEq

/-- The statement `counter += op.Length()` on an `int32_t` counter and a `uint32_t`
length: the sum is formed in `uint32_t` and converted back to `int32_t`. -/
def addLength (counter : Int) (length : Nat) : Int :=
  toInt32 (toUInt32 (counter + (length : Int)))

/-- The body of the loop `for (const auto& op : cigar)` of `CigarDiffCounts`. -/
def CigarDiffCounts.step (c : DiffCounts) (op : CigarOperation) : DiffCounts :=
  if op.type = SEQUENCE_MATCH then { c with numEq := addLength c.numEq op.length }
  else if op.type = SEQUENCE_MISMATCH then { c with numX := addLength c.numX op.length }
  else if op.type = INSERTION then { c with numI := addLength c.numI op.length }
  else if op.type = DELETION then { c with numD := addLength c.numD op.length }
  else c

/-- `void CigarDiffCounts(const Cigar& cigar, int32_t& numEq, int32_t& numX, int32_t& numI,
int32_t& numD)`. -/
def CigarDiffCounts (cigar : Cigar) : DiffCounts :=
  if cigar.isEmpty then ⟨0, 0, 0, 0⟩
  else cigar.foldl CigarDiffCounts.step ⟨0, 0, 0, 0⟩

/-- `void AppendToCigar(Cigar& cigar, CigarOperationType newOp, int32_t newLen)`; the
result is the value of `cigar` on return.  The constructor `CigarOperation(newOp, newLen)`
converts `newLen` to `uint32_t`, and `cigar.back().Length() + newLen` is a `uint32_t`
sum. -/
def AppendToCigar (cigar : Cigar) (newOp : CigarOperationType) (newLen : Int) : Cigar :=
  if newLen = 0 then cigar
  else
    match cigar.getLast? with
    | none => cigar ++ [⟨newOp, toUInt32 newLen⟩]
    | some back =>
      if newOp ≠ back.type then cigar ++ [⟨newOp, toUInt32 newLen⟩]
      else cigar.dropLast ++ [⟨back.type, toUInt32 ((back.length : Int) + newLen)⟩]

/-- The local variables `queryPos`, `targetPos`, `lastAddedOp` and `ret` of
`ExpandMismatches`. -/
structure ExpandState where
  queryPos : Int
  targetPos : Int
  lastAddedOp : Int
  ret : Cigar

/-- The loop `for (pos = 0; pos < minLen; ++pos)` of `ExpandMismatches`, with `remaining`
iterations left. -/
def ExpandMismatches.diagonal (query target : Int → Char) :
    (remaining : Nat) → ExpandState → ExpandState
  | 0, st => st
  | remaining + 1, st =>
    let ret :=
      if query st.queryPos = target st.targetPos then AppendToCigar st.ret SEQUENCE_MATCH 1
      else AppendToCigar st.ret SEQUENCE_MISMATCH 1
    ExpandMismatches.diagonal query target remaining
      { st with ret := ret, queryPos := st.queryPos + 1, targetPos := st.targetPos + 1 }

/-- The branch of `ExpandMismatches` that rewrites an insertion/deletion pair found at
index `i`.  The loop over `pos` runs `minLen` times when `minLen` is positive and not at
all otherwise. -/
def ExpandMismatches.collapse (query target : Int → Char) (prevOp currOp : CigarOperation)
    (i : Nat) (st : ExpandState) : ExpandState :=
  let minLen : Int := toInt32 (min prevOp.length currOp.length)
  let leftHang : Int := toInt32 (toUInt32 (toInt32 prevOp.length - minLen))
  let rightHang : Int := toInt32 (toUInt32 (toInt32 currOp.length - minLen))
  let st1 : ExpandState := { st with ret := AppendToCigar st.ret prevOp.type leftHang }
  let st2 : ExpandState :=
    if prevOp.type = DELETION then { st1 with targetPos := st1.targetPos + leftHang }
    else { st1 with queryPos := st1.queryPos + leftHang }
  let st3 := ExpandMismatches.diagonal query target minLen.toNat st2
  let st4 : ExpandState := { st3 with ret := AppendToCigar st3.ret currOp.type rightHang }
  let st5 : ExpandState :=
    if currOp.type = DELETION then { st4 with targetPos := st4.targetPos + rightHang }
    else { st4 with queryPos := st4.queryPos + rightHang }
  { st5 with lastAddedOp := i }

/-- The branch of `ExpandMismatches` that passes `prevOp` through, at index `i`.  The
argument `prevOp.Length()` of `AppendToCigar` is converted to `int32_t`; the cursors
advance by the `uint32_t` length. -/
def ExpandMismatches.passThrough (prevOp : CigarOperation) (i : Nat) (st : ExpandState) :
    ExpandState :=
  let st1 : ExpandState :=
    { st with ret := AppendToCigar st.ret prevOp.type (toInt32 prevOp.length),
              lastAddedOp := (i : Int) - 1 }
  let st2 : ExpandState :=
    if prevOp.type ≠ DELETION then { st1 with queryPos := st1.queryPos + prevOp.length }
    else st1
  if prevOp.type ≠ INSERTION then { st2 with targetPos := st2.targetPos + prevOp.length }
  else st2

/-- The loop `for (i = 1; i < numCigarOps; ++i)` of `ExpandMismatches`, from index `i` on,
with at most `remaining` iterations left. -/
def ExpandMismatches.loop (query : Int → Char) (queryLen : Int) (target : Int → Char)
    (targetLen : Int) (cigar : Cigar) :
    (remaining : Nat) → (i : Nat) → ExpandState → Except Failure ExpandState
  | 0, _, st => .ok st
  | remaining + 1, i, st =>
    if i < cigar.length then
      match cigar[i - 1]?, cigar[i]? with
      | some prevOp, some currOp =>
        if st.queryPos ≥ queryLen ∨ st.targetPos ≥ targetLen then
          .error (.invalidCigar st.queryPos st.targetPos queryLen targetLen)
        else if isIndelPair prevOp currOp then
          ExpandMismatches.loop query queryLen target targetLen cigar remaining (i + 2)
            (ExpandMismatches.collapse query target prevOp currOp i st)
        else
          ExpandMismatches.loop query queryLen target targetLen cigar remaining (i + 1)
            (ExpandMismatches.passThrough prevOp i st)
      | _, _ => .error (.indexOutOfRange i)
    else .ok st

/-- The loop `for (i = lastAddedOp + 1; i < numCigarOps; ++i)` that ends
`ExpandMismatches`. -/
def ExpandMismatches.remainder (cigar : Cigar) (st : ExpandState) : Cigar :=
  (cigar.drop (st.lastAddedOp + 1).toNat).foldl
    (fun ret op => AppendToCigar ret op.type (toInt32 op.length)) st.ret

/-- `Cigar ExpandMismatches(const char* query, int64_t queryLen, const char* target,
int64_t targetLen, const Cigar& cigar)`. -/
def ExpandMismatches (query : Int → Char) (queryLen : Int) (target : Int → Char)
    (targetLen : Int) (cigar : Cigar) : Except Failure Cigar :=
  if cigar.length ≤ 1 then .ok cigar
  else
    match ExpandMismatches.loop query queryLen target targetLen cigar cigar.length 1
        { queryPos := 0, targetPos := 0, lastAddedOp := -1, ret := [] } with
    | .error e => .error e
    | .ok st => .ok (ExpandMismatches.remainder cigar st)

/-- The diagonal loop of `ExpandMismatches`, in which the reads `query[queryPos]` and
`target[targetPos]` are checked: a read at a negative position, or at a position from
`queryLen` or `targetLen` on, ends the call with `Failure.indexOutOfRange`. -/
def ExpandMismatches.diagonalChecked (query : Int → Char) (queryLen : Int)
    (target : Int → Char) (targetLen : Int) :
    (remaining : Nat) → ExpandState → Except Failure ExpandState
  | 0, st => .ok st
  | remaining + 1, st =>
    if ¬ (0 ≤ st.queryPos ∧ st.queryPos < queryLen) then
      .error (.indexOutOfRange st.queryPos)
    else if ¬ (0 ≤ st.targetPos ∧ st.targetPos < targetLen) then
      .error (.indexOutOfRange st.targetPos)
    else
      let ret :=
        if query st.queryPos = target st.targetPos then AppendToCigar st.ret SEQUENCE_MATCH 1
        else AppendToCigar st.ret SEQUENCE_MISMATCH 1
      ExpandMismatches.diagonalChecked query queryLen target targetLen remaining
        { st with ret := ret, queryPos := st.queryPos + 1, targetPos := st.targetPos + 1 }

/-- The branch of `ExpandMismatches` that rewrites an insertion/deletion pair, with the
reads of its diagonal loop checked. -/
def ExpandMismatches.collapseChecked (query : Int → Char) (queryLen : Int)
    (target : Int → Char) (targetLen : Int) (prevOp currOp : CigarOperation)
    (i : Nat) (st : ExpandState) : Except Failure ExpandState :=
  let minLen : Int := toInt32 (min prevOp.length currOp.length)
  let leftHang : Int := toInt32 (toUInt32 (toInt32 prevOp.length - minLen))
  let rightHang : Int := toInt32 (toUInt32 (toInt32 currOp.length - minLen))
  let st1 : ExpandState := { st with ret := AppendToCigar st.ret prevOp.type leftHang }
  let st2 : ExpandState :=
    if prevOp.type = DELETION then { st1 with targetPos := st1.targetPos + leftHang }
    else { st1 with queryPos := st1.queryPos + leftHang }
  match ExpandMismatches.diagonalChecked query queryLen target targetLen minLen.toNat st2 with
  | .error e => .error e
  | .ok st3 =>
    let st4 : ExpandState := { st3 with ret := AppendToCigar st3.ret currOp.type rightHang }
    let st5 : ExpandState :=
      if currOp.type = DELETION then { st4 with targetPos := st4.targetPos + rightHang }
      else { st4 with queryPos := st4.queryPos + rightHang }
    .ok { st5 with lastAddedOp := i }

/-- The scanning loop of `ExpandMismatches`, with the reads of the diagonal loop checked. -/
def ExpandMismatches.loopChecked (query : Int → Char) (queryLen : Int) (target : Int → Char)
    (targetLen : Int) (cigar : Cigar) :
    (remaining : Nat) → (i : Nat) → ExpandState → Except Failure ExpandState
  | 0, _, st => .ok st
  | remaining + 1, i, st =>
    if i < cigar.length then
      match cigar[i - 1]?, cigar[i]? with
      | some prevOp, some currOp =>
        if st.queryPos ≥ queryLen ∨ st.targetPos ≥ targetLen then
          .error (.invalidCigar st.queryPos st.targetPos queryLen targetLen)
        else if isIndelPair prevOp currOp then
          match ExpandMismatches.collapseChecked query queryLen target targetLen
              prevOp currOp i st with
          | .error e => .error e
          | .ok st' =>
            ExpandMismatches.loopChecked query queryLen target targetLen cigar remaining
              (i + 2) st'
        else
          ExpandMismatches.loopChecked query queryLen target targetLen cigar remaining (i + 1)
            (ExpandMismatches.passThrough prevOp i st)
      | _, _ => .error (.indexOutOfRange i)
    else .ok st

/-- `ExpandMismatches` with the reads of `query` and `target` checked against the stated
lengths. -/
def ExpandMismatchesChecked (query : Int → Char) (queryLen : Int) (target : Int → Char)
    (targetLen : Int) (cigar : Cigar) : Except Failure Cigar :=
  if cigar.length ≤ 1 then .ok cigar
  else
    match ExpandMismatches.loopChecked query queryLen target targetLen cigar cigar.length 1
        { queryPos := 0, targetPos := 0, lastAddedOp := -1, ret := [] } with
    | .error e => .error e
    | .ok st => .ok (ExpandMismatches.remainder cigar st)

/-- Appending a list of unit-length runs, one by one, with `AppendToCigar`. -/
def appendUnits (cigar : Cigar) (units : List CigarOperationType) : Cigar :=
  units.foldl (fun ret u => AppendToCigar ret u 1) cigar

/-- The state of the exact embedding, as a state of this one. -/
def lift (st : Pancake.ExpandState) : ExpandState :=
  { queryPos := st.queryPos, targetPos := st.targetPos, lastAddedOp := st.lastAddedOp,
    ret := st.ret }

end Machine

/-! ## Facts about `AppendToCigar` -/

theorem AppendToCigar_zero (cigar : Cigar) (newOp : CigarOperationType) :
    AppendToCigar cigar newOp 0 = cigar := by
  simp [AppendToCigar]

theorem AppendToCigar_nil (newOp : CigarOperationType) (newLen : Nat) (h : newLen ≠ 0) :
    AppendToCigar [] newOp newLen = [⟨newOp, newLen⟩] := by
  simp [AppendToCigar, h]

theorem AppendToCigar_snoc_same (init : Cigar) (last : CigarOperation)
    (newLen : Nat) (h : newLen ≠ 0) :
    AppendToCigar (init ++ [last]) last.type newLen
      = init ++ [⟨last.type, last.length + newLen⟩] := by
  simp [AppendToCigar, h]

theorem AppendToCigar_snoc_diff (init : Cigar) (last : CigarOperation)
    (newOp : CigarOperationType) (newLen : Nat) (h : newLen ≠ 0) (hop : newOp ≠ last.type) :
    AppendToCigar (init ++ [last]) newOp newLen = init ++ [last, ⟨newOp, newLen⟩] := by
  simp [AppendToCigar, h, hop]

/-- Case analysis on the three ways in which `AppendToCigar` acts. -/
theorem AppendToCigar_cases (cigar : Cigar) (newOp : CigarOperationType) (newLen : Nat) :
    (newLen = 0 ∧ AppendToCigar cigar newOp newLen = cigar) ∨
    (newLen ≠ 0 ∧ ∃ init last, cigar = init ++ [last] ∧ last.type = newOp ∧
        AppendToCigar cigar newOp newLen = init ++ [⟨newOp, last.length + newLen⟩]) ∨
    (newLen ≠ 0 ∧ (cigar = [] ∨ ∃ init last, cigar = init ++ [last] ∧ last.type ≠ newOp) ∧
        AppendToCigar cigar newOp newLen = cigar ++ [⟨newOp, newLen⟩]) := by
  by_cases h : newLen = 0
  · left; exact ⟨h, by subst h; exact AppendToCigar_zero _ _⟩
  · right
    rcases List.eq_nil_or_concat cigar with hc | ⟨init, last, hc⟩
    · right; subst hc
      exact ⟨h, Or.inl rfl, AppendToCigar_nil _ _ h⟩
    · rw [List.concat_eq_append] at hc
      subst hc
      by_cases hop : newOp = last.type
      · left; subst hop
        exact ⟨h, init, last, rfl, rfl, AppendToCigar_snoc_same _ _ _ h⟩
      · right
        refine ⟨h, Or.inr ⟨init, last, rfl, fun e => hop e.symm⟩, ?_⟩
        rw [AppendToCigar_snoc_diff _ _ _ _ h hop]; simp

theorem expand_nil : expand [] = [] := rfl

theorem expand_append (a b : Cigar) : expand (a ++ b) = expand a ++ expand b := by
  simp [expand]

theorem expand_singleton (op : CigarOperation) :
    expand [op] = List.replicate op.length op.type := by
  simp [expand]

theorem expand_cons (op : CigarOperation) (c : Cigar) :
    expand (op :: c) = List.replicate op.length op.type ++ expand c := by
  simp [expand]

/-- Appending with merge is plain concatenation on the per-base level. -/
theorem expand_AppendToCigar (cigar : Cigar) (newOp : CigarOperationType) (newLen : Nat) :
    expand (AppendToCigar cigar newOp newLen) = expand cigar ++ List.replicate newLen newOp := by
  rcases AppendToCigar_cases cigar newOp newLen with ⟨h, e⟩ | ⟨_, init, last, hc, hop, e⟩ | ⟨_, _, e⟩
  · rw [e, h]; simp
  · rw [e, hc, expand_append, expand_append, expand_singleton, expand_singleton, ← hop]
    rw [List.replicate_add, List.append_assoc]
  · rw [e, expand_append, expand_singleton]

/-! ## Facts about `EdlibAlignmentToCigar` -/

theorem opToCigar_lookup (code : Nat) (h : code < 4) :
    ∃ op, opToCigar[code]? = some op ∧ op ≠ UNKNOWN_OP := by
  interval_cases code <;> simp [opToCigar]

theorem noAdjacentSame_snoc (l : Cigar) (a : CigarOperation) :
    NoAdjacentSame (l ++ [a]) ↔ NoAdjacentSame l ∧ ∀ x ∈ l.getLast?, x.type ≠ a.type := by
  unfold NoAdjacentSame
  rw [List.chain'_append]
  simp

theorem positiveLengths_snoc (l : Cigar) (a : CigarOperation) :
    PositiveLengths (l ++ [a]) ↔ PositiveLengths l ∧ 0 < a.length := by
  unfold PositiveLengths
  simp only [List.mem_append, List.mem_singleton]
  constructor
  · intro h
    exact ⟨fun op hop => h op (Or.inl hop), h a (Or.inr rfl)⟩
  · rintro ⟨h1, h2⟩ op (hop | rfl)
    · exact h1 op hop
    · exact h2

/-- What the loop of `EdlibAlignmentToCigar` returns from index `i` on, for a trace of
recognised codes: its per-base expansion is that of the runs emitted so far, then the
pending run, then the codes still to be read; and the result is well formed. -/
theorem EdlibAlignmentToCigar.loop_spec (aln : Nat → Nat) (alnLen : Nat) (hpos : 0 < alnLen)
    (hcodes : ∀ j, j < alnLen → aln j < 4) :
    ∀ (remaining i : Nat) (st : DecodeState), i ≤ alnLen → i + remaining = alnLen + 1 →
      DecodeInv i st →
      ∃ ret, EdlibAlignmentToCigar.loop aln alnLen remaining i st = .ok ret ∧
        (expand ret).map some = (expand st.ret).map some
            ++ List.replicate st.count (some st.prevOp)
            ++ (List.range' i (alnLen - i)).map (fun j => opToCigar[aln j]?) ∧
        PositiveLengths ret ∧ NoAdjacentSame ret := by
  intro remaining
  induction remaining with
  | zero => intro i st hle hi; omega
  | succ remaining ih =>
    intro i st hle hi inv
    unfold EdlibAlignmentToCigar.loop
    by_cases hend : i = alnLen
    · have hrem : remaining = 0 := by omega
      subst hrem
      simp only [hend, if_true, EdlibAlignmentToCigar.loop, DecodeState.emit]
      refine ⟨_, rfl, ?_, ?_, inv.distinct⟩
      · simp [expand_append, expand_singleton]
      · rw [positiveLengths_snoc]
        exact ⟨inv.positive, inv.counting (inv.started (by omega))⟩
    · have hlt : i < alnLen := by omega
      obtain ⟨op, hop, hne⟩ := opToCigar_lookup (aln i) (hcodes i hlt)
      have hrange : List.range' i (alnLen - i) = i :: List.range' (i + 1) (alnLen - (i + 1)) := by
        have : alnLen - i = (alnLen - (i + 1)) + 1 := by omega
        rw [this, List.range'_succ]
      simp only [hend, if_false, hop, hlt, if_true]
      by_cases hemit : op ≠ st.prevOp ∧ st.prevOp ≠ UNKNOWN_OP
      · simp only [hemit, and_self, if_true, not_false_eq_true, ne_eq, DecodeState.emit]
        have inv2 : DecodeInv (i + 1)
            { prevOp := op, count := 0 + 1, ret := st.ret ++ [⟨st.prevOp, st.count⟩] } := by
          refine ⟨fun _ => hne, fun h => absurd h hne, fun _ => by simp, ?_, ?_⟩
          · rw [positiveLengths_snoc]
            exact ⟨inv.positive, inv.counting hemit.2⟩
          · rw [noAdjacentSame_snoc]
            refine ⟨inv.distinct, ?_⟩
            intro x hx
            simp at hx
            subst hx
            exact fun e => hemit.1 e.symm
        obtain ⟨ret, hret, hexp, hp, hd⟩ := ih (i + 1) _ (by omega) (by omega) inv2
        refine ⟨ret, hret, ?_, hp, hd⟩
        rw [hexp, hrange]
        simp [expand_append, expand_singleton, hop]
      · simp only [hemit, if_false]
        have hcase : op = st.prevOp ∨ st.prevOp = UNKNOWN_OP := by
          by_cases h : op = st.prevOp
          · exact Or.inl h
          · right
            by_contra h2
            exact hemit ⟨h, h2⟩
        have inv2 : DecodeInv (i + 1)
            { prevOp := op, count := st.count + 1, ret := st.ret } := by
          refine ⟨fun _ => hne, fun h => absurd h hne, fun _ => by simp, inv.positive, ?_⟩
          rcases hcase with h | h
          · have := inv.distinct
            rw [noAdjacentSame_snoc] at this ⊢
            simpa [h] using this
          · rw [(inv.fresh h).2]
            simp [NoAdjacentSame]
        obtain ⟨ret, hret, hexp, hp, hd⟩ := ih (i + 1) _ (by omega) (by omega) inv2
        refine ⟨ret, hret, ?_, hp, hd⟩
        rw [hexp, hrange]
        rcases hcase with h | h
        · subst h
          simp [hop, List.replicate_add]
        · have h0 := (inv.fresh h).1
          simp [h0, hop]

/-- The decoder returns a value on every trace of recognised codes, and the value is
determined by the three properties below. -/
theorem EdlibAlignmentToCigar_spec (aln : Nat → Nat) (n : Nat)
    (hcodes : ∀ j, j < n → aln j < 4) :
    ∃ ret, EdlibAlignmentToCigar aln (n : Int) = .ok ret ∧
      (expand ret).map some = (List.range n).map (fun j => opToCigar[aln j]?) ∧
      PositiveLengths ret ∧ NoAdjacentSame ret := by
  unfold EdlibAlignmentToCigar
  by_cases hn : n = 0
  · subst hn
    refine ⟨[], by simp, by simp [expand], ?_, ?_⟩
    · intro op hop; simp at hop
    · simp [NoAdjacentSame]
  · have hpos : 0 < n := Nat.pos_of_ne_zero hn
    have hle : ¬ ((n : Int) ≤ 0) := by omega
    simp only [hle, if_false, Int.toNat_ofNat]
    have inv : DecodeInv 0 { prevOp := UNKNOWN_OP, count := 0, ret := [] } := by
      refine ⟨fun h => absurd h (lt_irrefl 0), fun _ => ⟨rfl, rfl⟩, fun h => absurd rfl h, ?_, ?_⟩
      · intro op hop; simp at hop
      · simp [NoAdjacentSame]
    obtain ⟨ret, hret, hexp, hp, hd⟩ :=
      EdlibAlignmentToCigar.loop_spec aln n hpos hcodes (n + 1) 0 _ (by omega) (by omega) inv
    refine ⟨ret, hret, ?_, hp, hd⟩
    rw [hexp]
    simp [expand, List.range_eq_range']

/-! ## Facts about `ExpandMismatches` -/

theorem diagonalUnits_zero (query target : Nat → Char) (q t : Nat) :
    diagonalUnits query target q t 0 = [] := rfl

theorem diagonalUnits_succ (query target : Nat → Char) (q t n : Nat) :
    diagonalUnits query target q t (n + 1)
      = (if query q = target t then SEQUENCE_MATCH else SEQUENCE_MISMATCH)
          :: diagonalUnits query target (q + 1) (t + 1) n := by
  unfold diagonalUnits
  rw [List.range_succ_eq_map]
  simp only [List.map_cons, List.map_map, Nat.add_zero]
  congr 1
  apply List.map_congr_left
  intro k _
  simp only [Function.comp]
  rw [show q + 1 + k = q + (k + 1) by omega, show t + 1 + k = t + (k + 1) by omega]

theorem diagonalUnits_length (query target : Nat → Char) (q t n : Nat) :
    (diagonalUnits query target q t n).length = n := by
  simp [diagonalUnits]

/-- The state after the diagonal loop. -/
theorem ExpandMismatches.diagonal_spec (query target : Nat → Char) :
    ∀ (n : Nat) (st : ExpandState),
      expand (ExpandMismatches.diagonal query target n st).ret
          = expand st.ret ++ diagonalUnits query target st.queryPos st.targetPos n ∧
      (ExpandMismatches.diagonal query target n st).queryPos = st.queryPos + n ∧
      (ExpandMismatches.diagonal query target n st).targetPos = st.targetPos + n ∧
      (ExpandMismatches.diagonal query target n st).lastAddedOp = st.lastAddedOp := by
  intro n
  induction n with
  | zero => intro st; simp [ExpandMismatches.diagonal, diagonalUnits_zero]
  | succ n ih =>
    intro st
    unfold ExpandMismatches.diagonal
    obtain ⟨h1, h2, h3, h4⟩ := ih
      { st with
        ret := if query st.queryPos = target st.targetPos
          then AppendToCigar st.ret SEQUENCE_MATCH 1
          else AppendToCigar st.ret SEQUENCE_MISMATCH 1,
        queryPos := st.queryPos + 1, targetPos := st.targetPos + 1 }
    refine ⟨?_, ?_, ?_, ?_⟩
    · rw [h1, diagonalUnits_succ]
      by_cases h : query st.queryPos = target st.targetPos <;>
        simp [h, expand_AppendToCigar]
    · rw [h2]; simp only []; omega
    · rw [h3]; simp only []; omega
    · rw [h4]

/-- The state after the branch that rewrites an insertion/deletion pair. -/
theorem ExpandMismatches.collapse_spec (query target : Nat → Char)
    (prevOp currOp : CigarOperation) (i : Nat) (st : ExpandState) :
    let minLen := min prevOp.length currOp.length
    let leftHang := prevOp.length - minLen
    let rightHang := currOp.length - minLen
    let q1 := if prevOp.type = DELETION then st.queryPos else st.queryPos + leftHang
    let t1 := if prevOp.type = DELETION then st.targetPos + leftHang else st.targetPos
    let st5 := ExpandMismatches.collapse query target prevOp currOp i st
    expand st5.ret
        = expand st.ret ++ (List.replicate leftHang prevOp.type
            ++ diagonalUnits query target q1 t1 minLen
            ++ List.replicate rightHang currOp.type) ∧
      st5.queryPos
        = (if currOp.type = DELETION then q1 + minLen else q1 + minLen + rightHang) ∧
      st5.targetPos
        = (if currOp.type = DELETION then t1 + minLen + rightHang else t1 + minLen) ∧
      st5.lastAddedOp = (i : Int) := by
  intro minLen leftHang rightHang q1 t1 st5
  have hd := ExpandMismatches.diagonal_spec query target minLen
    (if prevOp.type = DELETION then
      { st with ret := AppendToCigar st.ret prevOp.type leftHang,
                targetPos := st.targetPos + leftHang }
    else
      { st with ret := AppendToCigar st.ret prevOp.type leftHang,
                queryPos := st.queryPos + leftHang })
  obtain ⟨h1, h2, h3, _⟩ := hd
  by_cases hp : prevOp.type = DELETION <;> by_cases hc : currOp.type = DELETION <;>
    simp only [hp, hc, if_true, if_false] at h1 h2 h3 <;>
    simp only [st5, q1, t1, ExpandMismatches.collapse, hp, hc, if_true, if_false,
      expand_AppendToCigar, h1, h2, h3, List.append_assoc, and_self, and_true]

/-- The state after the branch that passes a run through. -/
theorem ExpandMismatches.passThrough_spec (prevOp : CigarOperation) (i : Nat)
    (st : ExpandState) :
    let st2 := ExpandMismatches.passThrough prevOp i st
    expand st2.ret = expand st.ret ++ List.replicate prevOp.length prevOp.type ∧
      st2.queryPos = (advance prevOp (st.queryPos, st.targetPos)).1 ∧
      st2.targetPos = (advance prevOp (st.queryPos, st.targetPos)).2 ∧
      st2.lastAddedOp = (i : Int) - 1 := by
  intro st2
  by_cases hd : prevOp.type = DELETION <;> by_cases hi : prevOp.type = INSERTION <;>
    simp [st2, ExpandMismatches.passThrough, advance, hd, hi, expand_AppendToCigar]

/-- Appending a list of runs one by one is concatenation on the per-base level. -/
theorem expand_foldl_AppendToCigar (l : Cigar) :
    ∀ ret : Cigar,
      expand (l.foldl (fun ret op => AppendToCigar ret op.type op.length) ret)
        = expand ret ++ expand l := by
  induction l with
  | nil => intro ret; simp [expand_nil]
  | cons op l ih =>
    intro ret
    rw [List.foldl_cons, ih, expand_AppendToCigar, expand_cons, List.append_assoc]

theorem refinedUnits_short (query target : Nat → Char) (q t : Nat) (cigar : Cigar)
    (h : cigar.length ≤ 1) : refinedUnits query target q t cigar = expand cigar := by
  match cigar, h with
  | [], _ => unfold refinedUnits; rfl
  | [_], _ => unfold refinedUnits; rfl
  | _ :: _ :: _, h => simp at h

/-- The runs from index `i - 1` on, when both `cigar[i - 1]` and `cigar[i]` exist. -/
theorem drop_pred_eq (cigar : Cigar) (i : Nat) (hi : 1 ≤ i) (prevOp currOp : CigarOperation)
    (hp : cigar[i - 1]? = some prevOp) (hc : cigar[i]? = some currOp) :
    cigar.drop (i - 1) = prevOp :: currOp :: cigar.drop (i + 1) ∧
      cigar.drop i = currOp :: cigar.drop (i + 1) := by
  have h2 : cigar.drop i = currOp :: cigar.drop (i + 1) := by
    obtain ⟨hlt, heq⟩ := List.getElem?_eq_some_iff.mp hc
    rw [← heq]
    exact List.drop_eq_getElem_cons hlt
  refine ⟨?_, h2⟩
  obtain ⟨hlt, heq⟩ := List.getElem?_eq_some_iff.mp hp
  have := List.drop_eq_getElem_cons hlt
  rw [heq, show i - 1 + 1 = i by omega, h2] at this
  exact this

/-- The scanning loop has left its range when its iterations are used up: one more
iteration changes nothing, so `cigar.length` iterations from index 1 are enough. -/
theorem ExpandMismatches.loop_enough (query : Nat → Char) (queryLen : Int)
    (target : Nat → Char) (targetLen : Int) (cigar : Cigar) :
    ∀ (remaining i : Nat) (st : ExpandState), cigar.length ≤ i + remaining →
      ExpandMismatches.loop query queryLen target targetLen cigar (remaining + 1) i st
        = ExpandMismatches.loop query queryLen target targetLen cigar remaining i st := by
  intro remaining
  induction remaining with
  | zero =>
    intro i st h
    have : ¬ i < cigar.length := by omega
    simp [ExpandMismatches.loop, this]
  | succ remaining ih =>
    intro i st h
    rw [ExpandMismatches.loop]
    conv_rhs => rw [ExpandMismatches.loop]
    split
    · split
      · split
        · rfl
        · split
          · exact ih _ _ (by omega)
          · exact ih _ _ (by omega)
      · rfl
    · rfl

/-- The per-base expansion of the value that `ExpandMismatches` returns, seen from the top
of the scanning loop at index `i`. -/
theorem ExpandMismatches.expand_loop (query : Nat → Char) (queryLen : Int)
    (target : Nat → Char) (targetLen : Int) (cigar : Cigar) :
    ∀ (remaining i : Nat) (st st' : ExpandState), 1 ≤ i → cigar.length ≤ i + remaining →
      st.lastAddedOp = (i : Int) - 2 →
      ExpandMismatches.loop query queryLen target targetLen cigar remaining i st = .ok st' →
      expand (ExpandMismatches.remainder cigar st')
        = expand st.ret ++ refinedUnits query target st.queryPos st.targetPos
            (cigar.drop (i - 1)) := by
  have hexit : ∀ (i : Nat) (st : ExpandState), 1 ≤ i → cigar.length ≤ i →
      st.lastAddedOp = (i : Int) - 2 →
      expand (ExpandMismatches.remainder cigar st)
        = expand st.ret ++ refinedUnits query target st.queryPos st.targetPos
            (cigar.drop (i - 1)) := by
    intro i st hi hlen hlast
    have hidx : (st.lastAddedOp + 1).toNat = i - 1 := by omega
    unfold ExpandMismatches.remainder
    rw [expand_foldl_AppendToCigar, hidx, refinedUnits_short]
    rw [List.length_drop]; omega
  intro remaining
  induction remaining with
  | zero =>
    intro i st st' hi hlen hlast hloop
    simp only [ExpandMismatches.loop, Except.ok.injEq] at hloop
    subst hloop
    exact hexit i st hi (by omega) hlast
  | succ remaining ih =>
    intro i st st' hi hlen hlast hloop
    unfold ExpandMismatches.loop at hloop
    by_cases hlt : i < cigar.length
    · simp only [hlt, if_true] at hloop
      have hpl : i - 1 < cigar.length := by omega
      have hp : cigar[i - 1]? = some cigar[i - 1] := List.getElem?_eq_getElem hpl
      have hc : cigar[i]? = some cigar[i] := List.getElem?_eq_getElem hlt
      obtain ⟨hdrop1, hdrop2⟩ := drop_pred_eq cigar i hi _ _ hp hc
      rw [hp, hc] at hloop
      simp only [] at hloop
      split at hloop
      · exact absurd hloop (by simp)
      · split at hloop
        · rename_i hpair
          obtain ⟨e1, e2, e3, e4⟩ :=
            ExpandMismatches.collapse_spec query target cigar[i - 1] cigar[i] i st
          have := ih (i + 2) _ st' (by omega) (by omega) (by rw [e4]; push_cast; omega) hloop
          rw [this, e1, e2, e3, hdrop1, show i + 2 - 1 = i + 1 by omega]
          conv_rhs => unfold refinedUnits
          rw [if_pos hpair]
          simp only [List.append_assoc]
        · rename_i hpair
          obtain ⟨e1, e2, e3, e4⟩ := ExpandMismatches.passThrough_spec cigar[i - 1] i st
          have := ih (i + 1) _ st' (by omega) (by omega) (by rw [e4]; push_cast; omega) hloop
          rw [this, e1, e2, e3, hdrop1, show i + 1 - 1 = i by omega, hdrop2]
          conv_rhs => unfold refinedUnits
          rw [if_neg hpair, List.append_assoc]
    · simp only [hlt, if_false, Except.ok.injEq] at hloop
      subst hloop
      exact hexit i st hi (by omega) hlast

/-- On every input on which `ExpandMismatches` returns, the per-base expansion of the
result is `refinedUnits` of the input, scanned from the cursors `(0, 0)`. -/
theorem ExpandMismatches.expand_eq (query : Nat → Char) (queryLen : Int)
    (target : Nat → Char) (targetLen : Int) (cigar ret : Cigar)
    (h : ExpandMismatches query queryLen target targetLen cigar = .ok ret) :
    expand ret = refinedUnits query target 0 0 cigar := by
  unfold ExpandMismatches at h
  by_cases hlen : cigar.length ≤ 1
  · simp only [hlen, if_true, Except.ok.injEq] at h
    subst h
    exact (refinedUnits_short query target 0 0 cigar hlen).symm
  · simp only [hlen, if_false] at h
    split at h
    · exact absurd h (by simp)
    · rename_i st hst
      simp only [Except.ok.injEq] at h
      subst h
      have := ExpandMismatches.expand_loop query queryLen target targetLen cigar
        cigar.length 1 _ st (le_refl 1) (by omega) (by simp) hst
      simpa [expand_nil] using this

/-! ## Sums of run lengths -/

theorem sumLengths_cons (p : CigarOperationType → Bool) (op : CigarOperation) (c : Cigar) :
    sumLengths p (op :: c) = (if p op.type then op.length else 0) + sumLengths p c := by
  unfold sumLengths
  by_cases h : p op.type <;> simp [List.filter_cons, h]

/-- A sum of run lengths counts the units of the per-base expansion. -/
theorem sumLengths_eq_countP (p : CigarOperationType → Bool) (c : Cigar) :
    sumLengths p c = (expand c).countP p := by
  induction c with
  | nil => simp [sumLengths, expand]
  | cons op c ih =>
    rw [sumLengths_cons, expand_cons, List.countP_append, ih, List.countP_replicate]

theorem countP_diagonalUnits (p : CigarOperationType → Bool) (hM : p SEQUENCE_MATCH = true)
    (hX : p SEQUENCE_MISMATCH = true) (query target : Nat → Char) (q t n : Nat) :
    (diagonalUnits query target q t n).countP p = n := by
  have hall : ∀ u ∈ diagonalUnits query target q t n, p u = true := by
    intro u hu
    simp only [diagonalUnits, List.mem_map] at hu
    obtain ⟨k, _, rfl⟩ := hu
    split <;> assumption
  rw [List.countP_eq_length.mpr hall, diagonalUnits_length]

theorem isIndelPair_iff (prevOp currOp : CigarOperation) :
    isIndelPair prevOp currOp = true ↔
      (prevOp.type = INSERTION ∧ currOp.type = DELETION) ∨
      (prevOp.type = DELETION ∧ currOp.type = INSERTION) := by
  simp [isIndelPair]

/-- Rewriting insertion/deletion pairs keeps the number of units that satisfy `p`, for
every `p` that holds of both diagonal operations and of exactly one of insertion and
deletion. -/
theorem countP_refinedUnits (p : CigarOperationType → Bool) (hM : p SEQUENCE_MATCH = true)
    (hX : p SEQUENCE_MISMATCH = true)
    (hID : (p INSERTION = true ∧ p DELETION = false) ∨
      (p INSERTION = false ∧ p DELETION = true))
    (query target : Nat → Char) (q t : Nat) (cigar : Cigar) :
    (refinedUnits query target q t cigar).countP p = (expand cigar).countP p := by
  induction q, t, cigar using refinedUnits.induct query target with
  | case1 q t prevOp currOp rest hpair minLen leftHang rightHang q1 t1 q2 t2 ih =>
    unfold refinedUnits
    rw [if_pos hpair]
    simp only [List.countP_append, expand_cons, List.countP_replicate]
    have ih2 :
        List.countP p (refinedUnits query target q2 t2 rest) = List.countP p (expand rest) := ih
    simp only [q2, t2, q1, t1, leftHang, rightHang, minLen, dite_eq_ite] at ih2
    rw [ih2, countP_diagonalUnits p hM hX]
    rcases (isIndelPair_iff prevOp currOp).mp hpair with ⟨h1, h2⟩ | ⟨h1, h2⟩ <;>
      rcases hID with ⟨hI, hD⟩ | ⟨hI, hD⟩ <;>
      simp only [h1, h2, hI, hD, if_true, if_false, Bool.false_eq_true] <;> omega
  | case2 q t prevOp currOp rest hpair ih =>
    unfold refinedUnits
    rw [if_neg hpair]
    simp only [List.countP_append, expand_cons, List.countP_replicate] at ih ⊢
    rw [ih]
  | case3 q t rest hshort =>
    unfold refinedUnits
    split
    · rename_i prevOp currOp rest2
      exact absurd rfl (hshort prevOp currOp rest2)
    · rfl

/-! ## The decoder: round trip and well-formedness -/

theorem RecognisedCode.lookup {code : Nat} (h : RecognisedCode code) :
    code < 4 ∧ opToCigar[code]? = some (editCodeOperation code) := by
  rcases h with h | h | h | h <;> subst h <;>
    simp [opToCigar, editCodeOperation, EDLIB_EDOP_MATCH, EDLIB_EDOP_INSERT,
      EDLIB_EDOP_DELETE, EDLIB_EDOP_MISMATCH]

theorem expand_length (c : Cigar) : (expand c).length = (c.map CigarOperation.length).sum := by
  induction c with
  | nil => rfl
  | cons op c ih => rw [expand_cons, List.length_append, ih]; simp

/-- The decoder on a trace of recognised codes, in terms of `editCodeOperation`. -/
theorem EdlibAlignmentToCigar_recognised (aln : Nat → Nat) (n : Nat)
    (hcodes : ∀ j, j < n → RecognisedCode (aln j)) :
    ∃ ret, EdlibAlignmentToCigar aln (n : Int) = .ok ret ∧
      expand ret = (List.range n).map (fun j => editCodeOperation (aln j)) ∧
      PositiveLengths ret ∧ NoAdjacentSame ret := by
  obtain ⟨ret, hret, hexp, hp, hd⟩ :=
    EdlibAlignmentToCigar_spec aln n (fun j hj => (hcodes j hj).lookup.1)
  refine ⟨ret, hret, ?_, hp, hd⟩
  apply List.map_injective_iff.mpr (Option.some_injective _)
  rw [hexp, List.map_map]
  apply List.map_congr_left
  intro j hj
  exact (hcodes j (List.mem_range.mp hj)).lookup.2

/-- C1 (round-trip expansion).  For every raw trace of length `n` whose codes are all
among the four recognised edit codes, `EdlibAlignmentToCigar` returns a run sequence,
and expanding each of its runs into as many copies of its operation as its length
gives back, in order, the operations of the `n` edit codes of the trace. -/
theorem EdlibAlignmentToCigar_roundtrip (aln : Nat → Nat) (n : Nat)
    (hcodes : ∀ j, j < n → RecognisedCode (aln j)) :
    ∃ ret, EdlibAlignmentToCigar aln (n : Int) = .ok ret ∧
      expand ret = (List.range n).map (fun j => editCodeOperation (aln j)) := by
  obtain ⟨ret, hret, hexp, _, _⟩ := EdlibAlignmentToCigar_recognised aln n hcodes
  exact ⟨ret, hret, hexp⟩

/-- The round trip on the trace `0 0 1 3 2 2`. -/
theorem EdlibAlignmentToCigar_roundtrip_witness :
    (∀ j, j < 6 → RecognisedCode (buffer 0 [0, 0, 1, 3, 2, 2] j)) ∧
    ∃ ret, EdlibAlignmentToCigar (buffer 0 [0, 0, 1, 3, 2, 2]) ((6 : Nat) : Int) = .ok ret ∧
      expand ret
        = (List.range 6).map (fun j => editCodeOperation (buffer 0 [0, 0, 1, 3, 2, 2] j)) :=
  ⟨by decide, EdlibAlignmentToCigar_roundtrip (buffer 0 [0, 0, 1, 3, 2, 2]) 6 (by decide)⟩

/-- C2 (decoder guarantee).  For every raw trace of recognised codes and every length
`n`, the run sequence that `EdlibAlignmentToCigar` returns has run lengths that sum to
`n`, has no run of length zero, and has no two adjacent runs with the same operation. -/
theorem EdlibAlignmentToCigar_well_formed (aln : Nat → Nat) (n : Nat)
    (hcodes : ∀ j, j < n → RecognisedCode (aln j)) :
    ∃ ret, EdlibAlignmentToCigar aln (n : Int) = .ok ret ∧
      (ret.map CigarOperation.length).sum = n ∧
      (∀ op ∈ ret, 0 < op.length) ∧
      List.Chain' (fun a b => a.type ≠ b.type) ret := by
  obtain ⟨ret, hret, hexp, hp, hd⟩ := EdlibAlignmentToCigar_recognised aln n hcodes
  refine ⟨ret, hret, ?_, hp, hd⟩
  rw [← expand_length, hexp]
  simp

/-- The guarantee on the trace `3 3 3 0 1 1`. -/
theorem EdlibAlignmentToCigar_well_formed_witness :
    (∀ j, j < 6 → RecognisedCode (buffer 0 [3, 3, 3, 0, 1, 1] j)) ∧
    ∃ ret, EdlibAlignmentToCigar (buffer 0 [3, 3, 3, 0, 1, 1]) ((6 : Nat) : Int) = .ok ret ∧
      (ret.map CigarOperation.length).sum = 6 ∧
      (∀ op ∈ ret, 0 < op.length) ∧
      List.Chain' (fun a b => a.type ≠ b.type) ret :=
  ⟨by decide, EdlibAlignmentToCigar_well_formed (buffer 0 [3, 3, 3, 0, 1, 1]) 6 (by decide)⟩

/-! ## Exact arithmetic: refinement keeps the coordinate spans -/

/-- In exact arithmetic, the result of `ExpandMismatches` has the query span and the
target span of the input. -/
theorem exact_preserves_spans (query : Nat → Char) (queryLen : Int)
    (target : Nat → Char) (targetLen : Int) (cigar ret : Cigar)
    (h : ExpandMismatches query queryLen target targetLen cigar = .ok ret) :
    querySpan ret = querySpan cigar ∧ targetSpan ret = targetSpan cigar := by
  have hexp := ExpandMismatches.expand_eq query queryLen target targetLen cigar ret h
  unfold querySpan targetSpan
  simp only [sumLengths_eq_countP, hexp]
  constructor
  · exact countP_refinedUnits _ (by decide) (by decide) (Or.inl ⟨by decide, by decide⟩) _ _ _ _ _
  · exact countP_refinedUnits _ (by decide) (by decide) (Or.inr ⟨by decide, by decide⟩) _ _ _ _ _

/-! ## Exact arithmetic: refinement keeps base-consistency -/

theorem walk_append (query target : Nat → Char) (a b : List CigarOperationType) :
    ∀ q t : Nat, walk query target q t (a ++ b)
      = (walk query target q t a).bind (fun p => walk query target p.1 p.2 b) := by
  induction a with
  | nil => intro q t; simp [walk]
  | cons u a ih =>
    intro q t
    simp only [List.cons_append, walk]
    split_ifs <;> simp [ih]

theorem walk_replicate_insertion (query target : Nat → Char) (n : Nat) :
    ∀ q t : Nat, walk query target q t (List.replicate n INSERTION) = some (q + n, t) := by
  induction n with
  | zero => intro q t; simp [walk]
  | succ n ih =>
    intro q t
    rw [List.replicate_succ]
    simp only [walk, reduceCtorEq, if_false, if_true, ih, Option.some.injEq, Prod.mk.injEq,
      and_true]
    omega

theorem walk_replicate_deletion (query target : Nat → Char) (n : Nat) :
    ∀ q t : Nat, walk query target q t (List.replicate n DELETION) = some (q, t + n) := by
  induction n with
  | zero => intro q t; simp [walk]
  | succ n ih =>
    intro q t
    rw [List.replicate_succ]
    simp only [walk, reduceCtorEq, if_false, if_true, ih, Option.some.injEq, Prod.mk.injEq,
      true_and]
    omega

theorem walk_diagonalUnits (query target : Nat → Char) (n : Nat) :
    ∀ q t : Nat, walk query target q t (diagonalUnits query target q t n)
      = some (q + n, t + n) := by
  induction n with
  | zero => intro q t; simp [walk, diagonalUnits_zero]
  | succ n ih =>
    intro q t
    rw [diagonalUnits_succ]
    by_cases h : query q = target t
    · simp only [h, if_true, walk, ih, Option.some.injEq, Prod.mk.injEq]
      omega
    · simp only [h, if_false, walk, reduceCtorEq, ne_eq, not_false_eq_true, if_true, ih,
        Option.some.injEq, Prod.mk.injEq]
      omega

/-- A successful walk over one run ends where the source moves its cursors to. -/
theorem walk_replicate_advance (query target : Nat → Char) (op : CigarOperationType) (n : Nat) :
    ∀ (q t : Nat) (p : Nat × Nat), walk query target q t (List.replicate n op) = some p →
      p = advance ⟨op, n⟩ (q, t) := by
  induction n with
  | zero =>
    intro q t p h
    simp only [List.replicate_zero, walk, Option.some.injEq] at h
    subst h
    simp [advance]
  | succ n ih =>
    intro q t p h
    rw [List.replicate_succ] at h
    simp only [walk] at h
    split_ifs at h with h1 h2 h3 h4 h5 h6
    all_goals
      have := ih _ _ _ h
      subst this
      subst_vars
      simp only [advance, ne_eq, reduceCtorEq, not_false_eq_true, not_true_eq_false,
        if_true, if_false, Prod.mk.injEq]
      constructor <;> first | omega | trivial

/-- Rewriting insertion/deletion pairs keeps a successful walk successful, with the same
final cursors. -/
theorem walk_refinedUnits (query target : Nat → Char) (q t : Nat) (cigar : Cigar) (p : Nat × Nat)
    (h : walk query target q t (expand cigar) = some p) :
    walk query target q t (refinedUnits query target q t cigar) = some p := by
  induction q, t, cigar using refinedUnits.induct query target with
  | case1 q t prevOp currOp rest hpair minLen leftHang rightHang q1 t1 q2 t2 ih =>
    unfold refinedUnits
    rw [if_pos hpair]
    have ih2 : walk query target q2 t2 (expand rest) = some p →
        walk query target q2 t2 (refinedUnits query target q2 t2 rest) = some p := ih
    simp only [q2, t2, q1, t1, leftHang, rightHang, minLen, dite_eq_ite] at ih2
    rw [expand_cons, expand_cons] at h
    have e1 : q + (prevOp.length - min prevOp.length currOp.length)
        + min prevOp.length currOp.length = q + prevOp.length := by omega
    have e2 : t + min prevOp.length currOp.length
        + (currOp.length - min prevOp.length currOp.length) = t + currOp.length := by omega
    have e3 : q + min prevOp.length currOp.length
        + (currOp.length - min prevOp.length currOp.length) = q + currOp.length := by omega
    have e4 : t + (prevOp.length - min prevOp.length currOp.length)
        + min prevOp.length currOp.length = t + prevOp.length := by omega
    rcases (isIndelPair_iff prevOp currOp).mp hpair with ⟨h1, h2⟩ | ⟨h1, h2⟩
    · simp only [h1, h2, walk_append, walk_replicate_insertion, walk_replicate_deletion,
        Option.some_bind] at h
      simp only [h1, h2, if_true, if_false, reduceCtorEq, e1, e2] at ih2 ⊢
      simp only [walk_append, walk_replicate_insertion, walk_replicate_deletion,
        walk_diagonalUnits, Option.some_bind, e1, e2]
      exact ih2 h
    · simp only [h1, h2, walk_append, walk_replicate_insertion, walk_replicate_deletion,
        Option.some_bind] at h
      simp only [h1, h2, if_true, if_false, reduceCtorEq, e3, e4] at ih2 ⊢
      simp only [walk_append, walk_replicate_insertion, walk_replicate_deletion,
        walk_diagonalUnits, Option.some_bind, e3, e4]
      exact ih2 h
  | case2 q t prevOp currOp rest hpair ih =>
    unfold refinedUnits
    rw [if_neg hpair]
    rw [expand_cons, walk_append] at h
    rw [walk_append]
    cases hw : walk query target q t (List.replicate prevOp.length prevOp.type) with
    | none => rw [hw] at h; simp at h
    | some p1 =>
      rw [hw] at h
      simp only [Option.some_bind] at h ⊢
      have := walk_replicate_advance query target prevOp.type prevOp.length q t p1 hw
      subst this
      exact ih h
  | case3 q t rest hshort =>
    rw [refinedUnits_short]
    · exact h
    · match rest, hshort with
      | [], _ => simp
      | [_], _ => simp
      | a :: b :: r, hs => exact absurd rfl (hs a b r)

/-- In exact arithmetic, the result of `ExpandMismatches` on a base-consistent input is
base-consistent: every match unit sits on equal bases and every mismatch unit on different
bases, when the run sequence is walked from the cursors `(0, 0)`. -/
theorem exact_preserves_base_consistency (query : Nat → Char) (queryLen : Int)
    (target : Nat → Char) (targetLen : Int) (cigar ret : Cigar)
    (hcons : BaseConsistent query target cigar)
    (_hq : (querySpan cigar : Int) ≤ queryLen) (_ht : (targetSpan cigar : Int) ≤ targetLen)
    (h : ExpandMismatches query queryLen target targetLen cigar = .ok ret) :
    BaseConsistent query target ret := by
  unfold BaseConsistent at hcons ⊢
  obtain ⟨p, hp⟩ := Option.isSome_iff_exists.mp hcons
  rw [ExpandMismatches.expand_eq query queryLen target targetLen cigar ret h,
    walk_refinedUnits query target 0 0 cigar p hp]
  rfl

/-! ## Exact arithmetic: refinement returns well-formed run sequences -/

theorem positiveLengths_nil : PositiveLengths [] := by
  intro op hop; simp at hop

theorem noAdjacentSame_nil : NoAdjacentSame [] := by
  simp [NoAdjacentSame]

/-- `AppendToCigar` keeps a run sequence free of empty runs and of equal neighbours. -/
theorem AppendToCigar_well_formed (cigar : Cigar) (newOp : CigarOperationType) (newLen : Nat)
    (hp : PositiveLengths cigar) (hd : NoAdjacentSame cigar) :
    PositiveLengths (AppendToCigar cigar newOp newLen) ∧
      NoAdjacentSame (AppendToCigar cigar newOp newLen) := by
  rcases AppendToCigar_cases cigar newOp newLen with
    ⟨_, e⟩ | ⟨hn, init, last, hc, hop, e⟩ | ⟨hn, hc, e⟩
  · rw [e]; exact ⟨hp, hd⟩
  · rw [e]
    subst hc
    rw [positiveLengths_snoc] at hp ⊢
    rw [noAdjacentSame_snoc] at hd ⊢
    refine ⟨⟨hp.1, by simp only []; omega⟩, hd.1, ?_⟩
    intro x hx
    simpa [hop] using hd.2 x hx
  · rw [e, positiveLengths_snoc, noAdjacentSame_snoc]
    refine ⟨⟨hp, Nat.pos_of_ne_zero hn⟩, hd, ?_⟩
    intro x hx
    rcases hc with hc | ⟨init, last, hc, hne⟩
    · subst hc; simp at hx
    · subst hc
      simp at hx
      subst hx
      exact hne

/-- The result of `ExpandMismatches.diagonal` is well formed when its argument is. -/
theorem ExpandMismatches.diagonal_well_formed (query target : Nat → Char) :
    ∀ (n : Nat) (st : ExpandState), PositiveLengths st.ret → NoAdjacentSame st.ret →
      PositiveLengths (ExpandMismatches.diagonal query target n st).ret ∧
        NoAdjacentSame (ExpandMismatches.diagonal query target n st).ret := by
  intro n
  induction n with
  | zero => intro st hp hd; exact ⟨hp, hd⟩
  | succ n ih =>
    intro st hp hd
    unfold ExpandMismatches.diagonal
    apply ih
    · simp only []
      split
      · exact (AppendToCigar_well_formed _ _ _ hp hd).1
      · exact (AppendToCigar_well_formed _ _ _ hp hd).1
    · simp only []
      split
      · exact (AppendToCigar_well_formed _ _ _ hp hd).2
      · exact (AppendToCigar_well_formed _ _ _ hp hd).2

theorem ExpandMismatches.collapse_well_formed (query target : Nat → Char)
    (prevOp currOp : CigarOperation) (i : Nat) (st : ExpandState)
    (hp : PositiveLengths st.ret) (hd : NoAdjacentSame st.ret) :
    PositiveLengths (ExpandMismatches.collapse query target prevOp currOp i st).ret ∧
      NoAdjacentSame (ExpandMismatches.collapse query target prevOp currOp i st).ret := by
  have h1 := AppendToCigar_well_formed st.ret prevOp.type
    (prevOp.length - min prevOp.length currOp.length) hp hd
  unfold ExpandMismatches.collapse
  by_cases hpd : prevOp.type = DELETION <;> by_cases hcd : currOp.type = DELETION
  · simp only [if_pos hpd, if_pos hcd]
    apply AppendToCigar_well_formed
    · exact (ExpandMismatches.diagonal_well_formed query target _ _ h1.1 h1.2).1
    · exact (ExpandMismatches.diagonal_well_formed query target _ _ h1.1 h1.2).2
  · simp only [if_pos hpd, if_neg hcd]
    apply AppendToCigar_well_formed
    · exact (ExpandMismatches.diagonal_well_formed query target _ _ h1.1 h1.2).1
    · exact (ExpandMismatches.diagonal_well_formed query target _ _ h1.1 h1.2).2
  · simp only [if_neg hpd, if_pos hcd]
    apply AppendToCigar_well_formed
    · exact (ExpandMismatches.diagonal_well_formed query target _ _ h1.1 h1.2).1
    · exact (ExpandMismatches.diagonal_well_formed query target _ _ h1.1 h1.2).2
  · simp only [if_neg hpd, if_neg hcd]
    apply AppendToCigar_well_formed
    · exact (ExpandMismatches.diagonal_well_formed query target _ _ h1.1 h1.2).1
    · exact (ExpandMismatches.diagonal_well_formed query target _ _ h1.1 h1.2).2

theorem ExpandMismatches.passThrough_well_formed (prevOp : CigarOperation) (i : Nat)
    (st : ExpandState) (hp : PositiveLengths st.ret) (hd : NoAdjacentSame st.ret) :
    PositiveLengths (ExpandMismatches.passThrough prevOp i st).ret ∧
      NoAdjacentSame (ExpandMismatches.passThrough prevOp i st).ret := by
  have hret : (ExpandMismatches.passThrough prevOp i st).ret
      = AppendToCigar st.ret prevOp.type prevOp.length := by
    unfold ExpandMismatches.passThrough
    simp only []
    split <;> split <;> rfl
  rw [hret]
  exact AppendToCigar_well_formed st.ret prevOp.type prevOp.length hp hd

theorem ExpandMismatches.loop_well_formed (query : Nat → Char) (queryLen : Int)
    (target : Nat → Char) (targetLen : Int) (cigar : Cigar) :
    ∀ (remaining i : Nat) (st st' : ExpandState),
      PositiveLengths st.ret → NoAdjacentSame st.ret →
      ExpandMismatches.loop query queryLen target targetLen cigar remaining i st = .ok st' →
      PositiveLengths st'.ret ∧ NoAdjacentSame st'.ret := by
  intro remaining
  induction remaining with
  | zero =>
    intro i st st' hp hd hloop
    simp only [ExpandMismatches.loop, Except.ok.injEq] at hloop
    subst hloop
    exact ⟨hp, hd⟩
  | succ remaining ih =>
    intro i st st' hp hd hloop
    unfold ExpandMismatches.loop at hloop
    split at hloop
    · split at hloop
      · split at hloop
        · exact absurd hloop (by simp)
        · split at hloop
          · rename_i prevOp currOp _ _ _ _
            have h := ExpandMismatches.collapse_well_formed query target prevOp currOp i st hp hd
            exact ih _ _ _ h.1 h.2 hloop
          · rename_i prevOp currOp _ _ _ _
            have h := ExpandMismatches.passThrough_well_formed prevOp i st hp hd
            exact ih _ _ _ h.1 h.2 hloop
      · exact absurd hloop (by simp)
    · simp only [Except.ok.injEq] at hloop
      subst hloop
      exact ⟨hp, hd⟩

theorem foldl_AppendToCigar_well_formed (l : Cigar) :
    ∀ ret : Cigar, PositiveLengths ret → NoAdjacentSame ret →
      PositiveLengths (l.foldl (fun ret op => AppendToCigar ret op.type op.length) ret) ∧
        NoAdjacentSame (l.foldl (fun ret op => AppendToCigar ret op.type op.length) ret) := by
  induction l with
  | nil => intro ret hp hd; exact ⟨hp, hd⟩
  | cons op l ih =>
    intro ret hp hd
    rw [List.foldl_cons]
    have h := AppendToCigar_well_formed ret op.type op.length hp hd
    exact ih _ h.1 h.2

/-- In exact arithmetic, on runs of positive length, every run of the result of
`ExpandMismatches` has a positive length and no two adjacent runs of the result have the
same operation. -/
theorem exact_well_formed (query : Nat → Char) (queryLen : Int)
    (target : Nat → Char) (targetLen : Int) (cigar ret : Cigar)
    (hpos : ∀ op ∈ cigar, 0 < op.length)
    (h : ExpandMismatches query queryLen target targetLen cigar = .ok ret) :
    (∀ op ∈ ret, 0 < op.length) ∧ List.Chain' (fun a b => a.type ≠ b.type) ret := by
  unfold ExpandMismatches at h
  by_cases hlen : cigar.length ≤ 1
  · simp only [hlen, if_true, Except.ok.injEq] at h
    subst h
    refine ⟨hpos, ?_⟩
    match cigar, hlen with
    | [], _ => simp
    | [_], _ => simp
    | _ :: _ :: _, hl => simp at hl
  · simp only [hlen, if_false] at h
    split at h
    · exact absurd h (by simp)
    · rename_i st hst
      simp only [Except.ok.injEq] at h
      subst h
      have hl := ExpandMismatches.loop_well_formed query queryLen target targetLen cigar
        cigar.length 1 _ st positiveLengths_nil noAdjacentSame_nil hst
      exact foldl_AppendToCigar_well_formed _ _ hl.1 hl.2

/-! ## Exact arithmetic: the collapse of a sequence of two runs -/

/-- The runs written by the diagonal loop are its units, appended one by one. -/
theorem ExpandMismatches.diagonal_ret (query target : Nat → Char) :
    ∀ (n : Nat) (st : ExpandState),
      (ExpandMismatches.diagonal query target n st).ret
        = appendUnits st.ret (diagonalUnits query target st.queryPos st.targetPos n) := by
  intro n
  induction n with
  | zero => intro st; rfl
  | succ n ih =>
    intro st
    unfold ExpandMismatches.diagonal
    rw [ih, diagonalUnits_succ]
    simp only [appendUnits, List.foldl_cons]
    split <;> rfl

/-- What `ExpandMismatches` returns on an insertion/deletion pair alone. -/
theorem ExpandMismatches_pair (query : Nat → Char) (queryLen : Int) (target : Nat → Char)
    (targetLen : Int) (prevOp currOp : CigarOperation)
    (hpair : isIndelPair prevOp currOp = true) (hq : 0 < queryLen) (ht : 0 < targetLen) :
    ExpandMismatches query queryLen target targetLen [prevOp, currOp]
      = .ok (ExpandMismatches.collapse query target prevOp currOp 1
          { queryPos := 0, targetPos := 0, lastAddedOp := -1, ret := [] }).ret := by
  have hq2 : ¬ (0 ≥ queryLen) := by omega
  have ht2 : ¬ (0 ≥ targetLen) := by omega
  have hlast : (ExpandMismatches.collapse query target prevOp currOp 1
      { queryPos := 0, targetPos := 0, lastAddedOp := -1, ret := [] }).lastAddedOp = 1 :=
    (ExpandMismatches.collapse_spec query target prevOp currOp 1 _).2.2.2
  simp [ExpandMismatches, ExpandMismatches.loop, hpair, hq2, ht2, ExpandMismatches.remainder,
    hlast]

theorem ExpandMismatches_ins_del (query : Nat → Char) (queryLen : Int) (target : Nat → Char)
    (targetLen : Int) (a b : Nat) (hq : 0 < queryLen) (ht : 0 < targetLen) :
    ExpandMismatches query queryLen target targetLen [⟨INSERTION, a⟩, ⟨DELETION, b⟩]
      = .ok (AppendToCigar
          (appendUnits (AppendToCigar [] INSERTION (a - min a b))
            ((List.range (min a b)).map (fun k =>
              if query (a - min a b + k) = target k then SEQUENCE_MATCH
              else SEQUENCE_MISMATCH)))
          DELETION (b - min a b)) := by
  rw [ExpandMismatches_pair query queryLen target targetLen _ _ (by rfl) hq ht]
  simp [ExpandMismatches.collapse, ExpandMismatches.diagonal_ret, diagonalUnits]

theorem ExpandMismatches_del_ins (query : Nat → Char) (queryLen : Int) (target : Nat → Char)
    (targetLen : Int) (a b : Nat) (hq : 0 < queryLen) (ht : 0 < targetLen) :
    ExpandMismatches query queryLen target targetLen [⟨DELETION, a⟩, ⟨INSERTION, b⟩]
      = .ok (AppendToCigar
          (appendUnits (AppendToCigar [] DELETION (a - min a b))
            ((List.range (min a b)).map (fun k =>
              if query k = target (a - min a b + k) then SEQUENCE_MATCH
              else SEQUENCE_MISMATCH)))
          INSERTION (b - min a b)) := by
  rw [ExpandMismatches_pair query queryLen target targetLen _ _ (by rfl) hq ht]
  simp [ExpandMismatches.collapse, ExpandMismatches.diagonal_ret, diagonalUnits]

/-! ## The two counting functions -/

theorem CigarDiffCounts.foldl_step (cigar : Cigar) :
    ∀ c : DiffCounts, cigar.foldl CigarDiffCounts.step c
      = ⟨c.numEq + sumLengths (· == SEQUENCE_MATCH) cigar,
         c.numX + sumLengths (· == SEQUENCE_MISMATCH) cigar,
         c.numI + sumLengths (· == INSERTION) cigar,
         c.numD + sumLengths (· == DELETION) cigar⟩ := by
  induction cigar with
  | nil => intro c; simp [sumLengths]
  | cons op cigar ih =>
    intro c
    rw [List.foldl_cons, ih]
    simp only [sumLengths_cons, CigarDiffCounts.step]
    rcases op with ⟨type, length⟩
    cases type <;> simp <;> omega

/-- Every counter of `CigarDiffCounts` is the sum of the lengths of the runs with its
operation. -/
theorem CigarDiffCounts_eq (cigar : Cigar) :
    CigarDiffCounts cigar
      = ⟨sumLengths (· == SEQUENCE_MATCH) cigar, sumLengths (· == SEQUENCE_MISMATCH) cigar,
         sumLengths (· == INSERTION) cigar, sumLengths (· == DELETION) cigar⟩ := by
  unfold CigarDiffCounts
  split
  · rename_i h
    rw [List.isEmpty_iff] at h
    subst h
    simp [sumLengths]
  · rw [CigarDiffCounts.foldl_step]
    simp

/-- The four sums of run lengths add up to the sum of all run lengths when every run has
one of the four operations. -/
theorem sumLengths_four (cigar : Cigar)
    (hfour : ∀ op ∈ cigar, op.type = SEQUENCE_MATCH ∨ op.type = SEQUENCE_MISMATCH ∨
      op.type = INSERTION ∨ op.type = DELETION) :
    sumLengths (· == SEQUENCE_MATCH) cigar + sumLengths (· == SEQUENCE_MISMATCH) cigar
      + sumLengths (· == INSERTION) cigar + sumLengths (· == DELETION) cigar
      = (cigar.map CigarOperation.length).sum := by
  induction cigar with
  | nil => simp [sumLengths]
  | cons op cigar ih =>
    have ih2 := ih (fun o ho => hfour o (List.mem_cons_of_mem _ ho))
    have hop := hfour op (List.mem_cons_self _ _)
    simp only [sumLengths_cons, List.map_cons, List.sum_cons]
    rcases hop with h | h | h | h <;> simp [h] <;> omega

/-- What the loop of `EdlibAlignmentDiffCounts` has counted when it returns. -/
theorem EdlibAlignmentDiffCounts.loop_counts (aln : Nat → Nat) :
    ∀ (remaining i : Nat) (c c' : DiffCounts),
      EdlibAlignmentDiffCounts.loop aln remaining i c = .ok c' →
      c'.numEq = c.numEq + ((List.range' i remaining).map
          (fun j => editCodeOperation (aln j))).count SEQUENCE_MATCH ∧
      c'.numX = c.numX + ((List.range' i remaining).map
          (fun j => editCodeOperation (aln j))).count SEQUENCE_MISMATCH ∧
      c'.numI = c.numI + ((List.range' i remaining).map
          (fun j => editCodeOperation (aln j))).count INSERTION ∧
      c'.numD = c.numD + ((List.range' i remaining).map
          (fun j => editCodeOperation (aln j))).count DELETION ∧
      c'.numEq + c'.numX + c'.numI + c'.numD
        = c.numEq + c.numX + c.numI + c.numD + remaining := by
  intro remaining
  induction remaining with
  | zero =>
    intro i c c' h
    simp only [EdlibAlignmentDiffCounts.loop, Except.ok.injEq] at h
    subst h
    simp
  | succ remaining ih =>
    intro i c c' h
    unfold EdlibAlignmentDiffCounts.loop at h
    rw [List.range'_succ, List.map_cons]
    split_ifs at h with h0 h3 h1 h2
    · obtain ⟨e1, e2, e3, e4, e5⟩ := ih _ _ _ h
      simp only [editCodeOperation, h0, if_true, List.count_cons, e1, e2, e3, e4] at e5 ⊢
      simp at e5 ⊢
      omega
    · obtain ⟨e1, e2, e3, e4, e5⟩ := ih _ _ _ h
      simp only [editCodeOperation, h3, EDLIB_EDOP_MISMATCH, EDLIB_EDOP_MATCH,
        EDLIB_EDOP_INSERT, EDLIB_EDOP_DELETE, List.count_cons, e1, e2, e3, e4] at e5 ⊢
      simp at e5 ⊢
      omega
    · obtain ⟨e1, e2, e3, e4, e5⟩ := ih _ _ _ h
      simp only [editCodeOperation, h1, EDLIB_EDOP_MISMATCH, EDLIB_EDOP_MATCH,
        EDLIB_EDOP_INSERT, EDLIB_EDOP_DELETE, List.count_cons, e1, e2, e3, e4] at e5 ⊢
      simp at e5 ⊢
      omega
    · obtain ⟨e1, e2, e3, e4, e5⟩ := ih _ _ _ h
      simp only [editCodeOperation, h2, EDLIB_EDOP_MISMATCH, EDLIB_EDOP_MATCH,
        EDLIB_EDOP_INSERT, EDLIB_EDOP_DELETE, List.count_cons, e1, e2, e3, e4] at e5 ⊢
      simp at e5 ⊢
      omega

/-- The loop of `EdlibAlignmentDiffCounts` returns on recognised codes. -/
theorem EdlibAlignmentDiffCounts.loop_returns (aln : Nat → Nat) :
    ∀ (remaining i : Nat) (c : DiffCounts),
      (∀ j, i ≤ j → j < i + remaining → RecognisedCode (aln j)) →
      ∃ c', EdlibAlignmentDiffCounts.loop aln remaining i c = .ok c' := by
  intro remaining
  induction remaining with
  | zero => intro i c _; exact ⟨c, rfl⟩
  | succ remaining ih =>
    intro i c hcodes
    unfold EdlibAlignmentDiffCounts.loop
    have hi := hcodes i (le_refl i) (by omega)
    have hrest : ∀ j, i + 1 ≤ j → j < i + 1 + remaining → RecognisedCode (aln j) :=
      fun j h1 h2 => hcodes j (by omega) (by omega)
    split_ifs with h0 h3 h1 h2
    · exact ih _ _ hrest
    · exact ih _ _ hrest
    · exact ih _ _ hrest
    · exact ih _ _ hrest
    · rcases hi with h | h | h | h
      · exact absurd h h0
      · exact absurd h h1
      · exact absurd h h2
      · exact absurd h h3

/-- C7 (diff-count consistency).  For every raw trace of recognised codes and every
length `n`, the four counters that `EdlibAlignmentDiffCounts` produces on the trace are
the four counters that `CigarDiffCounts` produces on the run sequence that
`EdlibAlignmentToCigar` returns for the trace. -/
theorem DiffCounts_consistent (aln : Nat → Nat) (n : Nat)
    (hcodes : ∀ j, j < n → RecognisedCode (aln j)) :
    ∃ ret counts, EdlibAlignmentToCigar aln (n : Int) = .ok ret ∧
      EdlibAlignmentDiffCounts aln (n : Int) = .ok counts ∧
      CigarDiffCounts ret = counts := by
  obtain ⟨ret, hret, hexp, _, _⟩ := EdlibAlignmentToCigar_recognised aln n hcodes
  by_cases hn : n = 0
  · subst hn
    refine ⟨ret, ⟨0, 0, 0, 0⟩, hret, by simp [EdlibAlignmentDiffCounts], ?_⟩
    simp only [EdlibAlignmentToCigar, Nat.cast_zero, le_refl, if_true, Except.ok.injEq] at hret
    subst hret
    rfl
  · obtain ⟨counts, hcounts⟩ := EdlibAlignmentDiffCounts.loop_returns aln n 0 ⟨0, 0, 0, 0⟩
      (fun j _ hj => hcodes j (by omega))
    have hle : ¬ ((n : Int) ≤ 0) := by omega
    refine ⟨ret, counts, hret, ?_, ?_⟩
    · simp only [EdlibAlignmentDiffCounts, hle, if_false, Int.toNat_ofNat]
      exact hcounts
    · obtain ⟨e1, e2, e3, e4, _⟩ := EdlibAlignmentDiffCounts.loop_counts aln n 0 _ _ hcounts
      rw [CigarDiffCounts_eq]
      simp only [sumLengths_eq_countP, hexp, List.range_eq_range']
      rcases counts with ⟨c1, c2, c3, c4⟩
      simp only [Nat.zero_add] at e1 e2 e3 e4
      simp only [e1, e2, e3, e4, List.count]

/-- The two ways of counting on the trace `0 3 3 1 2 0`. -/
theorem DiffCounts_consistent_witness :
    (∀ j, j < 6 → RecognisedCode (buffer 0 [0, 3, 3, 1, 2, 0] j)) ∧
    ∃ ret counts, EdlibAlignmentToCigar (buffer 0 [0, 3, 3, 1, 2, 0]) ((6 : Nat) : Int) = .ok ret ∧
      EdlibAlignmentDiffCounts (buffer 0 [0, 3, 3, 1, 2, 0]) ((6 : Nat) : Int) = .ok counts ∧
      CigarDiffCounts ret = counts :=
  ⟨by decide, DiffCounts_consistent (buffer 0 [0, 3, 3, 1, 2, 0]) 6 (by decide)⟩

/-! ## Trivial inputs of `ExpandMismatches` -/

/-- C9 (trivial cases).  For every query, target, `queryLen` and `targetLen`, whether or
not the lengths are consistent with the runs, `ExpandMismatches` returns the empty run
sequence unchanged and returns a run sequence of exactly one run unchanged, without
raising an error. -/
theorem ExpandMismatches_trivial (query : Nat → Char) (queryLen : Int) (target : Nat → Char)
    (targetLen : Int) :
    ExpandMismatches query queryLen target targetLen [] = .ok [] ∧
    ∀ op : CigarOperation, ExpandMismatches query queryLen target targetLen [op] = .ok [op] := by
  constructor
  · rfl
  · intro op; rfl


/-! ## Unrecognised edit codes -/

/-- The loop of `EdlibAlignmentDiffCounts` throws at the first unrecognised code. -/
theorem EdlibAlignmentDiffCounts.loop_error (aln : Nat → Nat) :
    ∀ (remaining i : Nat) (c : DiffCounts) (k : Nat), i ≤ k → k < i + remaining →
      ¬ RecognisedCode (aln k) → (∀ j, i ≤ j → j < k → RecognisedCode (aln j)) →
      EdlibAlignmentDiffCounts.loop aln remaining i c
        = .error (.unknownEdlibOperation (aln k)) := by
  intro remaining
  induction remaining with
  | zero => intro i c k h1 h2; omega
  | succ remaining ih =>
    intro i c k h1 h2 hbad hgood
    unfold EdlibAlignmentDiffCounts.loop
    by_cases hk : k = i
    · subst hk
      have h0 : ¬ aln k = EDLIB_EDOP_MATCH := fun h => hbad (Or.inl h)
      have h1 : ¬ aln k = EDLIB_EDOP_INSERT := fun h => hbad (Or.inr (Or.inl h))
      have h2 : ¬ aln k = EDLIB_EDOP_DELETE := fun h => hbad (Or.inr (Or.inr (Or.inl h)))
      have h3 : ¬ aln k = EDLIB_EDOP_MISMATCH := fun h => hbad (Or.inr (Or.inr (Or.inr h)))
      simp only [h0, h1, h2, h3, if_false]
    · have hrec : ∀ c', EdlibAlignmentDiffCounts.loop aln remaining (i + 1) c'
          = .error (.unknownEdlibOperation (aln k)) :=
        fun c' => ih (i + 1) c' k (by omega) (by omega) hbad
          (fun j hj1 hj2 => hgood j (by omega) hj2)
      have hi := hgood i (le_refl i) (by omega)
      split_ifs with h0 h3 h1 h2
      · exact hrec _
      · exact hrec _
      · exact hrec _
      · exact hrec _
      · rcases hi with h | h | h | h
        · exact absurd h h0
        · exact absurd h h1
        · exact absurd h h2
        · exact absurd h h3

/-- C11 (unknown-operation error of the counter).  `EdlibAlignmentDiffCounts` raises an
unknown-operation error if and only if some position `i < n` of the trace holds a code
outside the four recognised values; the error carries the raw value of the first such
code; and when there is no such position it returns the tallies, without an error. -/
theorem EdlibAlignmentDiffCounts_error_iff (aln : Nat → Nat) (n : Int) :
    ((∃ e, EdlibAlignmentDiffCounts aln n = .error e) ↔
      ∃ i : Nat, (i : Int) < n ∧ ¬ RecognisedCode (aln i)) ∧
    (∀ i : Nat, (i : Int) < n → ¬ RecognisedCode (aln i) →
      (∀ j, j < i → RecognisedCode (aln j)) →
      EdlibAlignmentDiffCounts aln n = .error (.unknownEdlibOperation (aln i))) ∧
    ((∀ i : Nat, (i : Int) < n → RecognisedCode (aln i)) →
      ∃ counts, EdlibAlignmentDiffCounts aln n = .ok counts ∧
        counts.numEq = ((List.range n.toNat).map
          (fun j => editCodeOperation (aln j))).count SEQUENCE_MATCH ∧
        counts.numX = ((List.range n.toNat).map
          (fun j => editCodeOperation (aln j))).count SEQUENCE_MISMATCH ∧
        counts.numI = ((List.range n.toNat).map
          (fun j => editCodeOperation (aln j))).count INSERTION ∧
        counts.numD = ((List.range n.toNat).map
          (fun j => editCodeOperation (aln j))).count DELETION) := by
  have hfirst : ∀ i : Nat, (i : Int) < n → ¬ RecognisedCode (aln i) →
      (∀ j, j < i → RecognisedCode (aln j)) →
      EdlibAlignmentDiffCounts aln n = .error (.unknownEdlibOperation (aln i)) := by
    intro i hi hbad hgood
    have hle : ¬ (n ≤ 0) := by omega
    simp only [EdlibAlignmentDiffCounts, hle, if_false]
    exact EdlibAlignmentDiffCounts.loop_error aln n.toNat 0 _ i (Nat.zero_le i) (by omega) hbad
      (fun j _ hj => hgood j hj)
  have hnone : (∀ i : Nat, (i : Int) < n → RecognisedCode (aln i)) →
      ∃ counts, EdlibAlignmentDiffCounts aln n = .ok counts ∧
        counts.numEq = ((List.range n.toNat).map
          (fun j => editCodeOperation (aln j))).count SEQUENCE_MATCH ∧
        counts.numX = ((List.range n.toNat).map
          (fun j => editCodeOperation (aln j))).count SEQUENCE_MISMATCH ∧
        counts.numI = ((List.range n.toNat).map
          (fun j => editCodeOperation (aln j))).count INSERTION ∧
        counts.numD = ((List.range n.toNat).map
          (fun j => editCodeOperation (aln j))).count DELETION := by
    intro hall
    by_cases hle : n ≤ 0
    · refine ⟨⟨0, 0, 0, 0⟩, by simp [EdlibAlignmentDiffCounts, hle], ?_⟩
      have : n.toNat = 0 := by omega
      simp [this]
    · obtain ⟨counts, hc⟩ := EdlibAlignmentDiffCounts.loop_returns aln n.toNat 0 ⟨0, 0, 0, 0⟩
        (fun j _ hj => hall j (by omega))
      obtain ⟨e1, e2, e3, e4, _⟩ := EdlibAlignmentDiffCounts.loop_counts aln _ _ _ _ hc
      refine ⟨counts, by simp only [EdlibAlignmentDiffCounts, hle, if_false]; exact hc, ?_⟩
      simp only [Nat.zero_add] at e1 e2 e3 e4
      simp only [List.range_eq_range', e1, e2, e3, e4, and_self]
  refine ⟨⟨?_, ?_⟩, hfirst, hnone⟩
  · rintro ⟨e, he⟩
    by_contra hno
    have hall : ∀ i : Nat, (i : Int) < n → RecognisedCode (aln i) := by
      intro i hi
      by_contra hbad
      exact hno ⟨i, hi, hbad⟩
    obtain ⟨counts, hc, _⟩ := hnone hall
    rw [hc] at he
    exact absurd he (by simp)
  · intro hex
    have hex2 : ∃ i : Nat, (i : Int) < n ∧ ¬ RecognisedCode (aln i) := hex
    classical
    have hmin := Nat.find_spec hex2
    refine ⟨_, hfirst (Nat.find hex2) hmin.1 hmin.2 ?_⟩
    intro j hj
    by_contra hbad
    exact Nat.find_min hex2 hj ⟨by omega, hbad⟩

/-- The error of the counter on the trace `0 3 7 9`, and its tallies on `0 3 1 1`. -/
theorem EdlibAlignmentDiffCounts_error_iff_witness :
    EdlibAlignmentDiffCounts (buffer 0 [0, 3, 7, 9]) 4 = .error (.unknownEdlibOperation 7) ∧
    ∃ counts, EdlibAlignmentDiffCounts (buffer 0 [0, 3, 1, 1]) 4 = .ok counts ∧
      counts.numEq = ((List.range (4 : Int).toNat).map
        (fun j => editCodeOperation (buffer 0 [0, 3, 1, 1] j))).count SEQUENCE_MATCH ∧
      counts.numX = ((List.range (4 : Int).toNat).map
        (fun j => editCodeOperation (buffer 0 [0, 3, 1, 1] j))).count SEQUENCE_MISMATCH ∧
      counts.numI = ((List.range (4 : Int).toNat).map
        (fun j => editCodeOperation (buffer 0 [0, 3, 1, 1] j))).count INSERTION ∧
      counts.numD = ((List.range (4 : Int).toNat).map
        (fun j => editCodeOperation (buffer 0 [0, 3, 1, 1] j))).count DELETION :=
  ⟨(EdlibAlignmentDiffCounts_error_iff (buffer 0 [0, 3, 7, 9]) 4).2.1 2 (by decide) (by decide)
      (by decide),
    (EdlibAlignmentDiffCounts_error_iff (buffer 0 [0, 3, 1, 1]) 4).2.2 (by
      intro i hi
      have h4 : i < 4 := by omega
      interval_cases i <;> decide)⟩

/-- C12, evaluated on the trace `0 7 0` of length 3.  `EdlibAlignmentToCigar` does not
raise the unknown-operation error: it uses the raw code 7 as an index into the table
`opToCigar`, which has four entries.  `EdlibAlignmentDiffCounts` raises the error, with
the raw value 7, on the same trace. -/
theorem EdlibAlignmentToCigar_unrecognised_code :
    EdlibAlignmentToCigar (buffer 0 [0, 7, 0]) 3 = .error (.indexOutOfRange 7) ∧
    EdlibAlignmentToCigar (buffer 0 [0, 7, 0]) 3 ≠ .error (.unknownEdlibOperation 7) ∧
    opToCigar.length = 4 ∧
    EdlibAlignmentDiffCounts (buffer 0 [0, 7, 0]) 3 = .error (.unknownEdlibOperation 7) := by
  refine ⟨rfl, ?_, rfl, rfl⟩
  intro h
  have h2 : EdlibAlignmentToCigar (buffer 0 [0, 7, 0]) 3 = .error (.indexOutOfRange 7) := rfl
  rw [h2] at h
  simp at h

/-! ## Empty and negative lengths -/

/-- C15 (empty and negative lengths).  For every trace and every length `n <= 0`,
`EdlibAlignmentToCigar` returns the empty run sequence and `EdlibAlignmentDiffCounts` sets
all four counters to 0 without raising; `CigarDiffCounts` of the empty run sequence sets
all four counters to 0. -/
theorem trivial_lengths (aln : Nat → Nat) (n : Int) (hn : n ≤ 0) :
    EdlibAlignmentToCigar aln n = .ok [] ∧
    EdlibAlignmentDiffCounts aln n = .ok ⟨0, 0, 0, 0⟩ ∧
    CigarDiffCounts [] = ⟨0, 0, 0, 0⟩ := by
  refine ⟨?_, ?_, rfl⟩
  · simp [EdlibAlignmentToCigar, hn]
  · simp [EdlibAlignmentDiffCounts, hn]

/-- The three results for the length `-3`. -/
theorem trivial_lengths_witness :
    (-3 : Int) ≤ 0 ∧
    EdlibAlignmentToCigar (buffer 0 [0, 1, 2]) (-3) = .ok [] ∧
    EdlibAlignmentDiffCounts (buffer 0 [0, 1, 2]) (-3) = .ok ⟨0, 0, 0, 0⟩ ∧
    CigarDiffCounts [] = ⟨0, 0, 0, 0⟩ :=
  ⟨by decide, trivial_lengths (buffer 0 [0, 1, 2]) (-3) (by decide)⟩

/-! ## Exact arithmetic: a run after a collapsed pair -/

/-- After `AppendToCigar` with a positive length, the last run has the appended operation
and at least the appended length. -/
theorem AppendToCigar_getLast (cigar : Cigar) (newOp : CigarOperationType) (newLen : Nat)
    (h : 0 < newLen) :
    ∃ last, (AppendToCigar cigar newOp newLen).getLast? = some last ∧ last.type = newOp ∧
      newLen ≤ last.length := by
  rcases AppendToCigar_cases cigar newOp newLen with ⟨h0, _⟩ | ⟨_, init, last, _, _, e⟩ | ⟨_, _, e⟩
  · omega
  · exact ⟨⟨newOp, last.length + newLen⟩, by rw [e]; simp, rfl, by simp⟩
  · exact ⟨⟨newOp, newLen⟩, by rw [e]; simp, rfl, le_refl _⟩

/-- What `ExpandMismatches` returns on an insertion/deletion pair followed by one run. -/
theorem ExpandMismatches_pair_run (query : Nat → Char) (queryLen : Int) (target : Nat → Char)
    (targetLen : Int) (p c r : CigarOperation) (hpair : isIndelPair p c = true) :
    ExpandMismatches query queryLen target targetLen [p, c, r]
      = if (0 : Int) ≥ queryLen ∨ (0 : Int) ≥ targetLen then
          .error (.invalidCigar 0 0 queryLen targetLen)
        else
          .ok (AppendToCigar (ExpandMismatches.collapse query target p c 1
            { queryPos := 0, targetPos := 0, lastAddedOp := -1, ret := [] }).ret
            r.type r.length) := by
  have hlast : (ExpandMismatches.collapse query target p c 1
      { queryPos := 0, targetPos := 0, lastAddedOp := -1, ret := [] }).lastAddedOp = 1 :=
    (ExpandMismatches.collapse_spec query target p c 1 _).2.2.2
  by_cases hchk : (0 : Int) ≥ queryLen ∨ (0 : Int) ≥ targetLen
  · simp [ExpandMismatches, ExpandMismatches.loop, hchk]
  · simp [ExpandMismatches, ExpandMismatches.loop, hchk, hpair, ExpandMismatches.remainder,
      hlast]

/-! ## The cursors after a rewritten pair -/

theorem ExpandMismatches.collapse_cursors (query target : Nat → Char)
    (prevOp currOp : CigarOperation) (i : Nat) (st : ExpandState) :
    (ExpandMismatches.collapse query target prevOp currOp i st).queryPos
        = (pairAdvance prevOp currOp (st.queryPos, st.targetPos)).1 ∧
      (ExpandMismatches.collapse query target prevOp currOp i st).targetPos
        = (pairAdvance prevOp currOp (st.queryPos, st.targetPos)).2 := by
  obtain ⟨_, h2, h3, _⟩ := ExpandMismatches.collapse_spec query target prevOp currOp i st
  exact ⟨h2, h3⟩

theorem pairAdvance_eq (prevOp currOp : CigarOperation) (pos : Nat × Nat)
    (hpair : isIndelPair prevOp currOp = true) :
    pairAdvance prevOp currOp pos = advance currOp (advance prevOp pos) := by
  rcases (isIndelPair_iff prevOp currOp).mp hpair with ⟨h1, h2⟩ | ⟨h1, h2⟩ <;>
    simp only [pairAdvance, advance, h1, h2, ne_eq, reduceCtorEq, not_false_eq_true,
      not_true_eq_false, if_true, if_false, Prod.mk.injEq] <;>
    constructor <;> omega

/-- Over runs of the four operations the cursors advance by the query span and by the
target span. -/
theorem foldl_advance_spans (cigar : Cigar) (hfour : ∀ op ∈ cigar, IsEditOperation op.type) :
    ∀ q t : Nat, cigar.foldl (fun pos op => advance op pos) (q, t)
      = (q + querySpan cigar, t + targetSpan cigar) := by
  induction cigar with
  | nil => intro q t; simp [querySpan, targetSpan, sumLengths]
  | cons op cigar ih =>
    intro q t
    have hop := hfour op (List.mem_cons_self _ _)
    rw [List.foldl_cons, ih (fun o ho => hfour o (List.mem_cons_of_mem _ ho))]
    simp only [querySpan, targetSpan, sumLengths_cons, advance]
    rcases hop with h | h | h | h <;> simp [h] <;> omega

/-! ## Exact arithmetic: no error and no read out of range on consistent input -/

theorem ExpandMismatches.diagonalChecked_eq (query : Nat → Char) (queryLen : Int)
    (target : Nat → Char) (targetLen : Int) :
    ∀ (n : Nat) (st : ExpandState), ((st.queryPos + n : Nat) : Int) ≤ queryLen →
      ((st.targetPos + n : Nat) : Int) ≤ targetLen →
      ExpandMismatches.diagonalChecked query queryLen target targetLen n st
        = .ok (ExpandMismatches.diagonal query target n st) := by
  intro n
  induction n with
  | zero => intro st _ _; rfl
  | succ n ih =>
    intro st hq ht
    unfold ExpandMismatches.diagonalChecked ExpandMismatches.diagonal
    have h1 : (st.queryPos : Int) < queryLen := by push_cast at hq; omega
    have h2 : (st.targetPos : Int) < targetLen := by push_cast at ht; omega
    simp only [h1, h2, not_true_eq_false, if_false]
    apply ih
    · simp only []; push_cast at hq ⊢; omega
    · simp only []; push_cast at ht ⊢; omega

theorem ExpandMismatches.collapseChecked_eq (query : Nat → Char) (queryLen : Int)
    (target : Nat → Char) (targetLen : Int) (prevOp currOp : CigarOperation) (i : Nat)
    (st : ExpandState) (hpair : isIndelPair prevOp currOp = true)
    (hq : ((st.queryPos + querySpan [prevOp, currOp] : Nat) : Int) ≤ queryLen)
    (ht : ((st.targetPos + targetSpan [prevOp, currOp] : Nat) : Int) ≤ targetLen) :
    ExpandMismatches.collapseChecked query queryLen target targetLen prevOp currOp i st
      = .ok (ExpandMismatches.collapse query target prevOp currOp i st) := by
  unfold ExpandMismatches.collapseChecked ExpandMismatches.collapse
  simp only [querySpan, targetSpan, sumLengths_cons, sumLengths] at hq ht
  rcases (isIndelPair_iff prevOp currOp).mp hpair with ⟨h1, h2⟩ | ⟨h1, h2⟩
  · simp [h1, h2] at hq ht
    simp only [h1, h2, reduceCtorEq, if_false, if_true]
    rw [ExpandMismatches.diagonalChecked_eq]
    · simp only []; push_cast at hq ⊢; omega
    · simp only []; push_cast at ht ⊢; omega
  · simp [h1, h2] at hq ht
    simp only [h1, h2, reduceCtorEq, if_false, if_true]
    rw [ExpandMismatches.diagonalChecked_eq]
    · simp only []; push_cast at hq ⊢; omega
    · simp only []; push_cast at ht ⊢; omega

theorem sumLengths_append (p : CigarOperationType → Bool) (a b : Cigar) :
    sumLengths p (a ++ b) = sumLengths p a + sumLengths p b := by
  simp [sumLengths]

theorem querySpan_append (a b : Cigar) : querySpan (a ++ b) = querySpan a + querySpan b :=
  sumLengths_append _ a b

theorem targetSpan_append (a b : Cigar) : targetSpan (a ++ b) = targetSpan a + targetSpan b :=
  sumLengths_append _ a b

theorem advance_spans (op : CigarOperation) (h : IsEditOperation op.type) (q t : Nat) :
    advance op (q, t) = (q + querySpan [op], t + targetSpan [op]) := by
  have := foldl_advance_spans [op] (by intro o ho; simp at ho; subst ho; exact h) q t
  simpa using this

theorem pairAdvance_spans (prevOp currOp : CigarOperation)
    (hpair : isIndelPair prevOp currOp = true) (q t : Nat) :
    pairAdvance prevOp currOp (q, t)
      = (q + querySpan [prevOp, currOp], t + targetSpan [prevOp, currOp]) := by
  have hfour : ∀ op ∈ [prevOp, currOp], IsEditOperation op.type := by
    intro op hop
    simp only [List.mem_cons, List.mem_singleton, List.not_mem_nil, or_false] at hop
    rcases (isIndelPair_iff prevOp currOp).mp hpair with ⟨h1, h2⟩ | ⟨h1, h2⟩ <;>
      rcases hop with rfl | rfl <;> simp [IsEditOperation, h1, h2]
  have := foldl_advance_spans [prevOp, currOp] hfour q t
  rw [pairAdvance_eq _ _ _ hpair]
  simpa using this

/-- Two runs of positive length with different operations among the four consume at
least one query base and at least one target base. -/
theorem spans_pair_pos (prevOp currOp : CigarOperation) (hp : IsEditOperation prevOp.type)
    (hc : IsEditOperation currOp.type) (hpl : 0 < prevOp.length) (hcl : 0 < currOp.length)
    (hne : prevOp.type ≠ currOp.type) :
    1 ≤ querySpan [prevOp, currOp] ∧ 1 ≤ targetSpan [prevOp, currOp] := by
  simp only [querySpan, targetSpan, sumLengths_cons, sumLengths]
  rcases hp with h1 | h1 | h1 | h1 <;> rcases hc with h2 | h2 | h2 | h2 <;>
    first
      | exact absurd (h1.trans h2.symm) hne
      | (simp [h1, h2]; omega)

/-- On runs that are well formed and fit the stated lengths, the scanning loop returns,
and the loop with checked reads returns the same state. -/
theorem ExpandMismatches.loop_consistent (query : Nat → Char) (queryLen : Int)
    (target : Nat → Char) (targetLen : Int) (cigar : Cigar) :
    ∀ (remaining i : Nat) (st : ExpandState), 1 ≤ i → cigar.length ≤ i + remaining →
      (∀ op ∈ cigar.drop (i - 1), IsEditOperation op.type ∧ 0 < op.length) →
      NoAdjacentSame (cigar.drop (i - 1)) →
      ((st.queryPos + querySpan (cigar.drop (i - 1)) : Nat) : Int) ≤ queryLen →
      ((st.targetPos + targetSpan (cigar.drop (i - 1)) : Nat) : Int) ≤ targetLen →
      ∃ st', ExpandMismatches.loop query queryLen target targetLen cigar remaining i st
          = .ok st' ∧
        ExpandMismatches.loopChecked query queryLen target targetLen cigar remaining i st
          = .ok st' := by
  intro remaining
  induction remaining with
  | zero => intro i st _ _ _ _ _ _; exact ⟨st, rfl, rfl⟩
  | succ remaining ih =>
    intro i st hi hlen hops hdist hq ht
    unfold ExpandMismatches.loop ExpandMismatches.loopChecked
    by_cases hlt : i < cigar.length
    · have hpl : i - 1 < cigar.length := by omega
      have hp : cigar[i - 1]? = some cigar[i - 1] := List.getElem?_eq_getElem hpl
      have hc : cigar[i]? = some cigar[i] := List.getElem?_eq_getElem hlt
      obtain ⟨hdrop1, hdrop2⟩ := drop_pred_eq cigar i hi _ _ hp hc
      rw [hdrop1] at hops hdist hq ht
      have hprev := hops cigar[i - 1] (List.mem_cons_self _ _)
      have hcurr := hops cigar[i] (List.mem_cons_of_mem _ (List.mem_cons_self _ _))
      have hrest : ∀ op ∈ cigar.drop (i + 1), IsEditOperation op.type ∧ 0 < op.length :=
        fun op hop => hops op (List.mem_cons_of_mem _ (List.mem_cons_of_mem _ hop))
      have hne : cigar[i - 1].type ≠ cigar[i].type := by
        unfold NoAdjacentSame at hdist
        exact (List.chain'_cons.mp hdist).1
      have hdist1 : NoAdjacentSame (cigar[i] :: cigar.drop (i + 1)) := by
        unfold NoAdjacentSame at hdist ⊢
        exact (List.chain'_cons.mp hdist).2
      have hdist2 : NoAdjacentSame (cigar.drop (i + 1)) := by
        unfold NoAdjacentSame at hdist1 ⊢
        exact hdist1.tail
      obtain ⟨hqs, hts⟩ := spans_pair_pos _ _ hprev.1 hcurr.1 hprev.2 hcurr.2 hne
      have eq2 : querySpan (cigar[i - 1] :: cigar[i] :: cigar.drop (i + 1))
          = querySpan [cigar[i - 1], cigar[i]] + querySpan (cigar.drop (i + 1)) :=
        querySpan_append [cigar[i - 1], cigar[i]] _
      have et2 : targetSpan (cigar[i - 1] :: cigar[i] :: cigar.drop (i + 1))
          = targetSpan [cigar[i - 1], cigar[i]] + targetSpan (cigar.drop (i + 1)) :=
        targetSpan_append [cigar[i - 1], cigar[i]] _
      have eq1 : querySpan (cigar[i - 1] :: cigar[i] :: cigar.drop (i + 1))
          = querySpan [cigar[i - 1]] + querySpan (cigar[i] :: cigar.drop (i + 1)) :=
        querySpan_append [cigar[i - 1]] _
      have et1 : targetSpan (cigar[i - 1] :: cigar[i] :: cigar.drop (i + 1))
          = targetSpan [cigar[i - 1]] + targetSpan (cigar[i] :: cigar.drop (i + 1)) :=
        targetSpan_append [cigar[i - 1]] _
      have hchk : ¬ ((st.queryPos : Int) ≥ queryLen ∨ (st.targetPos : Int) ≥ targetLen) := by
        rw [eq2] at hq
        rw [et2] at ht
        push_cast at hq ht
        omega
      simp only [hlt, if_true, hp, hc, hchk, if_false]
      by_cases hpair : isIndelPair cigar[i - 1] cigar[i] = true
      · simp only [hpair, if_true]
        rw [ExpandMismatches.collapseChecked_eq query queryLen target targetLen _ _ i st hpair
          (by rw [eq2] at hq; push_cast at hq ⊢; omega)
          (by rw [et2] at ht; push_cast at ht ⊢; omega)]
        simp only []
        obtain ⟨e1, e2⟩ := ExpandMismatches.collapse_cursors query target cigar[i - 1] cigar[i] i st
        rw [pairAdvance_spans _ _ hpair] at e1 e2
        apply ih (i + 2) _ (by omega) (by omega)
        · rw [show i + 2 - 1 = i + 1 by omega]; exact hrest
        · rw [show i + 2 - 1 = i + 1 by omega]; exact hdist2
        · rw [show i + 2 - 1 = i + 1 by omega, e1]
          rw [eq2] at hq
          push_cast at hq ⊢
          omega
        · rw [show i + 2 - 1 = i + 1 by omega, e2]
          rw [et2] at ht
          push_cast at ht ⊢
          omega
      · simp only [hpair, Bool.false_eq_true, if_false]
        obtain ⟨_, e2, e3, _⟩ := ExpandMismatches.passThrough_spec cigar[i - 1] i st
        rw [advance_spans _ hprev.1] at e2 e3
        apply ih (i + 1) _ (by omega) (by omega)
        · rw [show i + 1 - 1 = i by omega, hdrop2]
          exact fun op hop => hops op (List.mem_cons_of_mem _ hop)
        · rw [show i + 1 - 1 = i by omega, hdrop2]; exact hdist1
        · rw [show i + 1 - 1 = i by omega, hdrop2, e2]
          rw [eq1] at hq
          push_cast at hq ⊢
          omega
        · rw [show i + 1 - 1 = i by omega, hdrop2, e3]
          rw [et1] at ht
          push_cast at ht ⊢
          omega
    · simp only [hlt, if_false]
      exact ⟨st, rfl, rfl⟩

/-! ## Exact arithmetic: refinement and the diff counts -/

theorem countP_diagonalUnits_diag (query target : Nat → Char) (n : Nat) :
    ∀ q t : Nat,
      (diagonalUnits query target q t n).countP (· == SEQUENCE_MATCH)
        + (diagonalUnits query target q t n).countP (· == SEQUENCE_MISMATCH) = n ∧
      (diagonalUnits query target q t n).countP (· == INSERTION) = 0 ∧
      (diagonalUnits query target q t n).countP (· == DELETION) = 0 := by
  induction n with
  | zero => intro q t; simp [diagonalUnits_zero]
  | succ n ih =>
    intro q t
    obtain ⟨h1, h2, h3⟩ := ih (q + 1) (t + 1)
    rw [diagonalUnits_succ]
    by_cases h : query q = target t
    · simp only [h, if_true, List.countP_cons, h2, h3]
      simp
      omega
    · simp only [h, if_false, List.countP_cons, h2, h3]
      simp
      omega

/-- Rewriting insertion/deletion pairs moves `k` units from the insertions and `k` units
from the deletions to the diagonal, for some `k`, and takes no unit away from the matches
or from the mismatches. -/
theorem counts_refinedUnits (query target : Nat → Char) (q t : Nat) (cigar : Cigar) :
    ∃ k,
      (expand cigar).countP (· == INSERTION)
        = (refinedUnits query target q t cigar).countP (· == INSERTION) + k ∧
      (expand cigar).countP (· == DELETION)
        = (refinedUnits query target q t cigar).countP (· == DELETION) + k ∧
      (refinedUnits query target q t cigar).countP (· == SEQUENCE_MATCH)
          + (refinedUnits query target q t cigar).countP (· == SEQUENCE_MISMATCH)
        = (expand cigar).countP (· == SEQUENCE_MATCH)
          + (expand cigar).countP (· == SEQUENCE_MISMATCH) + k ∧
      (expand cigar).countP (· == SEQUENCE_MATCH)
        ≤ (refinedUnits query target q t cigar).countP (· == SEQUENCE_MATCH) ∧
      (expand cigar).countP (· == SEQUENCE_MISMATCH)
        ≤ (refinedUnits query target q t cigar).countP (· == SEQUENCE_MISMATCH) := by
  induction q, t, cigar using refinedUnits.induct query target with
  | case1 q t prevOp currOp rest hpair minLen leftHang rightHang q1 t1 q2 t2 ih =>
    obtain ⟨k, e1, e2, e3, e4, e5⟩ := ih
    simp only [q2, t2, q1, t1, leftHang, rightHang, minLen, dite_eq_ite] at e1 e2 e3 e4 e5
    refine ⟨k + min prevOp.length currOp.length, ?_⟩
    unfold refinedUnits
    rw [if_pos hpair]
    simp only [List.countP_append, expand_cons, List.countP_replicate]
    obtain ⟨d1, d2, d3⟩ := countP_diagonalUnits_diag query target (min prevOp.length currOp.length)
      (if prevOp.type = DELETION then q
        else q + (prevOp.length - min prevOp.length currOp.length))
      (if prevOp.type = DELETION then t + (prevOp.length - min prevOp.length currOp.length)
        else t)
    rcases (isIndelPair_iff prevOp currOp).mp hpair with ⟨h1, h2⟩ | ⟨h1, h2⟩
    · simp only [h1, h2, reduceCtorEq, if_false, if_true] at e1 e2 e3 e4 e5 d1 d2 d3 ⊢
      simp only [beq_self_eq_true, if_true, d2, d3]
      simp
      omega
    · simp only [h1, h2, reduceCtorEq, if_false, if_true] at e1 e2 e3 e4 e5 d1 d2 d3 ⊢
      simp only [beq_self_eq_true, if_true, d2, d3]
      simp
      omega
  | case2 q t prevOp currOp rest hpair ih =>
    obtain ⟨k, e1, e2, e3, e4, e5⟩ := ih
    refine ⟨k, ?_⟩
    unfold refinedUnits
    rw [if_neg hpair]
    simp only [List.countP_append, expand_cons, List.countP_replicate] at e1 e2 e3 e4 e5 ⊢
    refine ⟨?_, ?_, ?_, ?_, ?_⟩ <;> omega
  | case3 q t rest hshort =>
    refine ⟨0, ?_⟩
    rw [refinedUnits_short]
    · simp
    · match rest, hshort with
      | [], _ => simp
      | [_], _ => simp
      | a :: b :: r, hs => exact absurd rfl (hs a b r)

/-- In exact arithmetic, the counters of `CigarDiffCounts` on the result of
`ExpandMismatches`, compared with those on the input: matches and mismatches do not
decrease, insertions and deletions drop by the same amount, which is the amount by which
matches plus mismatches grow. -/
theorem exact_diff_counts (query : Nat → Char) (queryLen : Int)
    (target : Nat → Char) (targetLen : Int) (cigar ret : Cigar)
    (h : ExpandMismatches query queryLen target targetLen cigar = .ok ret) :
    (CigarDiffCounts cigar).numEq ≤ (CigarDiffCounts ret).numEq ∧
    (CigarDiffCounts cigar).numX ≤ (CigarDiffCounts ret).numX ∧
    (CigarDiffCounts ret).numI ≤ (CigarDiffCounts cigar).numI ∧
    (CigarDiffCounts ret).numD ≤ (CigarDiffCounts cigar).numD ∧
    (CigarDiffCounts cigar).numI - (CigarDiffCounts ret).numI
      = (CigarDiffCounts cigar).numD - (CigarDiffCounts ret).numD ∧
    (CigarDiffCounts cigar).numD - (CigarDiffCounts ret).numD
      = ((CigarDiffCounts ret).numEq + (CigarDiffCounts ret).numX)
        - ((CigarDiffCounts cigar).numEq + (CigarDiffCounts cigar).numX) ∧
    (CigarDiffCounts ret).numX + (CigarDiffCounts ret).numI + (CigarDiffCounts ret).numD
      ≤ (CigarDiffCounts cigar).numX + (CigarDiffCounts cigar).numI
        + (CigarDiffCounts cigar).numD := by
  have hexp := ExpandMismatches.expand_eq query queryLen target targetLen cigar ret h
  obtain ⟨k, e1, e2, e3, e4, e5⟩ := counts_refinedUnits query target 0 0 cigar
  rw [← hexp] at e1 e2 e3 e4 e5
  simp only [CigarDiffCounts_eq, sumLengths_eq_countP]
  refine ⟨?_, ?_, ?_, ?_, ?_, ?_, ?_⟩ <;> omega

/-! ## Well-formed run sequences are determined by their expansion -/

theorem expand_cons_head (op : CigarOperation) (c : Cigar) (h : 0 < op.length) :
    (expand (op :: c)).head? = some op.type := by
  rw [expand_cons]
  obtain ⟨n, hn⟩ : ∃ n, op.length = n + 1 := ⟨op.length - 1, by omega⟩
  rw [hn, List.replicate_succ]
  rfl

/-- Two lists that start with a block of `a` and go on with something else have blocks
of the same length. -/
theorem replicate_append_cancel {α : Type} (a : α) :
    ∀ (n m : Nat) (l1 l2 : List α), l1.head? ≠ some a → l2.head? ≠ some a →
      List.replicate n a ++ l1 = List.replicate m a ++ l2 → n = m ∧ l1 = l2 := by
  intro n
  induction n with
  | zero =>
    intro m l1 l2 h1 h2 e
    cases m with
    | zero => exact ⟨rfl, by simpa using e⟩
    | succ m =>
      rw [List.replicate_zero, List.nil_append, List.replicate_succ, List.cons_append] at e
      rw [e] at h1
      exact absurd rfl h1
  | succ n ih =>
    intro m l1 l2 h1 h2 e
    cases m with
    | zero =>
      rw [List.replicate_zero, List.nil_append, List.replicate_succ, List.cons_append] at e
      rw [← e] at h2
      exact absurd rfl h2
    | succ m =>
      rw [List.replicate_succ, List.replicate_succ, List.cons_append, List.cons_append,
        List.cons.injEq] at e
      obtain ⟨hnm, hl⟩ := ih m l1 l2 h1 h2 e.2
      exact ⟨by omega, hl⟩

theorem expand_head_ne (a : CigarOperation) (c : Cigar) (hp : PositiveLengths (a :: c))
    (hd : NoAdjacentSame (a :: c)) : (expand c).head? ≠ some a.type := by
  cases c with
  | nil => simp [expand]
  | cons b c =>
    rw [expand_cons_head b c (hp b (List.mem_cons_of_mem _ (List.mem_cons_self _ _)))]
    unfold NoAdjacentSame at hd
    have := (List.chain'_cons.mp hd).1
    intro e
    exact this (Option.some.inj e).symm

/-- A run sequence without empty runs and without equal neighbours is determined by its
per-base expansion. -/
theorem expand_injective (c1 : Cigar) :
    ∀ c2 : Cigar, PositiveLengths c1 → NoAdjacentSame c1 → PositiveLengths c2 →
      NoAdjacentSame c2 → expand c1 = expand c2 → c1 = c2 := by
  induction c1 with
  | nil =>
    intro c2 _ _ hp2 _ e
    cases c2 with
    | nil => rfl
    | cons b c2 =>
      have := expand_cons_head b c2 (hp2 b (List.mem_cons_self _ _))
      rw [← e] at this
      simp [expand] at this
  | cons a c1 ih =>
    intro c2 hp1 hd1 hp2 hd2 e
    cases c2 with
    | nil =>
      have := expand_cons_head a c1 (hp1 a (List.mem_cons_self _ _))
      rw [e] at this
      simp [expand] at this
    | cons b c2 =>
      have ha := expand_cons_head a c1 (hp1 a (List.mem_cons_self _ _))
      have hb := expand_cons_head b c2 (hp2 b (List.mem_cons_self _ _))
      rw [e, hb] at ha
      have htype : b.type = a.type := Option.some.inj ha
      rw [expand_cons, expand_cons, htype] at e
      have h1 := expand_head_ne a c1 hp1 hd1
      have h2 := expand_head_ne b c2 hp2 hd2
      rw [htype] at h2
      obtain ⟨hlen, hrest⟩ := replicate_append_cancel a.type a.length b.length _ _ h1 h2 e
      have hab : a = b := by
        rcases a with ⟨ta, la⟩
        rcases b with ⟨tb, lb⟩
        simp only [] at htype hlen
        rw [htype, hlen]
      have hp1t : PositiveLengths c1 := fun op hop => hp1 op (List.mem_cons_of_mem _ hop)
      have hp2t : PositiveLengths c2 := fun op hop => hp2 op (List.mem_cons_of_mem _ hop)
      have hd1t : NoAdjacentSame c1 := by
        unfold NoAdjacentSame at hd1 ⊢; exact hd1.tail
      have hd2t : NoAdjacentSame c2 := by
        unfold NoAdjacentSame at hd2 ⊢; exact hd2.tail
      rw [hab, ih c2 hp1t hd1t hp2t hd2t hrest]

/-- The result of `ExpandMismatches` has no empty run and no equal neighbours when the
input has no empty run. -/
theorem ExpandMismatches.result_well_formed (query : Nat → Char) (queryLen : Int)
    (target : Nat → Char) (targetLen : Int) (cigar ret : Cigar)
    (hpos : PositiveLengths cigar)
    (h : ExpandMismatches query queryLen target targetLen cigar = .ok ret) :
    PositiveLengths ret ∧ NoAdjacentSame ret := by
  unfold ExpandMismatches at h
  by_cases hlen : cigar.length ≤ 1
  · simp only [hlen, if_true, Except.ok.injEq] at h
    subst h
    refine ⟨hpos, ?_⟩
    unfold NoAdjacentSame
    match cigar, hlen with
    | [], _ => simp
    | [_], _ => simp
    | _ :: _ :: _, hl => simp at hl
  · simp only [hlen, if_false] at h
    split at h
    · exact absurd h (by simp)
    · rename_i st hst
      simp only [Except.ok.injEq] at h
      subst h
      have hl := ExpandMismatches.loop_well_formed query queryLen target targetLen cigar
        cigar.length 1 _ st positiveLengths_nil noAdjacentSame_nil hst
      exact foldl_AppendToCigar_well_formed _ _ hl.1 hl.2

/-! ## Already normalised input -/

/-- Without an insertion run next to a deletion run, nothing is rewritten. -/
theorem refinedUnits_no_pair (query target : Nat → Char) (q t : Nat) (cigar : Cigar)
    (hno : List.Chain' (fun a b => ¬ isIndelPair a b = true) cigar) :
    refinedUnits query target q t cigar = expand cigar := by
  induction q, t, cigar using refinedUnits.induct query target with
  | case1 q t prevOp currOp rest hpair minLen leftHang rightHang q1 t1 q2 t2 ih =>
    exact absurd hpair (List.chain'_cons.mp hno).1
  | case2 q t prevOp currOp rest hpair ih =>
    unfold refinedUnits
    rw [if_neg hpair, ih (List.chain'_cons.mp hno).2]
    simp only [expand_cons]
  | case3 q t rest hshort =>
    apply refinedUnits_short
    match rest, hshort with
    | [], _ => simp
    | [_], _ => simp
    | a :: b :: r, hs => exact absurd rfl (hs a b r)

/-- C19 (identity on already normalised input).  For every well-formed run sequence
(positive lengths, no two adjacent runs with the same operation) that has no insertion
run next to a deletion run and on which `ExpandMismatches` returns, the output is exactly
the input run sequence. -/
theorem ExpandMismatches_normalised (query : Nat → Char) (queryLen : Int)
    (target : Nat → Char) (targetLen : Int) (cigar ret : Cigar)
    (hpos : ∀ op ∈ cigar, 0 < op.length)
    (hdist : List.Chain' (fun a b => a.type ≠ b.type) cigar)
    (hno : List.Chain' (fun a b => ¬ ((a.type = INSERTION ∧ b.type = DELETION) ∨
      (a.type = DELETION ∧ b.type = INSERTION))) cigar)
    (h : ExpandMismatches query queryLen target targetLen cigar = .ok ret) :
    ret = cigar := by
  have hno2 : List.Chain' (fun a b => ¬ isIndelPair a b = true) cigar :=
    hno.imp (fun {a b} hab hp => hab ((isIndelPair_iff a b).mp hp))
  obtain ⟨hp, hd⟩ :=
    ExpandMismatches.result_well_formed query queryLen target targetLen cigar ret hpos h
  apply expand_injective ret cigar hp hd hpos hdist
  rw [ExpandMismatches.expand_eq query queryLen target targetLen cigar ret h,
    refinedUnits_no_pair query target 0 0 cigar hno2]

/-- The run sequence `2= 1I 1X 3D` is returned as it is. -/
theorem ExpandMismatches_normalised_witness :
    ExpandMismatches (buffer 'N' ['A', 'C', 'G', 'T']) 4
        (buffer 'N' ['A', 'C', 'T', 'T', 'G', 'A']) 6
        [⟨SEQUENCE_MATCH, 2⟩, ⟨INSERTION, 1⟩, ⟨SEQUENCE_MISMATCH, 1⟩, ⟨DELETION, 3⟩]
      = .ok [⟨SEQUENCE_MATCH, 2⟩, ⟨INSERTION, 1⟩, ⟨SEQUENCE_MISMATCH, 1⟩, ⟨DELETION, 3⟩] ∧
    ([⟨SEQUENCE_MATCH, 2⟩, ⟨INSERTION, 1⟩, ⟨SEQUENCE_MISMATCH, 1⟩, ⟨DELETION, 3⟩] : Cigar)
      = [⟨SEQUENCE_MATCH, 2⟩, ⟨INSERTION, 1⟩, ⟨SEQUENCE_MISMATCH, 1⟩, ⟨DELETION, 3⟩] :=
  ⟨rfl, ExpandMismatches_normalised (buffer 'N' ['A', 'C', 'G', 'T']) 4
    (buffer 'N' ['A', 'C', 'T', 'T', 'G', 'A']) 6
    [⟨SEQUENCE_MATCH, 2⟩, ⟨INSERTION, 1⟩, ⟨SEQUENCE_MISMATCH, 1⟩, ⟨DELETION, 3⟩]
    [⟨SEQUENCE_MATCH, 2⟩, ⟨INSERTION, 1⟩, ⟨SEQUENCE_MISMATCH, 1⟩, ⟨DELETION, 3⟩]
    (by decide) (by simp) (by simp) rfl⟩

/-! ## Decoding the expansion of a run sequence -/

theorem editCodeOperation_operationEditCode (u : CigarOperationType) (h : IsEditOperation u) :
    RecognisedCode (operationEditCode u) ∧ editCodeOperation (operationEditCode u) = u := by
  rcases h with h | h | h | h <;> subst h <;>
    simp [RecognisedCode, operationEditCode, editCodeOperation, EDLIB_EDOP_MATCH,
      EDLIB_EDOP_INSERT, EDLIB_EDOP_DELETE, EDLIB_EDOP_MISMATCH]

theorem mem_expand (cigar : Cigar) (u : CigarOperationType) (h : u ∈ expand cigar) :
    ∃ op ∈ cigar, op.type = u := by
  simp only [expand, List.mem_flatMap] at h
  obtain ⟨op, hop, hu⟩ := h
  exact ⟨op, hop, (List.eq_of_mem_replicate hu).symm⟩

/-- C20 (decoding is a left inverse of expansion).  For every run sequence over the four
operations with all lengths positive and no two adjacent runs with the same operation,
on every trace buffer that holds, at its first positions, `length` copies of the edit
code of each run in order, `EdlibAlignmentToCigar` called with the full length of that
trace returns exactly the run sequence. -/
theorem EdlibAlignmentToCigar_traceOf (cigar : Cigar) (aln : Nat → Nat)
    (hfour : ∀ op ∈ cigar, IsEditOperation op.type)
    (hpos : ∀ op ∈ cigar, 0 < op.length)
    (hdist : List.Chain' (fun a b => a.type ≠ b.type) cigar)
    (haln : ∀ j, j < (traceOf cigar).length → aln j = buffer 0 (traceOf cigar) j) :
    EdlibAlignmentToCigar aln ((traceOf cigar).length : Int) = .ok cigar := by
  have hlen : (traceOf cigar).length = (expand cigar).length := by simp [traceOf]
  have hget : ∀ j (hj : j < (expand cigar).length),
      aln j = operationEditCode ((expand cigar)[j]) := by
    intro j hj
    rw [haln j (by omega)]
    simp [buffer, traceOf, List.getD, hj]
  have hunit : ∀ j (hj : j < (expand cigar).length), IsEditOperation ((expand cigar)[j]) := by
    intro j hj
    obtain ⟨op, hop, e⟩ := mem_expand cigar _ (List.getElem_mem hj)
    rw [← e]
    exact hfour op hop
  have hcodes : ∀ j, j < (traceOf cigar).length → RecognisedCode (aln j) := by
    intro j hj
    rw [hget j (by omega)]
    exact (editCodeOperation_operationEditCode _ (hunit j (by omega))).1
  obtain ⟨ret, hret, hexp, hp, hd⟩ :=
    EdlibAlignmentToCigar_recognised aln (traceOf cigar).length hcodes
  rw [hret]
  congr 1
  apply expand_injective ret cigar hp hd hpos hdist
  rw [hexp]
  apply List.ext_getElem
  · simp [hlen]
  · intro j h1 h2
    simp only [List.getElem_map, List.getElem_range]
    rw [hget j h2]
    exact (editCodeOperation_operationEditCode _ (hunit j h2)).2

/-- Decoding the trace `0 0 1 3 2 2 2` of `2= 1I 1X 3D`. -/
theorem EdlibAlignmentToCigar_traceOf_witness :
    traceOf [⟨SEQUENCE_MATCH, 2⟩, ⟨INSERTION, 1⟩, ⟨SEQUENCE_MISMATCH, 1⟩, ⟨DELETION, 3⟩]
      = [0, 0, 1, 3, 2, 2, 2] ∧
    EdlibAlignmentToCigar
        (buffer 0 (traceOf
          [⟨SEQUENCE_MATCH, 2⟩, ⟨INSERTION, 1⟩, ⟨SEQUENCE_MISMATCH, 1⟩, ⟨DELETION, 3⟩]))
        ((traceOf
          [⟨SEQUENCE_MATCH, 2⟩, ⟨INSERTION, 1⟩, ⟨SEQUENCE_MISMATCH, 1⟩,
            ⟨DELETION, 3⟩]).length : Int)
      = .ok [⟨SEQUENCE_MATCH, 2⟩, ⟨INSERTION, 1⟩, ⟨SEQUENCE_MISMATCH, 1⟩, ⟨DELETION, 3⟩] :=
  ⟨rfl, EdlibAlignmentToCigar_traceOf
    [⟨SEQUENCE_MATCH, 2⟩, ⟨INSERTION, 1⟩, ⟨SEQUENCE_MISMATCH, 1⟩, ⟨DELETION, 3⟩]
    (buffer 0 (traceOf
      [⟨SEQUENCE_MATCH, 2⟩, ⟨INSERTION, 1⟩, ⟨SEQUENCE_MISMATCH, 1⟩, ⟨DELETION, 3⟩]))
    (by decide) (by decide) (by simp) (fun _ _ => rfl)⟩

/-! ## Insertions next to deletions in the output -/

theorem not_indelAdjacent_of_safe_right (u v : CigarOperationType) (h : ¬ IsIndel v) :
    ¬ IndelAdjacent u v := by
  rintro (⟨_, h2⟩ | ⟨_, h2⟩)
  · exact h (Or.inr h2)
  · exact h (Or.inl h2)

theorem not_indelAdjacent_of_safe_left (u v : CigarOperationType) (h : ¬ IsIndel u) :
    ¬ IndelAdjacent u v := by
  rintro (⟨h1, _⟩ | ⟨h1, _⟩)
  · exact h (Or.inl h1)
  · exact h (Or.inr h1)

theorem chain_replicate (n : Nat) (u : CigarOperationType) :
    List.Chain' (fun a b => ¬ IndelAdjacent a b) (List.replicate n u) := by
  induction n with
  | zero => simp
  | succ n ih =>
    rw [List.replicate_succ, List.chain'_cons']
    refine ⟨?_, ih⟩
    intro y hy
    have : y = u := List.eq_of_mem_replicate (List.mem_of_mem_head? hy)
    subst this
    rintro (⟨h1, h2⟩ | ⟨h1, h2⟩) <;> rw [h1] at h2 <;> exact absurd h2 (by decide)

theorem chain_of_safe (l : List CigarOperationType) (h : ∀ u ∈ l, ¬ IsIndel u) :
    List.Chain' (fun a b => ¬ IndelAdjacent a b) l := by
  induction l with
  | nil => simp
  | cons a l ih =>
    rw [List.chain'_cons']
    refine ⟨?_, ih (fun u hu => h u (List.mem_cons_of_mem _ hu))⟩
    intro y _
    exact not_indelAdjacent_of_safe_left a y (h a (List.mem_cons_self _ _))

theorem diagonalUnits_safe (query target : Nat → Char) (q t n : Nat) :
    ∀ u ∈ diagonalUnits query target q t n, ¬ IsIndel u := by
  intro u hu
  simp only [diagonalUnits, List.mem_map] at hu
  obtain ⟨k, _, rfl⟩ := hu
  split <;> simp [IsIndel]

/-- A chain stays a chain when a chain that starts with a unit that is neither an
insertion nor a deletion is appended. -/
theorem chain_append_safe_head (l1 l2 : List CigarOperationType)
    (h1 : List.Chain' (fun a b => ¬ IndelAdjacent a b) l1)
    (h2 : List.Chain' (fun a b => ¬ IndelAdjacent a b) l2)
    (hsafe : ∀ y ∈ l2.head?, ¬ IsIndel y) :
    List.Chain' (fun a b => ¬ IndelAdjacent a b) (l1 ++ l2) := by
  rw [List.chain'_append]
  exact ⟨h1, h2, fun x _ y hy => not_indelAdjacent_of_safe_right x y (hsafe y hy)⟩

/-- A chain stays a chain when a chain is appended to one that ends with a unit that is
neither an insertion nor a deletion. -/
theorem chain_append_safe_last (l1 l2 : List CigarOperationType)
    (h1 : List.Chain' (fun a b => ¬ IndelAdjacent a b) l1)
    (h2 : List.Chain' (fun a b => ¬ IndelAdjacent a b) l2)
    (hsafe : ∀ x ∈ l1.getLast?, ¬ IsIndel x) :
    List.Chain' (fun a b => ¬ IndelAdjacent a b) (l1 ++ l2) := by
  rw [List.chain'_append]
  exact ⟨h1, h2, fun x hx y _ => not_indelAdjacent_of_safe_left x y (hsafe x hx)⟩

/-- The units that replace an insertion/deletion pair of positive lengths: a hang, a
diagonal that is not empty, a hang. -/
theorem chain_collapse_block (query target : Nat → Char) (q t lh rh m : Nat)
    (u v : CigarOperationType) (hm : 0 < m) :
    List.Chain' (fun a b => ¬ IndelAdjacent a b)
      (List.replicate lh u ++ diagonalUnits query target q t m ++ List.replicate rh v) := by
  have hne : diagonalUnits query target q t m ≠ [] := by
    intro e
    have := diagonalUnits_length query target q t m
    rw [e] at this
    simp at this
    omega
  apply chain_append_safe_last
  · apply chain_append_safe_head _ _ (chain_replicate lh u)
      (chain_of_safe _ (diagonalUnits_safe query target q t m))
    intro y hy
    exact diagonalUnits_safe query target q t m y (List.mem_of_mem_head? hy)
  · exact chain_replicate rh v
  · intro x hx
    rw [List.getLast?_append_of_ne_nil _ hne] at hx
    exact diagonalUnits_safe query target q t m x (List.mem_of_mem_getLast? hx)

/-- The first unit of the refined expansion is the operation of the first run, or it is
neither an insertion nor a deletion. -/
theorem refinedUnits_head (query target : Nat → Char) (q t : Nat) (cigar : Cigar)
    (hpos : PositiveLengths cigar) :
    ∀ y ∈ (refinedUnits query target q t cigar).head?,
      (∃ a ∈ cigar.head?, y = a.type) ∨ ¬ IsIndel y := by
  intro y hy
  match cigar, hpos with
  | [], _ =>
    rw [refinedUnits_short _ _ _ _ _ (by simp)] at hy
    simp [expand] at hy
  | [a], hpos =>
    rw [refinedUnits_short _ _ _ _ _ (by simp),
      expand_cons_head a [] (hpos a (List.mem_cons_self _ _))] at hy
    left
    exact ⟨a, rfl, (Option.some.inj hy).symm⟩
  | a :: b :: rest, hpos =>
    have ha : 0 < a.length := hpos a (List.mem_cons_self _ _)
    have hb : 0 < b.length := hpos b (List.mem_cons_of_mem _ (List.mem_cons_self _ _))
    unfold refinedUnits at hy
    by_cases hpair : isIndelPair a b = true
    · rw [if_pos hpair] at hy
      simp only [] at hy
      have hm : 0 < min a.length b.length := by omega
      have hne : diagonalUnits query target
          (if a.type = DELETION then q else q + (a.length - min a.length b.length))
          (if a.type = DELETION then t + (a.length - min a.length b.length) else t)
          (min a.length b.length) ≠ [] := by
        intro e
        have := diagonalUnits_length query target
          (if a.type = DELETION then q else q + (a.length - min a.length b.length))
          (if a.type = DELETION then t + (a.length - min a.length b.length) else t)
          (min a.length b.length)
        rw [e] at this
        simp at this
        omega
      rw [List.append_assoc, List.append_assoc, ← List.append_assoc,
        List.head?_append_of_ne_nil _ (by simp [hne])] at hy
      rcases List.mem_append.mp (List.mem_of_mem_head? hy) with h | h
      · left
        exact ⟨a, rfl, List.eq_of_mem_replicate h⟩
      · right
        exact diagonalUnits_safe _ _ _ _ _ y h
    · rw [if_neg hpair, List.head?_append_of_ne_nil _ (by
        intro e
        have := congrArg List.length e
        simp at this
        omega)] at hy
      left
      exact ⟨a, rfl, List.eq_of_mem_replicate (List.mem_of_mem_head? hy)⟩

/-- The refined expansion has no insertion unit next to a deletion unit when no three
consecutive runs of the input are all insertions or deletions. -/
theorem chain_refinedUnits (query target : Nat → Char) (q t : Nat) (cigar : Cigar)
    (hpos : PositiveLengths cigar) (htriple : NoIndelTriple cigar) :
    List.Chain' (fun a b => ¬ IndelAdjacent a b) (refinedUnits query target q t cigar) := by
  induction q, t, cigar using refinedUnits.induct query target with
  | case1 q t prevOp currOp rest hpair minLen leftHang rightHang q1 t1 q2 t2 ih =>
    have hposr : PositiveLengths rest :=
      fun op hop => hpos op (List.mem_cons_of_mem _ (List.mem_cons_of_mem _ hop))
    have htr : NoIndelTriple rest := htriple.2.2
    have ih2 := ih hposr htr
    simp only [q2, t2, q1, t1, leftHang, rightHang, minLen, dite_eq_ite] at ih2
    have hp : 0 < prevOp.length := hpos prevOp (List.mem_cons_self _ _)
    have hc : 0 < currOp.length :=
      hpos currOp (List.mem_cons_of_mem _ (List.mem_cons_self _ _))
    unfold refinedUnits
    rw [if_pos hpair]
    simp only []
    apply chain_append_safe_head _ _
      (chain_collapse_block query target _ _ _ _ _ _ _ (by omega)) ih2
    intro y hy
    rcases refinedUnits_head query target _ _ rest hposr y hy with ⟨r, hr, e⟩ | hsafe
    · cases rest with
      | nil => simp at hr
      | cons r2 rest2 =>
        simp only [List.head?_cons, Option.mem_def, Option.some.injEq] at hr
        subst hr
        subst e
        have h3 := htriple.1
        simp only [] at h3
        intro hind
        apply h3
        rcases (isIndelPair_iff prevOp currOp).mp hpair with ⟨h1, h2⟩ | ⟨h1, h2⟩
        · exact ⟨Or.inl h1, Or.inr h2, hind⟩
        · exact ⟨Or.inr h1, Or.inl h2, hind⟩
    · exact hsafe
  | case2 q t prevOp currOp rest hpair ih =>
    have hposr : PositiveLengths (currOp :: rest) :=
      fun op hop => hpos op (List.mem_cons_of_mem _ hop)
    have ih2 := ih hposr htriple.2
    unfold refinedUnits
    rw [if_neg hpair, List.chain'_append]
    refine ⟨chain_replicate _ _, ih2, ?_⟩
    intro x hx y hy
    have hxe : x = prevOp.type := List.eq_of_mem_replicate (List.mem_of_mem_getLast? hx)
    subst hxe
    rcases refinedUnits_head query target _ _ (currOp :: rest) hposr y hy with ⟨r, hr, e⟩ | hsafe
    · simp only [List.head?_cons, Option.mem_def, Option.some.injEq] at hr
      subst hr
      subst e
      exact fun hadj => hpair ((isIndelPair_iff _ _).mpr hadj)
    · exact not_indelAdjacent_of_safe_right _ _ hsafe
  | case3 q t rest hshort =>
    rw [refinedUnits_short]
    · match rest, hshort with
      | [], _ => simp [expand]
      | [a], _ => rw [expand_singleton]; exact chain_replicate _ _
      | a :: b :: r, hs => exact absurd rfl (hs a b r)
    · match rest, hshort with
      | [], _ => simp
      | [_], _ => simp
      | a :: b :: r, hs => exact absurd rfl (hs a b r)

/-- Two adjacent runs of positive length are an insertion next to a deletion only if the
per-base expansion has an insertion unit next to a deletion unit. -/
theorem chain_of_expand (cigar : Cigar) (hpos : PositiveLengths cigar)
    (h : List.Chain' (fun a b => ¬ IndelAdjacent a b) (expand cigar)) :
    List.Chain' (fun a b : CigarOperation => ¬ IndelAdjacent a.type b.type) cigar := by
  induction cigar with
  | nil => simp
  | cons a c ih =>
    have hposc : PositiveLengths c := fun op hop => hpos op (List.mem_cons_of_mem _ hop)
    rw [expand_cons, List.chain'_append] at h
    obtain ⟨_, hc, hj⟩ := h
    rw [List.chain'_cons']
    refine ⟨?_, ih hposc hc⟩
    intro b hb
    cases c with
    | nil => simp at hb
    | cons b2 c2 =>
      simp only [List.head?_cons, Option.mem_def, Option.some.injEq] at hb
      subst hb
      have ha : 0 < a.length := hpos a (List.mem_cons_self _ _)
      obtain ⟨n, hn⟩ : ∃ n, a.length = n + 1 := ⟨a.length - 1, by omega⟩
      apply hj a.type _ b2.type
      · rw [expand_cons_head b2 c2 (hpos b2 (List.mem_cons_of_mem _ (List.mem_cons_self _ _)))]
        rfl
      · rw [hn, List.replicate_add]
        simp

theorem toInt32_of_lt (x : Nat) (h : x < 2147483648) : toInt32 x = (x : Int) := by
  unfold toInt32
  have hx : x % 4294967296 = x := Nat.mod_eq_of_lt (by omega)
  rw [hx, if_pos h]

theorem toUInt32_natCast (x : Nat) (h : x < 4294967296) : toUInt32 (x : Int) = x := by
  unfold toUInt32
  omega

theorem toUInt32_eq_mod (x : Nat) : toUInt32 (x : Int) = x % 4294967296 := by
  unfold toUInt32
  omega

theorem totalLength_nil : totalLength [] = 0 := rfl

theorem totalLength_cons (op : CigarOperation) (c : Cigar) :
    totalLength (op :: c) = op.length + totalLength c := by
  simp [totalLength]

theorem totalLength_append (a b : Cigar) :
    totalLength (a ++ b) = totalLength a + totalLength b := by
  simp [totalLength]

theorem totalLength_AppendToCigar (cigar : Cigar) (newOp : CigarOperationType) (newLen : Nat) :
    totalLength (AppendToCigar cigar newOp newLen) = totalLength cigar + newLen := by
  rcases AppendToCigar_cases cigar newOp newLen with ⟨h0, h⟩ | ⟨_, init, last, hc, _, h⟩ |
      ⟨_, _, h⟩
  · rw [h, h0]; rfl
  · rw [h, hc]
    simp only [totalLength_append, totalLength_cons, totalLength_nil]
    omega
  · rw [h]
    simp only [totalLength_append, totalLength_cons, totalLength_nil]
    omega

theorem length_le_totalLength (cigar : Cigar) (op : CigarOperation) (h : op ∈ cigar) :
    op.length ≤ totalLength cigar := by
  induction cigar with
  | nil => simp at h
  | cons x c ih =>
    rw [totalLength_cons]
    rcases List.mem_cons.mp h with rfl | h
    · omega
    · have := ih h
      omega

/-- An `int32_t` length that is not negative is appended in the same way by both
embeddings, as long as the merge stays below `2^32`. -/
theorem machine_AppendToCigar_eq (cigar : Cigar) (newOp : CigarOperationType) (newLen : Nat)
    (hlen : newLen < 2147483648) (htotal : totalLength cigar + newLen < 4294967296) :
    Machine.AppendToCigar cigar newOp (newLen : Int) = AppendToCigar cigar newOp newLen := by
  unfold Machine.AppendToCigar AppendToCigar
  by_cases h0 : newLen = 0
  · simp [h0]
  · have h0' : ¬ ((newLen : Int) = 0) := by omega
    rw [if_neg h0', if_neg h0, toUInt32_natCast newLen (by omega)]
    cases hback : cigar.getLast? with
    | none => rfl
    | some back =>
      have hmem : back ∈ cigar := List.mem_of_getLast?_eq_some hback
      have := length_le_totalLength cigar back hmem
      have hsum : toUInt32 ((back.length : Int) + (newLen : Int)) = back.length + newLen := by
        rw [← Nat.cast_add]
        exact toUInt32_natCast _ (by omega)
      simp only [hsum]

theorem totalLength_eq_length_expand (cigar : Cigar) :
    totalLength cigar = (expand cigar).length := by
  induction cigar with
  | nil => rfl
  | cons op c ih => rw [totalLength_cons, expand_cons, List.length_append, ih]; simp

/-- The diagonal loop of both embeddings, from a state in which the cursors are not
negative. -/
theorem machine_diagonal_eq (Q T : Int → Char) (query target : Nat → Char)
    (hQ : ∀ n : Nat, Q n = query n) (hT : ∀ n : Nat, T n = target n) :
    ∀ (remaining : Nat) (st : ExpandState),
      totalLength st.ret + remaining < 4294967296 →
      Machine.ExpandMismatches.diagonal Q T remaining (Machine.lift st)
        = Machine.lift (ExpandMismatches.diagonal query target remaining st) := by
  intro remaining
  induction remaining with
  | zero => intro st _; rfl
  | succ remaining ih =>
    intro st hfit
    rw [Machine.ExpandMismatches.diagonal, ExpandMismatches.diagonal]
    have e1 : ∀ op, Machine.AppendToCigar st.ret op 1 = AppendToCigar st.ret op 1 := fun op =>
      machine_AppendToCigar_eq st.ret op 1 (by omega) (by omega)
    have hq : Q (Machine.lift st).queryPos = query st.queryPos := hQ _
    have ht : T (Machine.lift st).targetPos = target st.targetPos := hT _
    simp only [hq, ht]
    have hret : (Machine.lift st).ret = st.ret := rfl
    rw [hret]
    simp only [e1]
    rw [← ih]
    · congr 1
    · simp only []
      split <;> rw [totalLength_AppendToCigar] <;> omega

/-- The branch that rewrites an insertion/deletion pair, in both embeddings. -/
theorem machine_collapse_eq (Q T : Int → Char) (query target : Nat → Char)
    (hQ : ∀ n : Nat, Q n = query n) (hT : ∀ n : Nat, T n = target n)
    (prevOp currOp : CigarOperation) (i : Nat) (st : ExpandState)
    (hp : prevOp.length < 2147483648) (hc : currOp.length < 2147483648)
    (hfit : totalLength st.ret + (prevOp.length + currOp.length) < 4294967296) :
    Machine.ExpandMismatches.collapse Q T prevOp currOp i (Machine.lift st)
      = Machine.lift (ExpandMismatches.collapse query target prevOp currOp i st) := by
  have hmin : toInt32 (min prevOp.length currOp.length)
      = ((min prevOp.length currOp.length : Nat) : Int) :=
    toInt32_of_lt _ (by omega)
  have hleft : toInt32 (toUInt32 (toInt32 prevOp.length
        - toInt32 (min prevOp.length currOp.length)))
      = ((prevOp.length - min prevOp.length currOp.length : Nat) : Int) := by
    rw [hmin, toInt32_of_lt _ hp, ← Nat.cast_sub (Nat.min_le_left _ _),
      toUInt32_natCast _ (by omega), toInt32_of_lt _ (by omega)]
  have hright : toInt32 (toUInt32 (toInt32 currOp.length
        - toInt32 (min prevOp.length currOp.length)))
      = ((currOp.length - min prevOp.length currOp.length : Nat) : Int) := by
    rw [hmin, toInt32_of_lt _ hc, ← Nat.cast_sub (Nat.min_le_right _ _),
      toUInt32_natCast _ (by omega), toInt32_of_lt _ (by omega)]
  unfold Machine.ExpandMismatches.collapse ExpandMismatches.collapse
  simp only [hleft, hright]
  simp only [hmin, Int.toNat_ofNat]
  have hret : (Machine.lift st).ret = st.ret := rfl
  rw [hret, machine_AppendToCigar_eq st.ret prevOp.type _ (by omega) (by omega)]
  set st2 : ExpandState :=
    (if prevOp.type = DELETION then
      { st with ret := AppendToCigar st.ret prevOp.type
                  (prevOp.length - min prevOp.length currOp.length),
                targetPos := st.targetPos + (prevOp.length - min prevOp.length currOp.length) }
    else
      { st with ret := AppendToCigar st.ret prevOp.type
                  (prevOp.length - min prevOp.length currOp.length),
                queryPos := st.queryPos + (prevOp.length - min prevOp.length currOp.length) })
    with hst2
  have hst2ret : st2.ret = AppendToCigar st.ret prevOp.type
      (prevOp.length - min prevOp.length currOp.length) := by
    rw [hst2]; split <;> rfl
  have hlift2 : (if prevOp.type = DELETION then
        ({ Machine.lift st with
            ret := AppendToCigar st.ret prevOp.type
              (prevOp.length - min prevOp.length currOp.length),
            targetPos := (Machine.lift st).targetPos
              + ((prevOp.length - min prevOp.length currOp.length : Nat) : Int) } :
          Machine.ExpandState)
      else
        { Machine.lift st with
            ret := AppendToCigar st.ret prevOp.type
              (prevOp.length - min prevOp.length currOp.length),
            queryPos := (Machine.lift st).queryPos
              + ((prevOp.length - min prevOp.length currOp.length : Nat) : Int) })
      = Machine.lift st2 := by
    rw [hst2]
    split <;> simp [Machine.lift]
  simp only [] at hlift2 ⊢
  rw [hlift2, machine_diagonal_eq Q T query target hQ hT _ st2
    (by rw [hst2ret, totalLength_AppendToCigar]; omega)]
  obtain ⟨d1, _, _, _⟩ := ExpandMismatches.diagonal_spec query target
    (min prevOp.length currOp.length) st2
  have htot : totalLength (ExpandMismatches.diagonal query target
      (min prevOp.length currOp.length) st2).ret
      = totalLength st.ret + (prevOp.length - min prevOp.length currOp.length)
        + min prevOp.length currOp.length := by
    rw [totalLength_eq_length_expand, d1, List.length_append, diagonalUnits_length,
      ← totalLength_eq_length_expand, hst2ret, totalLength_AppendToCigar]
  have hret3 : ∀ s : ExpandState, (Machine.lift s).ret = s.ret := fun _ => rfl
  rw [hret3, machine_AppendToCigar_eq _ currOp.type _ (by omega) (by rw [htot]; omega)]
  split <;> simp [Machine.lift]

/-- The branch that passes a run through, in both embeddings. -/
theorem machine_passThrough_eq (prevOp : CigarOperation) (i : Nat) (st : ExpandState)
    (hp : prevOp.length < 2147483648)
    (hfit : totalLength st.ret + prevOp.length < 4294967296) :
    Machine.ExpandMismatches.passThrough prevOp i (Machine.lift st)
      = Machine.lift (ExpandMismatches.passThrough prevOp i st) := by
  unfold Machine.ExpandMismatches.passThrough ExpandMismatches.passThrough
  have hret : (Machine.lift st).ret = st.ret := rfl
  simp only [hret, toInt32_of_lt _ hp, machine_AppendToCigar_eq st.ret prevOp.type _ hp hfit]
  by_cases hd : prevOp.type = DELETION <;> by_cases hi : prevOp.type = INSERTION <;>
    simp [hd, hi, Machine.lift]

/-- The final loop of both embeddings appends the same runs. -/
theorem machine_foldl_AppendToCigar_eq (l : Cigar) :
    ∀ ret : Cigar, (∀ op ∈ l, op.length < 2147483648) →
      totalLength ret + totalLength l < 4294967296 →
      l.foldl (fun ret op => Machine.AppendToCigar ret op.type (toInt32 op.length)) ret
        = l.foldl (fun ret op => AppendToCigar ret op.type op.length) ret := by
  induction l with
  | nil => intro ret _ _; rfl
  | cons op l ih =>
    intro ret hlen hfit
    rw [totalLength_cons] at hfit
    have hop : op.length < 2147483648 := hlen op (List.mem_cons_self _ _)
    rw [List.foldl_cons, List.foldl_cons, toInt32_of_lt _ hop,
      machine_AppendToCigar_eq ret op.type _ hop (by omega)]
    exact ih _ (fun x hx => hlen x (List.mem_cons_of_mem _ hx))
      (by rw [totalLength_AppendToCigar]; omega)

/-- The lengths that `collapse` and `passThrough` add to `ret`. -/
theorem totalLength_collapse (query target : Nat → Char) (prevOp currOp : CigarOperation)
    (i : Nat) (st : ExpandState) :
    totalLength (ExpandMismatches.collapse query target prevOp currOp i st).ret
      ≤ totalLength st.ret + (prevOp.length + currOp.length) := by
  obtain ⟨e1, _, _, _⟩ := ExpandMismatches.collapse_spec query target prevOp currOp i st
  rw [totalLength_eq_length_expand, e1]
  simp only [List.length_append, List.length_replicate, diagonalUnits_length,
    ← totalLength_eq_length_expand]
  omega

theorem totalLength_passThrough (prevOp : CigarOperation) (i : Nat) (st : ExpandState) :
    totalLength (ExpandMismatches.passThrough prevOp i st).ret
      = totalLength st.ret + prevOp.length := by
  obtain ⟨e1, _, _, _⟩ := ExpandMismatches.passThrough_spec prevOp i st
  rw [totalLength_eq_length_expand, e1]
  simp [← totalLength_eq_length_expand]

/-- The scanning loop and the final loop of both embeddings, from the top of the scanning
loop at index `i`: on run lengths that fit, they return the same runs, and one fails when
the other does. -/
theorem machine_loop_eq (Q : Int → Char) (queryLen : Int) (T : Int → Char) (targetLen : Int)
    (query target : Nat → Char)
    (hQ : ∀ n : Nat, Q n = query n) (hT : ∀ n : Nat, T n = target n) (cigar : Cigar)
    (hlen : ∀ op ∈ cigar, op.length < 2147483648) :
    ∀ (remaining i : Nat) (st : ExpandState), 1 ≤ i → st.lastAddedOp = (i : Int) - 2 →
      totalLength st.ret + totalLength (cigar.drop (i - 1)) < 4294967296 →
      (∀ st', ExpandMismatches.loop query queryLen target targetLen cigar remaining i st
            = .ok st' →
          Machine.ExpandMismatches.loop Q queryLen T targetLen cigar remaining i
              (Machine.lift st) = .ok (Machine.lift st') ∧
            Machine.ExpandMismatches.remainder cigar (Machine.lift st')
              = ExpandMismatches.remainder cigar st') ∧
      (∀ e, ExpandMismatches.loop query queryLen target targetLen cigar remaining i st
            = .error e →
          ∃ e', Machine.ExpandMismatches.loop Q queryLen T targetLen cigar remaining i
              (Machine.lift st) = .error e') := by
  have hexit : ∀ (i : Nat) (st : ExpandState), 1 ≤ i → st.lastAddedOp = (i : Int) - 2 →
      totalLength st.ret + totalLength (cigar.drop (i - 1)) < 4294967296 →
      Machine.ExpandMismatches.remainder cigar (Machine.lift st)
        = ExpandMismatches.remainder cigar st := by
    intro i st hi hlast hfit
    have hidx : (st.lastAddedOp + 1).toNat = i - 1 := by omega
    unfold Machine.ExpandMismatches.remainder ExpandMismatches.remainder
    have h1 : (Machine.lift st).lastAddedOp = st.lastAddedOp := rfl
    have h2 : (Machine.lift st).ret = st.ret := rfl
    rw [h1, h2, hidx]
    exact machine_foldl_AppendToCigar_eq _ _
      (fun op hop => hlen op (List.mem_of_mem_drop hop)) hfit
  intro remaining
  induction remaining with
  | zero =>
    intro i st hi hlast hfit
    refine ⟨?_, ?_⟩
    · intro st' h
      simp only [ExpandMismatches.loop, Except.ok.injEq] at h
      subst h
      exact ⟨rfl, hexit i _ hi hlast hfit⟩
    · intro e h
      simp [ExpandMismatches.loop] at h
  | succ remaining ih =>
    intro i st hi hlast hfit
    unfold ExpandMismatches.loop Machine.ExpandMismatches.loop
    by_cases hlt : i < cigar.length
    · simp only [hlt, if_true]
      have hpl : i - 1 < cigar.length := by omega
      have hp : cigar[i - 1]? = some cigar[i - 1] := List.getElem?_eq_getElem hpl
      have hc : cigar[i]? = some cigar[i] := List.getElem?_eq_getElem hlt
      obtain ⟨hdrop1, hdrop2⟩ := drop_pred_eq cigar i hi _ _ hp hc
      rw [hp, hc]
      simp only []
      have hqp : (Machine.lift st).queryPos = (st.queryPos : Int) := rfl
      have htp : (Machine.lift st).targetPos = (st.targetPos : Int) := rfl
      rw [hqp, htp]
      have hpm : cigar[i - 1].length < 2147483648 := hlen _ (List.getElem_mem _)
      have hcm : cigar[i].length < 2147483648 := hlen _ (List.getElem_mem _)
      rw [hdrop1, totalLength_cons, totalLength_cons] at hfit
      by_cases hchk : (st.queryPos : Int) ≥ queryLen ∨ (st.targetPos : Int) ≥ targetLen
      · rw [if_pos hchk, if_pos hchk]
        exact ⟨fun st' h => absurd h (by simp), fun e _ => ⟨_, rfl⟩⟩
      · rw [if_neg hchk, if_neg hchk]
        by_cases hpair : isIndelPair cigar[i - 1] cigar[i] = true
        · rw [if_pos hpair, if_pos hpair,
            machine_collapse_eq Q T query target hQ hT _ _ i st hpm hcm (by omega)]
          obtain ⟨_, _, _, e4⟩ :=
            ExpandMismatches.collapse_spec query target cigar[i - 1] cigar[i] i st
          have htot := totalLength_collapse query target cigar[i - 1] cigar[i] i st
          exact ih (i + 2) _ (by omega) (by rw [e4]; push_cast; omega)
            (by rw [show i + 2 - 1 = i + 1 by omega]; omega)
        · rw [if_neg hpair, if_neg hpair,
            machine_passThrough_eq _ i st hpm (by omega)]
          obtain ⟨_, _, _, e4⟩ := ExpandMismatches.passThrough_spec cigar[i - 1] i st
          have htot := totalLength_passThrough cigar[i - 1] i st
          exact ih (i + 1) _ (by omega) (by rw [e4]; push_cast; omega)
            (by rw [show i + 1 - 1 = i by omega, hdrop2, totalLength_cons]; omega)
    · simp only [hlt, if_false]
      refine ⟨?_, ?_⟩
      · intro st' h
        simp only [Except.ok.injEq] at h
        subst h
        exact ⟨rfl, hexit i _ hi hlast hfit⟩
      · intro e h
        simp at h

/-- On run lengths that fit, `ExpandMismatches` returns the same runs in both embeddings. -/
theorem machine_ExpandMismatches_eq (Q : Int → Char) (queryLen : Int) (T : Int → Char)
    (targetLen : Int) (cigar ret : Cigar) (hfits : Fits cigar) :
    Machine.ExpandMismatches Q queryLen T targetLen cigar = .ok ret ↔
      ExpandMismatches (fun n => Q n) queryLen (fun n => T n) targetLen cigar = .ok ret := by
  unfold Machine.ExpandMismatches ExpandMismatches
  by_cases hlen : cigar.length ≤ 1
  · simp only [hlen, if_true]
    simp
  · simp only [hlen, if_false]
    obtain ⟨hok, herr⟩ := machine_loop_eq Q queryLen T targetLen (fun n => Q n) (fun n => T n)
      (fun _ => rfl) (fun _ => rfl) cigar hfits.1 cigar.length 1
      { queryPos := 0, targetPos := 0, lastAddedOp := -1, ret := [] } (le_refl 1) (by simp)
      (by simpa [totalLength_nil] using hfits.2)
    have hl : Machine.lift { queryPos := 0, targetPos := 0, lastAddedOp := -1, ret := [] }
        = { queryPos := 0, targetPos := 0, lastAddedOp := -1, ret := [] } := rfl
    rw [hl] at hok herr
    cases hex : ExpandMismatches.loop (fun n => Q n) queryLen (fun n => T n) targetLen cigar
        cigar.length 1 { queryPos := 0, targetPos := 0, lastAddedOp := -1, ret := [] } with
    | error e =>
      obtain ⟨e', he'⟩ := herr e hex
      rw [he']
      simp
    | ok st =>
      obtain ⟨h1, h2⟩ := hok st hex
      rw [h1]
      simp only [h2, Except.ok.injEq]

/-- When the checked diagonal loop returns, it returns the state of the unchecked one. -/
theorem ExpandMismatches.diagonalChecked_ok (query : Nat → Char) (queryLen : Int)
    (target : Nat → Char) (targetLen : Int) :
    ∀ (remaining : Nat) (st st' : ExpandState),
      ExpandMismatches.diagonalChecked query queryLen target targetLen remaining st = .ok st' →
      st' = ExpandMismatches.diagonal query target remaining st := by
  intro remaining
  induction remaining with
  | zero =>
    intro st st' h
    simp only [ExpandMismatches.diagonalChecked, Except.ok.injEq] at h
    exact h.symm
  | succ remaining ih =>
    intro st st' h
    rw [ExpandMismatches.diagonalChecked] at h
    rw [ExpandMismatches.diagonal]
    split at h
    · exact absurd h (by simp)
    · split at h
      · exact absurd h (by simp)
      · exact ih _ _ h

/-- The checked diagonal loop: where the exact embedding returns, the embedding with the
source's integer widths returns the same state. -/
theorem machine_diagonalChecked_ok (Q : Int → Char) (queryLen : Int) (T : Int → Char)
    (targetLen : Int) (query target : Nat → Char)
    (hQ : ∀ n : Nat, Q n = query n) (hT : ∀ n : Nat, T n = target n) :
    ∀ (remaining : Nat) (st st' : ExpandState),
      totalLength st.ret + remaining < 4294967296 →
      ExpandMismatches.diagonalChecked query queryLen target targetLen remaining st = .ok st' →
      Machine.ExpandMismatches.diagonalChecked Q queryLen T targetLen remaining
          (Machine.lift st) = .ok (Machine.lift st') := by
  intro remaining
  induction remaining with
  | zero =>
    intro st st' _ h
    simp only [ExpandMismatches.diagonalChecked, Except.ok.injEq] at h
    subst h
    rfl
  | succ remaining ih =>
    intro st st' hfit h
    rw [ExpandMismatches.diagonalChecked] at h
    rw [Machine.ExpandMismatches.diagonalChecked]
    have hqp : (Machine.lift st).queryPos = (st.queryPos : Int) := rfl
    have htp : (Machine.lift st).targetPos = (st.targetPos : Int) := rfl
    have hret : (Machine.lift st).ret = st.ret := rfl
    by_cases h1 : (st.queryPos : Int) < queryLen
    · by_cases h2 : (st.targetPos : Int) < targetLen
      · simp only [h1, h2, not_true_eq_false, if_false] at h
        have e1 : ∀ op, Machine.AppendToCigar st.ret op 1 = AppendToCigar st.ret op 1 :=
          fun op => machine_AppendToCigar_eq st.ret op 1 (by omega) (by omega)
        have g1 : (0 : Int) ≤ (st.queryPos : Int) ∧ (st.queryPos : Int) < queryLen :=
          ⟨Int.ofNat_nonneg _, h1⟩
        have g2 : (0 : Int) ≤ (st.targetPos : Int) ∧ (st.targetPos : Int) < targetLen :=
          ⟨Int.ofNat_nonneg _, h2⟩
        simp only [hqp, htp, hret, g1, g2, and_self, not_true_eq_false, if_false, hQ, hT, e1]
        have := ih _ st' ?_ h
        · rw [← this]
          congr 1
        · simp only []
          split <;> rw [totalLength_AppendToCigar] <;> omega
      · simp [h1, h2] at h
    · simp [h1] at h

/-- The checked rewriting of an insertion/deletion pair: where the exact embedding
returns, the embedding with the source's integer widths returns the same state. -/
theorem machine_collapseChecked_ok (Q : Int → Char) (queryLen : Int) (T : Int → Char)
    (targetLen : Int) (query target : Nat → Char)
    (hQ : ∀ n : Nat, Q n = query n) (hT : ∀ n : Nat, T n = target n)
    (prevOp currOp : CigarOperation) (i : Nat) (st st' : ExpandState)
    (hp : prevOp.length < 2147483648) (hc : currOp.length < 2147483648)
    (hfit : totalLength st.ret + (prevOp.length + currOp.length) < 4294967296)
    (h : ExpandMismatches.collapseChecked query queryLen target targetLen prevOp currOp i st
      = .ok st') :
    Machine.ExpandMismatches.collapseChecked Q queryLen T targetLen prevOp currOp i
      (Machine.lift st) = .ok (Machine.lift st') := by
  have hmin : toInt32 (min prevOp.length currOp.length)
      = ((min prevOp.length currOp.length : Nat) : Int) :=
    toInt32_of_lt _ (by omega)
  have hleft : toInt32 (toUInt32 (toInt32 prevOp.length
        - toInt32 (min prevOp.length currOp.length)))
      = ((prevOp.length - min prevOp.length currOp.length : Nat) : Int) := by
    rw [hmin, toInt32_of_lt _ hp, ← Nat.cast_sub (Nat.min_le_left _ _),
      toUInt32_natCast _ (by omega), toInt32_of_lt _ (by omega)]
  have hright : toInt32 (toUInt32 (toInt32 currOp.length
        - toInt32 (min prevOp.length currOp.length)))
      = ((currOp.length - min prevOp.length currOp.length : Nat) : Int) := by
    rw [hmin, toInt32_of_lt _ hc, ← Nat.cast_sub (Nat.min_le_right _ _),
      toUInt32_natCast _ (by omega), toInt32_of_lt _ (by omega)]
  unfold ExpandMismatches.collapseChecked at h
  unfold Machine.ExpandMismatches.collapseChecked
  simp only [hleft, hright]
  simp only [hmin, Int.toNat_ofNat]
  have hret : (Machine.lift st).ret = st.ret := rfl
  rw [hret, machine_AppendToCigar_eq st.ret prevOp.type _ (by omega) (by omega)]
  set st2 : ExpandState :=
    (if prevOp.type = DELETION then
      { st with ret := AppendToCigar st.ret prevOp.type
                  (prevOp.length - min prevOp.length currOp.length),
                targetPos := st.targetPos + (prevOp.length - min prevOp.length currOp.length) }
    else
      { st with ret := AppendToCigar st.ret prevOp.type
                  (prevOp.length - min prevOp.length currOp.length),
                queryPos := st.queryPos + (prevOp.length - min prevOp.length currOp.length) })
    with hst2
  have hst2ret : st2.ret = AppendToCigar st.ret prevOp.type
      (prevOp.length - min prevOp.length currOp.length) := by
    rw [hst2]; split <;> rfl
  have hlift2 : (if prevOp.type = DELETION then
        ({ Machine.lift st with
            ret := AppendToCigar st.ret prevOp.type
              (prevOp.length - min prevOp.length currOp.length),
            targetPos := (Machine.lift st).targetPos
              + ((prevOp.length - min prevOp.length currOp.length : Nat) : Int) } :
          Machine.ExpandState)
      else
        { Machine.lift st with
            ret := AppendToCigar st.ret prevOp.type
              (prevOp.length - min prevOp.length currOp.length),
            queryPos := (Machine.lift st).queryPos
              + ((prevOp.length - min prevOp.length currOp.length : Nat) : Int) })
      = Machine.lift st2 := by
    rw [hst2]
    split <;> simp [Machine.lift]
  simp only [] at hlift2 h ⊢
  rw [hlift2]
  cases hd : ExpandMismatches.diagonalChecked query queryLen target targetLen
      (min prevOp.length currOp.length) st2 with
  | error e => rw [hd] at h; exact absurd h (by simp)
  | ok st3 =>
    rw [hd] at h
    simp only [Except.ok.injEq] at h
    rw [machine_diagonalChecked_ok Q queryLen T targetLen query target hQ hT _ st2 st3
      (by rw [hst2ret, totalLength_AppendToCigar]; omega) hd]
    simp only [Except.ok.injEq]
    have hlen3 : totalLength st3.ret
        = totalLength st.ret + (prevOp.length - min prevOp.length currOp.length)
          + min prevOp.length currOp.length := by
      obtain ⟨d1, _, _, _⟩ := ExpandMismatches.diagonal_spec query target
        (min prevOp.length currOp.length) st2
      rw [ExpandMismatches.diagonalChecked_ok query queryLen target targetLen _ st2 st3 hd,
        totalLength_eq_length_expand, d1, List.length_append, diagonalUnits_length,
        ← totalLength_eq_length_expand, hst2ret, totalLength_AppendToCigar]
    have hret3 : (Machine.lift st3).ret = st3.ret := rfl
    rw [hret3, machine_AppendToCigar_eq _ currOp.type _ (by omega) (by rw [hlen3]; omega)]
    rw [← h]
    split <;> simp [Machine.lift]

/-- The scanning loop with checked reads: where the exact embedding returns, the embedding
with the source's integer widths returns the same state. -/
theorem machine_loopChecked_ok (Q : Int → Char) (queryLen : Int) (T : Int → Char)
    (targetLen : Int) (query target : Nat → Char)
    (hQ : ∀ n : Nat, Q n = query n) (hT : ∀ n : Nat, T n = target n) (cigar : Cigar)
    (hlen : ∀ op ∈ cigar, op.length < 2147483648) :
    ∀ (remaining i : Nat) (st st' : ExpandState), 1 ≤ i →
      totalLength st.ret + totalLength (cigar.drop (i - 1)) < 4294967296 →
      ExpandMismatches.loopChecked query queryLen target targetLen cigar remaining i st
        = .ok st' →
      Machine.ExpandMismatches.loopChecked Q queryLen T targetLen cigar remaining i
        (Machine.lift st) = .ok (Machine.lift st') := by
  intro remaining
  induction remaining with
  | zero =>
    intro i st st' _ _ h
    simp only [ExpandMismatches.loopChecked, Except.ok.injEq] at h
    subst h
    rfl
  | succ remaining ih =>
    intro i st st' hi hfit h
    unfold ExpandMismatches.loopChecked at h
    unfold Machine.ExpandMismatches.loopChecked
    by_cases hlt : i < cigar.length
    · simp only [hlt, if_true] at h ⊢
      have hpl : i - 1 < cigar.length := by omega
      have hp : cigar[i - 1]? = some cigar[i - 1] := List.getElem?_eq_getElem hpl
      have hc : cigar[i]? = some cigar[i] := List.getElem?_eq_getElem hlt
      obtain ⟨hdrop1, hdrop2⟩ := drop_pred_eq cigar i hi _ _ hp hc
      rw [hp, hc] at h ⊢
      simp only [] at h ⊢
      have hqp : (Machine.lift st).queryPos = (st.queryPos : Int) := rfl
      have htp : (Machine.lift st).targetPos = (st.targetPos : Int) := rfl
      rw [hqp, htp]
      have hpm : cigar[i - 1].length < 2147483648 := hlen _ (List.getElem_mem _)
      have hcm : cigar[i].length < 2147483648 := hlen _ (List.getElem_mem _)
      rw [hdrop1, totalLength_cons, totalLength_cons] at hfit
      by_cases hchk : (st.queryPos : Int) ≥ queryLen ∨ (st.targetPos : Int) ≥ targetLen
      · rw [if_pos hchk] at h
        exact absurd h (by simp)
      · rw [if_neg hchk] at h ⊢
        by_cases hpair : isIndelPair cigar[i - 1] cigar[i] = true
        · rw [if_pos hpair] at h ⊢
          cases hcol : ExpandMismatches.collapseChecked query queryLen target targetLen
              cigar[i - 1] cigar[i] i st with
          | error e => rw [hcol] at h; exact absurd h (by simp)
          | ok st1 =>
            rw [hcol] at h
            simp only [] at h
            rw [machine_collapseChecked_ok Q queryLen T targetLen query target hQ hT _ _ i st
              st1 hpm hcm (by omega) hcol]
            simp only []
            have hst1 : st1 = ExpandMismatches.collapse query target cigar[i - 1] cigar[i] i
                st := by
              unfold ExpandMismatches.collapseChecked at hcol
              simp only [] at hcol
              split at hcol
              · exact absurd hcol (by simp)
              · rename_i st3 hd
                have := ExpandMismatches.diagonalChecked_ok _ _ _ _ _ _ _ hd
                simp only [Except.ok.injEq] at hcol
                rw [← hcol, this]
                rfl
            have htot := totalLength_collapse query target cigar[i - 1] cigar[i] i st
            rw [← hst1] at htot
            exact ih (i + 2) st1 st' (by omega)
              (by rw [show i + 2 - 1 = i + 1 by omega]; omega) h
        · rw [if_neg hpair] at h ⊢
          rw [machine_passThrough_eq _ i st hpm (by omega)]
          have htot := totalLength_passThrough cigar[i - 1] i st
          exact ih (i + 1) _ st' (by omega)
            (by rw [show i + 1 - 1 = i by omega, hdrop2, totalLength_cons]; omega) h
    · simp only [hlt, if_false, Except.ok.injEq] at h ⊢
      subst h
      rfl

/-! ## Refinement with the source's integer widths: spans -/

theorem Fits.of_total_lt (cigar : Cigar) (h : totalLength cigar < 2147483648) : Fits cigar :=
  ⟨fun op hop => lt_of_le_of_lt (length_le_totalLength cigar op hop) h, by omega⟩

/-- C3, as stated, fails: on `[Insertion x 2^31, Deletion x 2^31]`, with
`queryLen = targetLen = 2^31`, the `int32_t` variable `minLen` is `-2^31`, both hangs are
0 and the diagonal loop does not run, so `ExpandMismatches` returns the empty run
sequence, whose spans are 0, while both spans of the input are `2^31`. -/
theorem Machine.ExpandMismatches_spans_counterexample :
    Machine.ExpandMismatches (fun _ => 'A') 2147483648 (fun _ => 'A') 2147483648
        [⟨INSERTION, 2147483648⟩, ⟨DELETION, 2147483648⟩] = .ok [] ∧
    querySpan [] ≠ querySpan [⟨INSERTION, 2147483648⟩, ⟨DELETION, 2147483648⟩] ∧
    targetSpan [] ≠ targetSpan [⟨INSERTION, 2147483648⟩, ⟨DELETION, 2147483648⟩] := by
  refine ⟨rfl, by decide, by decide⟩

/-- C3, amended.  For every query, target and run sequence whose run lengths are each
below `2^31` and add up to less than `2^32`, and on which `ExpandMismatches` returns a
result, the result has the query span of the input (sum of the match, mismatch and
insertion lengths) and the target span of the input (sum of the match, mismatch and
deletion lengths). -/
theorem Machine.ExpandMismatches_spans (query : Int → Char) (queryLen : Int)
    (target : Int → Char) (targetLen : Int) (cigar ret : Cigar) (hfits : Fits cigar)
    (h : Machine.ExpandMismatches query queryLen target targetLen cigar = .ok ret) :
    querySpan ret = querySpan cigar ∧ targetSpan ret = targetSpan cigar :=
  exact_preserves_spans (fun n => query n) queryLen (fun n => target n) targetLen cigar ret
    ((machine_ExpandMismatches_eq query queryLen target targetLen cigar ret hfits).mp h)

/-- Span conservation on `1= 1I 1D 2=` over `ACGT` and `AGGT`, which is refined into
`1= 1X 2=`. -/
theorem Machine.ExpandMismatches_spans_witness :
    Fits [⟨SEQUENCE_MATCH, 1⟩, ⟨INSERTION, 1⟩, ⟨DELETION, 1⟩, ⟨SEQUENCE_MATCH, 2⟩] ∧
    Machine.ExpandMismatches (memory 'N' ['A', 'C', 'G', 'T']) 4
        (memory 'N' ['A', 'G', 'G', 'T']) 4
        [⟨SEQUENCE_MATCH, 1⟩, ⟨INSERTION, 1⟩, ⟨DELETION, 1⟩, ⟨SEQUENCE_MATCH, 2⟩]
      = .ok [⟨SEQUENCE_MATCH, 1⟩, ⟨SEQUENCE_MISMATCH, 1⟩, ⟨SEQUENCE_MATCH, 2⟩] ∧
    querySpan [⟨SEQUENCE_MATCH, 1⟩, ⟨SEQUENCE_MISMATCH, 1⟩, ⟨SEQUENCE_MATCH, 2⟩]
      = querySpan [⟨SEQUENCE_MATCH, 1⟩, ⟨INSERTION, 1⟩, ⟨DELETION, 1⟩, ⟨SEQUENCE_MATCH, 2⟩] ∧
    targetSpan [⟨SEQUENCE_MATCH, 1⟩, ⟨SEQUENCE_MISMATCH, 1⟩, ⟨SEQUENCE_MATCH, 2⟩]
      = targetSpan [⟨SEQUENCE_MATCH, 1⟩, ⟨INSERTION, 1⟩, ⟨DELETION, 1⟩, ⟨SEQUENCE_MATCH, 2⟩] :=
  ⟨by decide, rfl,
    Machine.ExpandMismatches_spans (memory 'N' ['A', 'C', 'G', 'T']) 4
      (memory 'N' ['A', 'G', 'G', 'T']) 4
      [⟨SEQUENCE_MATCH, 1⟩, ⟨INSERTION, 1⟩, ⟨DELETION, 1⟩, ⟨SEQUENCE_MATCH, 2⟩]
      [⟨SEQUENCE_MATCH, 1⟩, ⟨SEQUENCE_MISMATCH, 1⟩, ⟨SEQUENCE_MATCH, 2⟩] (by decide) rfl⟩

/-! ## Refinement with the source's integer widths: base-consistency -/

/-- C4, as stated, fails: over a query that holds `C` at position 0 and `A` elsewhere and
a target of `A`s, both of length `2^31 + 1`, the run sequence `[Insertion x 2^31,
Deletion x 2^31, Match x 1]` is base-consistent (its match unit sits at the cursors
`(2^31, 2^31)`, on two `A`s) and its spans are the two lengths.  `minLen` is `-2^31`, so
the pair is dropped and `[Match x 1]` is returned, whose match unit sits at the cursors
`(0, 0)`, on `C` and `A`. -/
theorem Machine.ExpandMismatches_base_consistency_counterexample :
    BaseConsistent (fun n : Nat => if (n : Int) = 0 then 'C' else 'A') (fun _ => 'A')
      [⟨INSERTION, 2147483648⟩, ⟨DELETION, 2147483648⟩, ⟨SEQUENCE_MATCH, 1⟩] ∧
    (querySpan [⟨INSERTION, 2147483648⟩, ⟨DELETION, 2147483648⟩, ⟨SEQUENCE_MATCH, 1⟩] : Int)
      ≤ 2147483649 ∧
    (targetSpan [⟨INSERTION, 2147483648⟩, ⟨DELETION, 2147483648⟩, ⟨SEQUENCE_MATCH, 1⟩] : Int)
      ≤ 2147483649 ∧
    Machine.ExpandMismatches (fun z => if z = 0 then 'C' else 'A') 2147483649
        (fun _ => 'A') 2147483649
        [⟨INSERTION, 2147483648⟩, ⟨DELETION, 2147483648⟩, ⟨SEQUENCE_MATCH, 1⟩]
      = .ok [⟨SEQUENCE_MATCH, 1⟩] ∧
    ¬ BaseConsistent (fun n : Nat => if (n : Int) = 0 then 'C' else 'A') (fun _ => 'A')
      [⟨SEQUENCE_MATCH, 1⟩] := by
  refine ⟨?_, by decide, by decide, rfl, by decide⟩
  unfold BaseConsistent
  rw [expand_cons, expand_cons, expand_singleton, walk_append, walk_replicate_insertion,
    Option.some_bind, walk_append, walk_replicate_deletion, Option.some_bind]
  rfl

/-- C4, amended.  Let a run sequence be walked from the cursors `(0, 0)`, a match or
mismatch unit moving both cursors, an insertion unit the query cursor and a deletion unit
the target cursor, and call it base-consistent when every match unit sits on equal bases
and every mismatch unit on different bases.  For every base-consistent input whose run
lengths are each below `2^31` and add up to less than `2^32`, whose spans fit within
`queryLen` and `targetLen`, and on which `ExpandMismatches` returns, the result is
base-consistent as well; so every diagonal unit that a collapse creates is a match
exactly when the bases at its coordinates are equal. -/
theorem Machine.ExpandMismatches_base_consistency (query : Int → Char) (queryLen : Int)
    (target : Int → Char) (targetLen : Int) (cigar ret : Cigar) (hfits : Fits cigar)
    (hcons : BaseConsistent (fun n => query n) (fun n => target n) cigar)
    (hq : (querySpan cigar : Int) ≤ queryLen) (ht : (targetSpan cigar : Int) ≤ targetLen)
    (h : Machine.ExpandMismatches query queryLen target targetLen cigar = .ok ret) :
    BaseConsistent (fun n => query n) (fun n => target n) ret :=
  exact_preserves_base_consistency (fun n => query n) queryLen (fun n => target n) targetLen
    cigar ret hcons hq ht
    ((machine_ExpandMismatches_eq query queryLen target targetLen cigar ret hfits).mp h)

/-- Base-consistency on `1= 1I 1D 2=` over `ACGT` and `AGGT`, which is refined into
`1= 1X 2=`. -/
theorem Machine.ExpandMismatches_base_consistency_witness :
    Fits [⟨SEQUENCE_MATCH, 1⟩, ⟨INSERTION, 1⟩, ⟨DELETION, 1⟩, ⟨SEQUENCE_MATCH, 2⟩] ∧
    BaseConsistent (fun n => memory 'N' ['A', 'C', 'G', 'T'] n)
      (fun n => memory 'N' ['A', 'G', 'G', 'T'] n)
      [⟨SEQUENCE_MATCH, 1⟩, ⟨INSERTION, 1⟩, ⟨DELETION, 1⟩, ⟨SEQUENCE_MATCH, 2⟩] ∧
    Machine.ExpandMismatches (memory 'N' ['A', 'C', 'G', 'T']) 4
        (memory 'N' ['A', 'G', 'G', 'T']) 4
        [⟨SEQUENCE_MATCH, 1⟩, ⟨INSERTION, 1⟩, ⟨DELETION, 1⟩, ⟨SEQUENCE_MATCH, 2⟩]
      = .ok [⟨SEQUENCE_MATCH, 1⟩, ⟨SEQUENCE_MISMATCH, 1⟩, ⟨SEQUENCE_MATCH, 2⟩] ∧
    BaseConsistent (fun n => memory 'N' ['A', 'C', 'G', 'T'] n)
      (fun n => memory 'N' ['A', 'G', 'G', 'T'] n)
      [⟨SEQUENCE_MATCH, 1⟩, ⟨SEQUENCE_MISMATCH, 1⟩, ⟨SEQUENCE_MATCH, 2⟩] :=
  ⟨by decide, by decide, rfl,
    Machine.ExpandMismatches_base_consistency (memory 'N' ['A', 'C', 'G', 'T']) 4
      (memory 'N' ['A', 'G', 'G', 'T']) 4
      [⟨SEQUENCE_MATCH, 1⟩, ⟨INSERTION, 1⟩, ⟨DELETION, 1⟩, ⟨SEQUENCE_MATCH, 2⟩]
      [⟨SEQUENCE_MATCH, 1⟩, ⟨SEQUENCE_MISMATCH, 1⟩, ⟨SEQUENCE_MATCH, 2⟩]
      (by decide) (by decide) (by decide) (by decide) rfl⟩

/-! ## Refinement with the source's integer widths: well-formed runs -/

/-- C5, as stated, fails: on `[Match x 4294967295, Match x 1]`, whose runs have positive
lengths, the second run is merged into the first by the `uint32_t` sum
`4294967295 + 1`, which is 0: `ExpandMismatches` returns `[Match x 0]`, a run of
length 0. -/
theorem Machine.ExpandMismatches_runs_well_formed_counterexample :
    (∀ op ∈ ([⟨SEQUENCE_MATCH, 4294967295⟩, ⟨SEQUENCE_MATCH, 1⟩] : Cigar), 0 < op.length) ∧
    Machine.ExpandMismatches (fun _ => 'A') 4294967296 (fun _ => 'A') 4294967296
        [⟨SEQUENCE_MATCH, 4294967295⟩, ⟨SEQUENCE_MATCH, 1⟩] = .ok [⟨SEQUENCE_MATCH, 0⟩] ∧
    ¬ (∀ op ∈ ([⟨SEQUENCE_MATCH, 0⟩] : Cigar), 0 < op.length) := by
  refine ⟨by decide, rfl, by decide⟩

/-- C5, amended.  For every input run sequence whose runs all have a positive length
below `2^31`, with lengths that add up to less than `2^32`, whether or not adjacent runs
share an operation, and on which `ExpandMismatches` returns, every run of the result has
a positive length and no two adjacent runs of the result have the same operation. -/
theorem Machine.ExpandMismatches_runs_well_formed (query : Int → Char) (queryLen : Int)
    (target : Int → Char) (targetLen : Int) (cigar ret : Cigar) (hfits : Fits cigar)
    (hpos : ∀ op ∈ cigar, 0 < op.length)
    (h : Machine.ExpandMismatches query queryLen target targetLen cigar = .ok ret) :
    (∀ op ∈ ret, 0 < op.length) ∧ List.Chain' (fun a b => a.type ≠ b.type) ret :=
  exact_well_formed (fun n => query n) queryLen (fun n => target n) targetLen cigar ret hpos
    ((machine_ExpandMismatches_eq query queryLen target targetLen cigar ret hfits).mp h)

/-- Well-formedness on `2= 3= 1I 1I 2D 1X` over `ACGTACGTA` and `ACGTATTGA`, where adjacent
runs of the input share an operation; the result is `5= 1I 1X 1D 1X`. -/
theorem Machine.ExpandMismatches_runs_well_formed_witness :
    Fits [⟨SEQUENCE_MATCH, 2⟩, ⟨SEQUENCE_MATCH, 3⟩, ⟨INSERTION, 1⟩, ⟨INSERTION, 1⟩,
        ⟨DELETION, 2⟩, ⟨SEQUENCE_MISMATCH, 1⟩] ∧
    (∀ op ∈ ([⟨SEQUENCE_MATCH, 2⟩, ⟨SEQUENCE_MATCH, 3⟩, ⟨INSERTION, 1⟩, ⟨INSERTION, 1⟩,
        ⟨DELETION, 2⟩, ⟨SEQUENCE_MISMATCH, 1⟩] : Cigar), 0 < op.length) ∧
    Machine.ExpandMismatches (memory 'N' ['A', 'C', 'G', 'T', 'A', 'C', 'G', 'T', 'A']) 9
        (memory 'N' ['A', 'C', 'G', 'T', 'A', 'T', 'T', 'G', 'A']) 9
        [⟨SEQUENCE_MATCH, 2⟩, ⟨SEQUENCE_MATCH, 3⟩, ⟨INSERTION, 1⟩, ⟨INSERTION, 1⟩,
          ⟨DELETION, 2⟩, ⟨SEQUENCE_MISMATCH, 1⟩]
      = .ok [⟨SEQUENCE_MATCH, 5⟩, ⟨INSERTION, 1⟩, ⟨SEQUENCE_MISMATCH, 1⟩, ⟨DELETION, 1⟩,
          ⟨SEQUENCE_MISMATCH, 1⟩] ∧
    (∀ op ∈ ([⟨SEQUENCE_MATCH, 5⟩, ⟨INSERTION, 1⟩, ⟨SEQUENCE_MISMATCH, 1⟩, ⟨DELETION, 1⟩,
        ⟨SEQUENCE_MISMATCH, 1⟩] : Cigar), 0 < op.length) ∧
    List.Chain' (fun a b => a.type ≠ b.type)
      ([⟨SEQUENCE_MATCH, 5⟩, ⟨INSERTION, 1⟩, ⟨SEQUENCE_MISMATCH, 1⟩, ⟨DELETION, 1⟩,
        ⟨SEQUENCE_MISMATCH, 1⟩] : Cigar) :=
  ⟨by decide, by decide, rfl,
    Machine.ExpandMismatches_runs_well_formed
      (memory 'N' ['A', 'C', 'G', 'T', 'A', 'C', 'G', 'T', 'A']) 9
      (memory 'N' ['A', 'C', 'G', 'T', 'A', 'T', 'T', 'G', 'A']) 9
      [⟨SEQUENCE_MATCH, 2⟩, ⟨SEQUENCE_MATCH, 3⟩, ⟨INSERTION, 1⟩, ⟨INSERTION, 1⟩,
        ⟨DELETION, 2⟩, ⟨SEQUENCE_MISMATCH, 1⟩]
      [⟨SEQUENCE_MATCH, 5⟩, ⟨INSERTION, 1⟩, ⟨SEQUENCE_MISMATCH, 1⟩, ⟨DELETION, 1⟩,
        ⟨SEQUENCE_MISMATCH, 1⟩]
      (by decide) (by decide) rfl⟩

/-! ## The counters with the source's integer widths -/

/-- Adding a length to an `int32_t` counter that holds a sum of lengths modulo `2^32`
gives the longer sum modulo `2^32`. -/
theorem Machine.addLength_toInt32 (s l : Nat) :
    Machine.addLength (toInt32 s) l = toInt32 (s + l) := by
  unfold Machine.addLength toInt32 toUInt32
  split_ifs <;> omega

theorem Machine.CigarDiffCounts.step_toInt32 (op : CigarOperation) (a b c d : Nat) :
    Machine.CigarDiffCounts.step ⟨toInt32 a, toInt32 b, toInt32 c, toInt32 d⟩ op
      = ⟨toInt32 (a + if op.type == SEQUENCE_MATCH then op.length else 0),
         toInt32 (b + if op.type == SEQUENCE_MISMATCH then op.length else 0),
         toInt32 (c + if op.type == INSERTION then op.length else 0),
         toInt32 (d + if op.type == DELETION then op.length else 0)⟩ := by
  unfold Machine.CigarDiffCounts.step
  by_cases h1 : op.type = SEQUENCE_MATCH
  · simp [h1, Machine.addLength_toInt32]
  · by_cases h2 : op.type = SEQUENCE_MISMATCH
    · simp [h2, Machine.addLength_toInt32]
    · by_cases h3 : op.type = INSERTION
      · simp [h3, Machine.addLength_toInt32]
      · by_cases h4 : op.type = DELETION
        · simp [h4, Machine.addLength_toInt32]
        · simp [h1, h2, h3, h4]

theorem Machine.CigarDiffCounts.foldl_toInt32 (cigar : Cigar) :
    ∀ a b c d : Nat,
      cigar.foldl Machine.CigarDiffCounts.step ⟨toInt32 a, toInt32 b, toInt32 c, toInt32 d⟩
        = ⟨toInt32 (a + sumLengths (· == SEQUENCE_MATCH) cigar),
           toInt32 (b + sumLengths (· == SEQUENCE_MISMATCH) cigar),
           toInt32 (c + sumLengths (· == INSERTION) cigar),
           toInt32 (d + sumLengths (· == DELETION) cigar)⟩ := by
  induction cigar with
  | nil => intro a b c d; simp [sumLengths]
  | cons op cigar ih =>
    intro a b c d
    rw [List.foldl_cons, Machine.CigarDiffCounts.step_toInt32, ih]
    simp only [sumLengths_cons, Nat.add_assoc]

/-- Each counter of `CigarDiffCounts` is the sum of the lengths of the runs with its
operation, modulo `2^32`, in the range of `int32_t`. -/
theorem Machine.CigarDiffCounts_toInt32 (cigar : Cigar) :
    Machine.CigarDiffCounts cigar
      = ⟨toInt32 (sumLengths (· == SEQUENCE_MATCH) cigar),
         toInt32 (sumLengths (· == SEQUENCE_MISMATCH) cigar),
         toInt32 (sumLengths (· == INSERTION) cigar),
         toInt32 (sumLengths (· == DELETION) cigar)⟩ := by
  unfold Machine.CigarDiffCounts
  have h := Machine.CigarDiffCounts.foldl_toInt32 cigar 0 0 0 0
  simp only [Nat.zero_add, show toInt32 0 = 0 from rfl] at h
  split
  · rename_i he
    have : cigar = [] := by simpa using he
    subst this
    rfl
  · exact h

theorem sumLengths_four_le (cigar : Cigar) :
    sumLengths (· == SEQUENCE_MATCH) cigar + sumLengths (· == SEQUENCE_MISMATCH) cigar
      + sumLengths (· == INSERTION) cigar + sumLengths (· == DELETION) cigar
      ≤ totalLength cigar := by
  induction cigar with
  | nil => simp [sumLengths, totalLength]
  | cons op cigar ih =>
    simp only [sumLengths_cons, totalLength_cons]
    rcases op with ⟨type, length⟩
    cases type <;> simp <;> omega

/-- C8, as stated, fails.  On `[Match x 2147483648]` the `int32_t` counter `numEq` is
`-2147483648`, which is neither the sum of the lengths of the match runs nor, with the
other three counters, the sum of all run lengths.  And `CigarDiffCounts` leaves a run
whose operation is none of the four out of every counter: on `[SoftClip x 3]` the four
counters are zero while the run lengths sum to 3. -/
theorem Machine.CigarDiffCounts_total_counterexample :
    (Machine.CigarDiffCounts [⟨SEQUENCE_MATCH, 2147483648⟩] = ⟨-2147483648, 0, 0, 0⟩ ∧
      (Machine.CigarDiffCounts [⟨SEQUENCE_MATCH, 2147483648⟩]).numEq
        ≠ ((sumLengths (· == SEQUENCE_MATCH) [⟨SEQUENCE_MATCH, 2147483648⟩] : Nat) : Int) ∧
      (Machine.CigarDiffCounts [⟨SEQUENCE_MATCH, 2147483648⟩]).numEq
          + (Machine.CigarDiffCounts [⟨SEQUENCE_MATCH, 2147483648⟩]).numX
          + (Machine.CigarDiffCounts [⟨SEQUENCE_MATCH, 2147483648⟩]).numI
          + (Machine.CigarDiffCounts [⟨SEQUENCE_MATCH, 2147483648⟩]).numD
        ≠ (((([⟨SEQUENCE_MATCH, 2147483648⟩] : Cigar).map CigarOperation.length).sum : Nat)
            : Int)) ∧
    (Machine.CigarDiffCounts [⟨SOFT_CLIP, 3⟩] = ⟨0, 0, 0, 0⟩ ∧
      (Machine.CigarDiffCounts [⟨SOFT_CLIP, 3⟩]).numEq
          + (Machine.CigarDiffCounts [⟨SOFT_CLIP, 3⟩]).numX
          + (Machine.CigarDiffCounts [⟨SOFT_CLIP, 3⟩]).numI
          + (Machine.CigarDiffCounts [⟨SOFT_CLIP, 3⟩]).numD
        ≠ (((([⟨SOFT_CLIP, 3⟩] : Cigar).map CigarOperation.length).sum : Nat) : Int)) := by
  decide

/-- C8, amended.  For every run sequence, `CigarDiffCounts` sets each counter to the sum
of the lengths of the runs with that operation, modulo `2^32` and read as an `int32_t`:
to that sum, when the sum is below `2^31`.  When every run has one of the four operations
(match, mismatch, insertion, deletion) and each of the four sums is below `2^31`, the
four counters add up to the sum of all run lengths.  For every raw trace of length `n` on
which `EdlibAlignmentDiffCounts` returns, the four counters add up to `n`. -/
theorem Machine.CigarDiffCounts_total (cigar : Cigar) (aln : Nat → Nat) (n : Nat) :
    Machine.CigarDiffCounts cigar
      = ⟨toInt32 (sumLengths (· == SEQUENCE_MATCH) cigar),
         toInt32 (sumLengths (· == SEQUENCE_MISMATCH) cigar),
         toInt32 (sumLengths (· == INSERTION) cigar),
         toInt32 (sumLengths (· == DELETION) cigar)⟩ ∧
    (sumLengths (· == SEQUENCE_MATCH) cigar < 2147483648 →
      (Machine.CigarDiffCounts cigar).numEq
        = ((sumLengths (· == SEQUENCE_MATCH) cigar : Nat) : Int)) ∧
    (sumLengths (· == SEQUENCE_MISMATCH) cigar < 2147483648 →
      (Machine.CigarDiffCounts cigar).numX
        = ((sumLengths (· == SEQUENCE_MISMATCH) cigar : Nat) : Int)) ∧
    (sumLengths (· == INSERTION) cigar < 2147483648 →
      (Machine.CigarDiffCounts cigar).numI
        = ((sumLengths (· == INSERTION) cigar : Nat) : Int)) ∧
    (sumLengths (· == DELETION) cigar < 2147483648 →
      (Machine.CigarDiffCounts cigar).numD
        = ((sumLengths (· == DELETION) cigar : Nat) : Int)) ∧
    ((∀ op ∈ cigar, op.type = SEQUENCE_MATCH ∨ op.type = SEQUENCE_MISMATCH ∨
        op.type = INSERTION ∨ op.type = DELETION) →
      sumLengths (· == SEQUENCE_MATCH) cigar < 2147483648 →
      sumLengths (· == SEQUENCE_MISMATCH) cigar < 2147483648 →
      sumLengths (· == INSERTION) cigar < 2147483648 →
      sumLengths (· == DELETION) cigar < 2147483648 →
      (Machine.CigarDiffCounts cigar).numEq + (Machine.CigarDiffCounts cigar).numX
        + (Machine.CigarDiffCounts cigar).numI + (Machine.CigarDiffCounts cigar).numD
        = (((cigar.map CigarOperation.length).sum : Nat) : Int)) ∧
    (∀ counts, EdlibAlignmentDiffCounts aln (n : Int) = .ok counts →
      counts.numEq + counts.numX + counts.numI + counts.numD = n) := by
  refine ⟨Machine.CigarDiffCounts_toInt32 cigar, ?_, ?_, ?_, ?_, ?_, ?_⟩
  · intro h; rw [Machine.CigarDiffCounts_toInt32]; exact toInt32_of_lt _ h
  · intro h; rw [Machine.CigarDiffCounts_toInt32]; exact toInt32_of_lt _ h
  · intro h; rw [Machine.CigarDiffCounts_toInt32]; exact toInt32_of_lt _ h
  · intro h; rw [Machine.CigarDiffCounts_toInt32]; exact toInt32_of_lt _ h
  · intro hfour h1 h2 h3 h4
    rw [Machine.CigarDiffCounts_toInt32]
    simp only [toInt32_of_lt _ h1, toInt32_of_lt _ h2, toInt32_of_lt _ h3, toInt32_of_lt _ h4]
    rw [← sumLengths_four cigar hfour]
    push_cast
    rfl
  · intro counts h
    unfold EdlibAlignmentDiffCounts at h
    by_cases hn : n = 0
    · subst hn
      simp only [Nat.cast_zero, le_refl, if_true, Except.ok.injEq] at h
      subst h
      rfl
    · have hle : ¬ ((n : Int) ≤ 0) := by omega
      simp only [hle, if_false, Int.toNat_ofNat] at h
      have := (EdlibAlignmentDiffCounts.loop_counts aln n 0 _ _ h).2.2.2.2
      simpa using this

/-- The counters on `2= 1X 3I 1D` and the totals on it and on the trace `0 0 3 1 1 1 2`. -/
theorem Machine.CigarDiffCounts_total_witness :
    (Machine.CigarDiffCounts [⟨SEQUENCE_MATCH, 2⟩, ⟨SEQUENCE_MISMATCH, 1⟩, ⟨INSERTION, 3⟩,
        ⟨DELETION, 1⟩]).numEq
      = ((sumLengths (· == SEQUENCE_MATCH) [⟨SEQUENCE_MATCH, 2⟩, ⟨SEQUENCE_MISMATCH, 1⟩, ⟨INSERTION, 3⟩,
        ⟨DELETION, 1⟩] : Nat) : Int) ∧
    (Machine.CigarDiffCounts [⟨SEQUENCE_MATCH, 2⟩, ⟨SEQUENCE_MISMATCH, 1⟩, ⟨INSERTION, 3⟩,
        ⟨DELETION, 1⟩]).numX
      = ((sumLengths (· == SEQUENCE_MISMATCH) [⟨SEQUENCE_MATCH, 2⟩, ⟨SEQUENCE_MISMATCH, 1⟩, ⟨INSERTION, 3⟩,
        ⟨DELETION, 1⟩] : Nat) : Int) ∧
    (Machine.CigarDiffCounts [⟨SEQUENCE_MATCH, 2⟩, ⟨SEQUENCE_MISMATCH, 1⟩, ⟨INSERTION, 3⟩,
        ⟨DELETION, 1⟩]).numI
      = ((sumLengths (· == INSERTION) [⟨SEQUENCE_MATCH, 2⟩, ⟨SEQUENCE_MISMATCH, 1⟩, ⟨INSERTION, 3⟩,
        ⟨DELETION, 1⟩] : Nat) : Int) ∧
    (Machine.CigarDiffCounts [⟨SEQUENCE_MATCH, 2⟩, ⟨SEQUENCE_MISMATCH, 1⟩, ⟨INSERTION, 3⟩,
        ⟨DELETION, 1⟩]).numD
      = ((sumLengths (· == DELETION) [⟨SEQUENCE_MATCH, 2⟩, ⟨SEQUENCE_MISMATCH, 1⟩, ⟨INSERTION, 3⟩,
        ⟨DELETION, 1⟩] : Nat) : Int) ∧
    (Machine.CigarDiffCounts [⟨SEQUENCE_MATCH, 2⟩, ⟨SEQUENCE_MISMATCH, 1⟩, ⟨INSERTION, 3⟩,
        ⟨DELETION, 1⟩]).numEq
      + (Machine.CigarDiffCounts [⟨SEQUENCE_MATCH, 2⟩, ⟨SEQUENCE_MISMATCH, 1⟩, ⟨INSERTION, 3⟩,
        ⟨DELETION, 1⟩]).numX
      + (Machine.CigarDiffCounts [⟨SEQUENCE_MATCH, 2⟩, ⟨SEQUENCE_MISMATCH, 1⟩, ⟨INSERTION, 3⟩,
        ⟨DELETION, 1⟩]).numI
      + (Machine.CigarDiffCounts [⟨SEQUENCE_MATCH, 2⟩, ⟨SEQUENCE_MISMATCH, 1⟩, ⟨INSERTION, 3⟩,
        ⟨DELETION, 1⟩]).numD
      = (((([⟨SEQUENCE_MATCH, 2⟩, ⟨SEQUENCE_MISMATCH, 1⟩, ⟨INSERTION, 3⟩,
        ⟨DELETION, 1⟩] : Cigar).map CigarOperation.length).sum : Nat) : Int) ∧
    EdlibAlignmentDiffCounts (buffer 0 [0, 0, 3, 1, 1, 1, 2]) ((7 : Nat) : Int)
      = .ok ⟨2, 1, 3, 1⟩ ∧
    (⟨2, 1, 3, 1⟩ : Pancake.DiffCounts).numEq + (⟨2, 1, 3, 1⟩ : Pancake.DiffCounts).numX
      + (⟨2, 1, 3, 1⟩ : Pancake.DiffCounts).numI + (⟨2, 1, 3, 1⟩ : Pancake.DiffCounts).numD = 7 :=
  ⟨(Machine.CigarDiffCounts_total [⟨SEQUENCE_MATCH, 2⟩, ⟨SEQUENCE_MISMATCH, 1⟩, ⟨INSERTION, 3⟩,
        ⟨DELETION, 1⟩] (buffer 0 [0, 0, 3, 1, 1, 1, 2]) 7).2.1 (by decide),
    (Machine.CigarDiffCounts_total [⟨SEQUENCE_MATCH, 2⟩, ⟨SEQUENCE_MISMATCH, 1⟩, ⟨INSERTION, 3⟩,
        ⟨DELETION, 1⟩] (buffer 0 [0, 0, 3, 1, 1, 1, 2]) 7).2.2.1 (by decide),
    (Machine.CigarDiffCounts_total [⟨SEQUENCE_MATCH, 2⟩, ⟨SEQUENCE_MISMATCH, 1⟩, ⟨INSERTION, 3⟩,
        ⟨DELETION, 1⟩] (buffer 0 [0, 0, 3, 1, 1, 1, 2]) 7).2.2.2.1 (by decide),
    (Machine.CigarDiffCounts_total [⟨SEQUENCE_MATCH, 2⟩, ⟨SEQUENCE_MISMATCH, 1⟩, ⟨INSERTION, 3⟩,
        ⟨DELETION, 1⟩] (buffer 0 [0, 0, 3, 1, 1, 1, 2]) 7).2.2.2.2.1
      (by decide),
    (Machine.CigarDiffCounts_total [⟨SEQUENCE_MATCH, 2⟩, ⟨SEQUENCE_MISMATCH, 1⟩, ⟨INSERTION, 3⟩,
        ⟨DELETION, 1⟩] (buffer 0 [0, 0, 3, 1, 1, 1, 2]) 7).2.2.2.2.2.1
      (by decide) (by decide) (by decide) (by decide) (by decide),
    rfl,
    (Machine.CigarDiffCounts_total [] (buffer 0 [0, 0, 3, 1, 1, 1, 2]) 7).2.2.2.2.2.2
      ⟨2, 1, 3, 1⟩ rfl⟩

/-! ## Refinement with the source's integer widths: the counters -/

/-- C18, as stated, fails: on `[Insertion x 1, Deletion x 1, Match x 2147483647]` over a
query and a target of `A`s, with `queryLen = targetLen = 2147483648`, the pair is
rewritten into one match unit, which is merged with the match run: the result is
`[Match x 2147483648]`, on which the `int32_t` counter `numEq` is `-2147483648`, below the
`2147483647` counted on the input. -/
theorem Machine.ExpandMismatches_counts_counterexample :
    Machine.ExpandMismatches (fun _ => 'A') 2147483648 (fun _ => 'A') 2147483648
        [⟨INSERTION, 1⟩, ⟨DELETION, 1⟩, ⟨SEQUENCE_MATCH, 2147483647⟩]
      = .ok [⟨SEQUENCE_MATCH, 2147483648⟩] ∧
    (Machine.CigarDiffCounts
        [⟨INSERTION, 1⟩, ⟨DELETION, 1⟩, ⟨SEQUENCE_MATCH, 2147483647⟩]).numEq = 2147483647 ∧
    (Machine.CigarDiffCounts [⟨SEQUENCE_MATCH, 2147483648⟩]).numEq = -2147483648 ∧
    ¬ ((Machine.CigarDiffCounts
        [⟨INSERTION, 1⟩, ⟨DELETION, 1⟩, ⟨SEQUENCE_MATCH, 2147483647⟩]).numEq
      ≤ (Machine.CigarDiffCounts [⟨SEQUENCE_MATCH, 2147483648⟩]).numEq) := by
  refine ⟨rfl, by decide, by decide, by decide⟩

/-- C18, amended.  For every input whose run lengths add up to less than `2^31` and on
which `ExpandMismatches` returns, with `(eq, x, i, d)` the counters of `CigarDiffCounts`
on the input and `(eq', x', i', d')` those on the output: `eq' >= eq`, `x' >= x`,
`i' <= i`, `d' <= d`, the insertion and deletion counts drop by the same amount, which is
the amount by which `eq' + x'` exceeds `eq + x`, and `x' + i' + d' <= x + i + d`. -/
theorem Machine.ExpandMismatches_counts (query : Int → Char) (queryLen : Int)
    (target : Int → Char) (targetLen : Int) (cigar ret : Cigar)
    (htotal : totalLength cigar < 2147483648)
    (h : Machine.ExpandMismatches query queryLen target targetLen cigar = .ok ret) :
    (Machine.CigarDiffCounts cigar).numEq ≤ (Machine.CigarDiffCounts ret).numEq ∧
    (Machine.CigarDiffCounts cigar).numX ≤ (Machine.CigarDiffCounts ret).numX ∧
    (Machine.CigarDiffCounts ret).numI ≤ (Machine.CigarDiffCounts cigar).numI ∧
    (Machine.CigarDiffCounts ret).numD ≤ (Machine.CigarDiffCounts cigar).numD ∧
    (Machine.CigarDiffCounts cigar).numI - (Machine.CigarDiffCounts ret).numI
      = (Machine.CigarDiffCounts cigar).numD - (Machine.CigarDiffCounts ret).numD ∧
    (Machine.CigarDiffCounts cigar).numD - (Machine.CigarDiffCounts ret).numD
      = ((Machine.CigarDiffCounts ret).numEq + (Machine.CigarDiffCounts ret).numX)
        - ((Machine.CigarDiffCounts cigar).numEq + (Machine.CigarDiffCounts cigar).numX) ∧
    (Machine.CigarDiffCounts ret).numX + (Machine.CigarDiffCounts ret).numI
        + (Machine.CigarDiffCounts ret).numD
      ≤ (Machine.CigarDiffCounts cigar).numX + (Machine.CigarDiffCounts cigar).numI
        + (Machine.CigarDiffCounts cigar).numD := by
  have hex := (machine_ExpandMismatches_eq query queryLen target targetLen cigar ret
    (Fits.of_total_lt cigar htotal)).mp h
  have hd := exact_diff_counts _ queryLen _ targetLen cigar ret hex
  simp only [Pancake.CigarDiffCounts_eq] at hd
  have hsum := sumLengths_four_le cigar
  obtain ⟨d1, d2, d3, d4, d5, d6, d7⟩ := hd
  simp only [Machine.CigarDiffCounts_toInt32]
  rw [toInt32_of_lt (sumLengths (· == SEQUENCE_MATCH) cigar) (by omega),
    toInt32_of_lt (sumLengths (· == SEQUENCE_MISMATCH) cigar) (by omega),
    toInt32_of_lt (sumLengths (· == INSERTION) cigar) (by omega),
    toInt32_of_lt (sumLengths (· == DELETION) cigar) (by omega),
    toInt32_of_lt (sumLengths (· == SEQUENCE_MATCH) ret) (by omega),
    toInt32_of_lt (sumLengths (· == SEQUENCE_MISMATCH) ret) (by omega),
    toInt32_of_lt (sumLengths (· == INSERTION) ret) (by omega),
    toInt32_of_lt (sumLengths (· == DELETION) ret) (by omega)]
  refine ⟨?_, ?_, ?_, ?_, ?_, ?_, ?_⟩ <;> omega

/-- The counters on `1= 2I 3D 1X` over `ACGT` and `ACTTC`: `(1, 1, 2, 3)` before the
refinement into `2= 1X 1D 1X`, and `(2, 2, 0, 1)` after it. -/
theorem Machine.ExpandMismatches_counts_witness :
    totalLength [⟨SEQUENCE_MATCH, 1⟩, ⟨INSERTION, 2⟩, ⟨DELETION, 3⟩, ⟨SEQUENCE_MISMATCH, 1⟩]
      < 2147483648 ∧
    Machine.ExpandMismatches (memory 'N' ['A', 'C', 'G', 'T']) 4
        (memory 'N' ['A', 'C', 'T', 'T', 'C']) 5
        [⟨SEQUENCE_MATCH, 1⟩, ⟨INSERTION, 2⟩, ⟨DELETION, 3⟩, ⟨SEQUENCE_MISMATCH, 1⟩]
      = .ok [⟨SEQUENCE_MATCH, 2⟩, ⟨SEQUENCE_MISMATCH, 1⟩, ⟨DELETION, 1⟩,
          ⟨SEQUENCE_MISMATCH, 1⟩] ∧
    Machine.CigarDiffCounts
        [⟨SEQUENCE_MATCH, 1⟩, ⟨INSERTION, 2⟩, ⟨DELETION, 3⟩, ⟨SEQUENCE_MISMATCH, 1⟩]
      = ⟨1, 1, 2, 3⟩ ∧
    Machine.CigarDiffCounts [⟨SEQUENCE_MATCH, 2⟩, ⟨SEQUENCE_MISMATCH, 1⟩, ⟨DELETION, 1⟩,
        ⟨SEQUENCE_MISMATCH, 1⟩] = ⟨2, 2, 0, 1⟩ ∧
    (Machine.CigarDiffCounts [⟨SEQUENCE_MATCH, 2⟩, ⟨SEQUENCE_MISMATCH, 1⟩, ⟨DELETION, 1⟩,
        ⟨SEQUENCE_MISMATCH, 1⟩]).numX
      + (Machine.CigarDiffCounts [⟨SEQUENCE_MATCH, 2⟩, ⟨SEQUENCE_MISMATCH, 1⟩, ⟨DELETION, 1⟩,
        ⟨SEQUENCE_MISMATCH, 1⟩]).numI
      + (Machine.CigarDiffCounts [⟨SEQUENCE_MATCH, 2⟩, ⟨SEQUENCE_MISMATCH, 1⟩, ⟨DELETION, 1⟩,
        ⟨SEQUENCE_MISMATCH, 1⟩]).numD
      ≤ (Machine.CigarDiffCounts [⟨SEQUENCE_MATCH, 1⟩, ⟨INSERTION, 2⟩, ⟨DELETION, 3⟩,
        ⟨SEQUENCE_MISMATCH, 1⟩]).numX
      + (Machine.CigarDiffCounts [⟨SEQUENCE_MATCH, 1⟩, ⟨INSERTION, 2⟩, ⟨DELETION, 3⟩,
        ⟨SEQUENCE_MISMATCH, 1⟩]).numI
      + (Machine.CigarDiffCounts [⟨SEQUENCE_MATCH, 1⟩, ⟨INSERTION, 2⟩, ⟨DELETION, 3⟩,
        ⟨SEQUENCE_MISMATCH, 1⟩]).numD :=
  ⟨by decide, rfl, rfl, rfl,
    (Machine.ExpandMismatches_counts (memory 'N' ['A', 'C', 'G', 'T']) 4
      (memory 'N' ['A', 'C', 'T', 'T', 'C']) 5
      [⟨SEQUENCE_MATCH, 1⟩, ⟨INSERTION, 2⟩, ⟨DELETION, 3⟩, ⟨SEQUENCE_MISMATCH, 1⟩]
      [⟨SEQUENCE_MATCH, 2⟩, ⟨SEQUENCE_MISMATCH, 1⟩, ⟨DELETION, 1⟩, ⟨SEQUENCE_MISMATCH, 1⟩]
      (by decide) rfl).2.2.2.2.2.2⟩

/-! ## The append-merge rule with the source's integer widths -/

theorem Machine.AppendToCigar_zero_length (cigar : Cigar) (newOp : CigarOperationType) :
    Machine.AppendToCigar cigar newOp 0 = cigar := by
  simp [Machine.AppendToCigar]

theorem Machine.AppendToCigar_on_nil (newOp : CigarOperationType) (newLen : Int)
    (h : newLen ≠ 0) :
    Machine.AppendToCigar [] newOp newLen = [⟨newOp, toUInt32 newLen⟩] := by
  simp [Machine.AppendToCigar, h]

theorem Machine.AppendToCigar_same_op (init : Cigar) (last : CigarOperation)
    (newLen : Int) (h : newLen ≠ 0) :
    Machine.AppendToCigar (init ++ [last]) last.type newLen
      = init ++ [⟨last.type, toUInt32 ((last.length : Int) + newLen)⟩] := by
  simp [Machine.AppendToCigar, h]

theorem Machine.AppendToCigar_other_op (init : Cigar) (last : CigarOperation)
    (newOp : CigarOperationType) (newLen : Int) (h : newLen ≠ 0) (hop : newOp ≠ last.type) :
    Machine.AppendToCigar (init ++ [last]) newOp newLen
      = init ++ [last, ⟨newOp, toUInt32 newLen⟩] := by
  simp [Machine.AppendToCigar, h, hop]

/-- After `AppendToCigar` with a length that is not 0, the last run has the appended
operation. -/
theorem Machine.AppendToCigar_getLast_type (cigar : Cigar) (newOp : CigarOperationType)
    (newLen : Int) (h : newLen ≠ 0) :
    ∃ last, (Machine.AppendToCigar cigar newOp newLen).getLast? = some last ∧
      last.type = newOp := by
  rcases List.eq_nil_or_concat cigar with hc | ⟨init, last, hc⟩
  · subst hc
    exact ⟨⟨newOp, toUInt32 newLen⟩, by rw [Machine.AppendToCigar_on_nil _ _ h]; rfl, rfl⟩
  · rw [List.concat_eq_append] at hc
    subst hc
    by_cases hop : newOp = last.type
    · subst hop
      exact ⟨⟨last.type, toUInt32 ((last.length : Int) + newLen)⟩,
        by rw [Machine.AppendToCigar_same_op _ _ _ h]; simp, rfl⟩
    · exact ⟨⟨newOp, toUInt32 newLen⟩,
        by rw [Machine.AppendToCigar_other_op _ _ _ _ h hop]; simp, rfl⟩

/-- C10, as stated, fails: appending `Match x 1` to `[Match x 4294967295]` forms the
`uint32_t` sum `4294967295 + 1`, which is 0; the last run becomes `Match x 0`, it does
not grow by 1. -/
theorem Machine.AppendToCigar_merge_rule_counterexample :
    Machine.AppendToCigar [⟨SEQUENCE_MATCH, 4294967295⟩] SEQUENCE_MATCH 1
      = [⟨SEQUENCE_MATCH, 0⟩] ∧
    Machine.AppendToCigar [⟨SEQUENCE_MATCH, 4294967295⟩] SEQUENCE_MATCH 1
      ≠ [⟨SEQUENCE_MATCH, 4294967295 + 1⟩] := by
  decide

/-- C10, amended.  For every run sequence `cigar`, operation `newOp` and length `newLen`
below `2^31`: if `newLen = 0` the sequence is left unchanged; if `newLen > 0` and `cigar`
is not empty and ends with a run of operation `newOp`, the number of runs is unchanged,
the length of the last run becomes its sum with `newLen` modulo `2^32`, so that it grows
by `newLen` when that sum is below `2^32`, and all other runs are untouched; otherwise
(`cigar` empty, or its last operation different) exactly one new run `(newOp, newLen)` is
added at the end and all existing runs are untouched. -/
theorem Machine.AppendToCigar_merge_rule (cigar : Cigar) (newOp : CigarOperationType)
    (newLen : Nat) (hlen : newLen < 2147483648) :
    (newLen = 0 → Machine.AppendToCigar cigar newOp (newLen : Int) = cigar) ∧
    (0 < newLen → ∀ (init : Cigar) (last : CigarOperation),
      cigar = init ++ [last] → last.type = newOp →
        Machine.AppendToCigar cigar newOp (newLen : Int)
          = init ++ [⟨newOp, (last.length + newLen) % 4294967296⟩] ∧
        (last.length + newLen < 4294967296 →
          Machine.AppendToCigar cigar newOp (newLen : Int)
            = init ++ [⟨newOp, last.length + newLen⟩]) ∧
        (Machine.AppendToCigar cigar newOp (newLen : Int)).length = cigar.length) ∧
    (0 < newLen →
      (cigar = [] ∨ ∃ (init : Cigar) (last : CigarOperation),
        cigar = init ++ [last] ∧ last.type ≠ newOp) →
        Machine.AppendToCigar cigar newOp (newLen : Int) = cigar ++ [⟨newOp, newLen⟩]) := by
  refine ⟨?_, ?_, ?_⟩
  · intro h
    subst h
    exact Machine.AppendToCigar_zero_length cigar newOp
  · intro hn init last hc hop
    subst hc
    subst hop
    have h0 : (newLen : Int) ≠ 0 := by omega
    have hsum : toUInt32 ((last.length : Int) + (newLen : Int))
        = (last.length + newLen) % 4294967296 := by
      rw [← Nat.cast_add]; exact toUInt32_eq_mod _
    rw [Machine.AppendToCigar_same_op init last _ h0, hsum]
    refine ⟨rfl, ?_, by simp⟩
    intro hlt
    rw [Nat.mod_eq_of_lt hlt]
  · intro hn hc
    have h0 : (newLen : Int) ≠ 0 := by omega
    have hnew : toUInt32 (newLen : Int) = newLen := toUInt32_natCast _ (by omega)
    rcases hc with hc | ⟨init, last, hc, hop⟩
    · subst hc
      rw [Machine.AppendToCigar_on_nil newOp _ h0, hnew]
      rfl
    · subst hc
      rw [Machine.AppendToCigar_other_op init last newOp _ h0 (fun e => hop e.symm), hnew]
      simp

/-- The cases of the rule on `2= 1I`: a zero-length run, one more insertion run, and a
deletion run. -/
theorem Machine.AppendToCigar_merge_rule_witness :
    Machine.AppendToCigar [⟨SEQUENCE_MATCH, 2⟩, ⟨INSERTION, 1⟩] DELETION ((0 : Nat) : Int)
      = [⟨SEQUENCE_MATCH, 2⟩, ⟨INSERTION, 1⟩] ∧
    (Machine.AppendToCigar [⟨SEQUENCE_MATCH, 2⟩, ⟨INSERTION, 1⟩] INSERTION ((4 : Nat) : Int)
        = [⟨SEQUENCE_MATCH, 2⟩] ++ [⟨INSERTION, (1 + 4) % 4294967296⟩] ∧
      (1 + 4 < 4294967296 →
        Machine.AppendToCigar [⟨SEQUENCE_MATCH, 2⟩, ⟨INSERTION, 1⟩] INSERTION ((4 : Nat) : Int)
          = [⟨SEQUENCE_MATCH, 2⟩] ++ [⟨INSERTION, 1 + 4⟩]) ∧
      (Machine.AppendToCigar [⟨SEQUENCE_MATCH, 2⟩, ⟨INSERTION, 1⟩] INSERTION
          ((4 : Nat) : Int)).length
        = ([⟨SEQUENCE_MATCH, 2⟩, ⟨INSERTION, 1⟩] : Cigar).length) ∧
    Machine.AppendToCigar [⟨SEQUENCE_MATCH, 2⟩, ⟨INSERTION, 1⟩] DELETION ((3 : Nat) : Int)
      = [⟨SEQUENCE_MATCH, 2⟩, ⟨INSERTION, 1⟩] ++ [⟨DELETION, 3⟩] :=
  ⟨(Machine.AppendToCigar_merge_rule [⟨SEQUENCE_MATCH, 2⟩, ⟨INSERTION, 1⟩] DELETION 0
      (by decide)).1 rfl,
    (Machine.AppendToCigar_merge_rule [⟨SEQUENCE_MATCH, 2⟩, ⟨INSERTION, 1⟩] INSERTION 4
      (by decide)).2.1 (by decide) [⟨SEQUENCE_MATCH, 2⟩] ⟨INSERTION, 1⟩ rfl rfl,
    (Machine.AppendToCigar_merge_rule [⟨SEQUENCE_MATCH, 2⟩, ⟨INSERTION, 1⟩] DELETION 3
      (by decide)).2.2 (by decide)
      (Or.inr ⟨[⟨SEQUENCE_MATCH, 2⟩], ⟨INSERTION, 1⟩, rfl, by decide⟩)⟩

/-! ## The malformed-alignment check -/

/-- C13, evaluated on `[Insertion x 2, Deletion x 2]` with `queryLen = targetLen = 1`:
both spans are 2, beyond the stated lengths.  The check `queryPos >= queryLen ||
targetPos >= targetLen` is made once, at the cursors `(0, 0)`, before the pair is
examined; the diagonal loop then reads `query[1]` and `target[1]`, beyond both lengths,
and `ExpandMismatches` returns a run sequence whatever the buffers hold, where it should
raise the malformed-alignment error; with checked reads the call ends at index 1.  On
`[Match x 5, Mismatch x 5]`, with the same lengths, the cursors are not checked after
the first run either, and the input is returned. -/
theorem Machine.ExpandMismatches_reads_past_lengths :
    (1 : Int) < (querySpan [⟨INSERTION, 2⟩, ⟨DELETION, 2⟩] : Nat) ∧
    (1 : Int) < (targetSpan [⟨INSERTION, 2⟩, ⟨DELETION, 2⟩] : Nat) ∧
    (∀ query target : Int → Char, ∃ ret,
      Machine.ExpandMismatches query 1 target 1 [⟨INSERTION, 2⟩, ⟨DELETION, 2⟩] = .ok ret) ∧
    Machine.ExpandMismatches (memory 'N' ['A']) 1 (memory 'N' ['A']) 1
        [⟨INSERTION, 2⟩, ⟨DELETION, 2⟩] = .ok [⟨SEQUENCE_MATCH, 2⟩] ∧
    Machine.ExpandMismatchesChecked (memory 'N' ['A']) 1 (memory 'N' ['A']) 1
        [⟨INSERTION, 2⟩, ⟨DELETION, 2⟩] = .error (.indexOutOfRange 1) ∧
    (1 : Int) < (querySpan [⟨SEQUENCE_MATCH, 5⟩, ⟨SEQUENCE_MISMATCH, 5⟩] : Nat) ∧
    Machine.ExpandMismatches (memory 'N' ['A']) 1 (memory 'N' ['A']) 1
        [⟨SEQUENCE_MATCH, 5⟩, ⟨SEQUENCE_MISMATCH, 5⟩]
      = .ok [⟨SEQUENCE_MATCH, 5⟩, ⟨SEQUENCE_MISMATCH, 5⟩] := by
  refine ⟨by decide, by decide, fun query target => ⟨_, rfl⟩, rfl, rfl, by decide, rfl⟩

/-! ## The collapse of a sequence of two runs, with the source's integer widths -/

theorem machine_appendUnits_eq (units : List CigarOperationType) :
    ∀ ret : Cigar, totalLength ret + units.length < 4294967296 →
      Machine.appendUnits ret units = appendUnits ret units := by
  induction units with
  | nil => intro ret _; rfl
  | cons u units ih =>
    intro ret h
    rw [List.length_cons] at h
    unfold Machine.appendUnits appendUnits
    rw [List.foldl_cons, List.foldl_cons,
      show Machine.AppendToCigar ret u 1 = AppendToCigar ret u 1 from
        machine_AppendToCigar_eq ret u 1 (by omega) (by omega)]
    exact ih _ (by rw [totalLength_AppendToCigar]; omega)

theorem totalLength_appendUnits (units : List CigarOperationType) :
    ∀ ret : Cigar, totalLength (appendUnits ret units) = totalLength ret + units.length := by
  induction units with
  | nil => intro ret; rfl
  | cons u units ih =>
    intro ret
    unfold appendUnits
    rw [List.foldl_cons]
    have := ih (AppendToCigar ret u 1)
    unfold appendUnits at this
    rw [this, totalLength_AppendToCigar, List.length_cons]
    omega

/-- The append-merge of a left hang, the diagonal units and a right hang is the same run
sequence in both embeddings when the two run lengths are below `2^31`. -/
theorem machine_collapsed_eq (first second : CigarOperationType) (a b : Nat)
    (ha : a < 2147483648) (hb : b < 2147483648) (units : List CigarOperationType)
    (hunits : units.length = min a b) :
    Machine.AppendToCigar
        (Machine.appendUnits (Machine.AppendToCigar [] first ((a - min a b : Nat) : Int)) units)
        second ((b - min a b : Nat) : Int)
      = AppendToCigar (appendUnits (AppendToCigar [] first (a - min a b)) units)
          second (b - min a b) := by
  rw [machine_AppendToCigar_eq [] first _ (by omega) (by rw [totalLength_nil]; omega),
    machine_appendUnits_eq units _ (by rw [totalLength_AppendToCigar, totalLength_nil]; omega),
    machine_AppendToCigar_eq _ second _ (by omega)
      (by rw [totalLength_appendUnits, totalLength_AppendToCigar, totalLength_nil]; omega)]

theorem Machine.AppendToCigar_ne_nil (cigar : Cigar) (newOp : CigarOperationType)
    (newLen : Int) (h : cigar ≠ [] ∨ newLen ≠ 0) :
    Machine.AppendToCigar cigar newOp newLen ≠ [] := by
  by_cases h0 : newLen = 0
  · subst h0
    rw [Machine.AppendToCigar_zero_length]
    rcases h with h | h
    · exact h
    · exact absurd rfl h
  · obtain ⟨last, hl, _⟩ := Machine.AppendToCigar_getLast_type cigar newOp newLen h0
    intro he
    rw [he] at hl
    simp at hl

theorem Machine.appendUnits_ne_nil (units : List CigarOperationType) :
    ∀ ret : Cigar, ret ≠ [] ∨ units ≠ [] → Machine.appendUnits ret units ≠ [] := by
  induction units with
  | nil =>
    intro ret h
    rcases h with h | h
    · exact h
    · exact absurd rfl h
  | cons u units ih =>
    intro ret _
    unfold Machine.appendUnits
    rw [List.foldl_cons]
    exact ih _ (Or.inl (Machine.AppendToCigar_ne_nil ret u 1 (Or.inr (by decide))))

/-- C6, as stated, fails: on `[Insertion x 2^31, Deletion x 2^31]`, with
`queryLen = targetLen = 2^31`, the `int32_t` variable `minLen` is `-2^31`, so the
diagonal loop does not run and `ExpandMismatches` returns the empty run sequence, while
the append-merge of `Insertion x 0`, of the `2^31` diagonal units and of `Deletion x 0`
is not empty. -/
theorem Machine.ExpandMismatches_two_runs_counterexample :
    Machine.ExpandMismatches (fun _ => 'A') 2147483648 (fun _ => 'A') 2147483648
        [⟨INSERTION, 2147483648⟩, ⟨DELETION, 2147483648⟩] = .ok [] ∧
    Machine.AppendToCigar
        (Machine.appendUnits
          (Machine.AppendToCigar [] INSERTION
            ((2147483648 - min 2147483648 2147483648 : Nat) : Int))
          ((List.range (min 2147483648 2147483648)).map (fun k : Nat =>
            if (fun _ : Int => 'A') ((2147483648 - min 2147483648 2147483648 + k : Nat) : Int)
                = (fun _ : Int => 'A') (k : Int) then SEQUENCE_MATCH
            else SEQUENCE_MISMATCH)))
        DELETION ((2147483648 - min 2147483648 2147483648 : Nat) : Int) ≠ [] := by
  refine ⟨rfl, ?_⟩
  apply Machine.AppendToCigar_ne_nil
  left
  apply Machine.appendUnits_ne_nil
  right
  intro he
  have hl := congrArg List.length he
  rw [List.length_map, List.length_range] at hl
  exact absurd hl (by decide)

/-- C6, amended.  With `m = min a b`: on `[Insertion x a, Deletion x b]`, with
`1 <= a < 2^31`, `1 <= b < 2^31`, `a <= queryLen` and `b <= targetLen`,
`ExpandMismatches` returns the append-merge of `Insertion x (a - m)`, then for
`k = 0 .. m - 1` one unit that is a match if `query[(a - m) + k] = target[k]` and a
mismatch otherwise, then `Deletion x (b - m)`.  On `[Deletion x a, Insertion x b]` it
returns the append-merge of `Deletion x (a - m)`, the units that compare `query[k]` with
`target[(a - m) + k]`, and `Insertion x (b - m)`; this holds as soon as both stated
lengths are positive, which either way of bounding `a` and `b` by them gives.  In
particular `[Insertion x 1, Deletion x 1]` gives `[Mismatch x 1]` when the compared bases
differ and `[Match x 1]` when they are equal, and `[Insertion x 3, Deletion x 1]` gives
`Insertion x 2` followed by one diagonal unit, with no deletion run after it. -/
theorem Machine.ExpandMismatches_two_runs (query : Int → Char) (queryLen : Int)
    (target : Int → Char) (targetLen : Int) :
    (∀ a b : Nat, 1 ≤ a → 1 ≤ b → a < 2147483648 → b < 2147483648 →
      (a : Int) ≤ queryLen → (b : Int) ≤ targetLen →
      Machine.ExpandMismatches query queryLen target targetLen
          [⟨INSERTION, a⟩, ⟨DELETION, b⟩]
        = .ok (Machine.AppendToCigar
            (Machine.appendUnits
              (Machine.AppendToCigar [] INSERTION ((a - min a b : Nat) : Int))
              ((List.range (min a b)).map (fun k : Nat =>
                if query ((a - min a b + k : Nat) : Int) = target (k : Int) then SEQUENCE_MATCH
                else SEQUENCE_MISMATCH)))
            DELETION ((b - min a b : Nat) : Int))) ∧
    (∀ a b : Nat, 1 ≤ a → 1 ≤ b → a < 2147483648 → b < 2147483648 →
      1 ≤ queryLen → 1 ≤ targetLen →
      Machine.ExpandMismatches query queryLen target targetLen
          [⟨DELETION, a⟩, ⟨INSERTION, b⟩]
        = .ok (Machine.AppendToCigar
            (Machine.appendUnits
              (Machine.AppendToCigar [] DELETION ((a - min a b : Nat) : Int))
              ((List.range (min a b)).map (fun k : Nat =>
                if query (k : Int) = target ((a - min a b + k : Nat) : Int) then SEQUENCE_MATCH
                else SEQUENCE_MISMATCH)))
            INSERTION ((b - min a b : Nat) : Int))) ∧
    (1 ≤ queryLen → 1 ≤ targetLen → query 0 ≠ target 0 →
      Machine.ExpandMismatches query queryLen target targetLen
          [⟨INSERTION, 1⟩, ⟨DELETION, 1⟩]
        = .ok [⟨SEQUENCE_MISMATCH, 1⟩]) ∧
    (1 ≤ queryLen → 1 ≤ targetLen → query 0 = target 0 →
      Machine.ExpandMismatches query queryLen target targetLen
          [⟨INSERTION, 1⟩, ⟨DELETION, 1⟩]
        = .ok [⟨SEQUENCE_MATCH, 1⟩]) ∧
    (3 ≤ queryLen → 1 ≤ targetLen →
      Machine.ExpandMismatches query queryLen target targetLen
          [⟨INSERTION, 3⟩, ⟨DELETION, 1⟩]
        = .ok [⟨INSERTION, 2⟩,
            ⟨if query 2 = target 0 then SEQUENCE_MATCH else SEQUENCE_MISMATCH, 1⟩]) := by
  have hfits : ∀ (s u : CigarOperationType) (a b : Nat), a < 2147483648 → b < 2147483648 →
      Fits [⟨s, a⟩, ⟨u, b⟩] := by
    intro s u a b ha hb
    refine ⟨?_, ?_⟩
    · intro op hop
      simp only [List.mem_cons, List.mem_singleton, List.not_mem_nil, or_false] at hop
      rcases hop with rfl | rfl
      · exact ha
      · exact hb
    · simp only [totalLength_cons, totalLength_nil]
      omega
  have hid : ∀ (a b : Nat), a < 2147483648 → b < 2147483648 → 0 < queryLen → 0 < targetLen →
      Machine.ExpandMismatches query queryLen target targetLen
          [⟨INSERTION, a⟩, ⟨DELETION, b⟩]
        = .ok (Machine.AppendToCigar
            (Machine.appendUnits
              (Machine.AppendToCigar [] INSERTION ((a - min a b : Nat) : Int))
              ((List.range (min a b)).map (fun k : Nat =>
                if query ((a - min a b + k : Nat) : Int) = target (k : Int) then SEQUENCE_MATCH
                else SEQUENCE_MISMATCH)))
            DELETION ((b - min a b : Nat) : Int)) := by
    intro a b ha hb hq ht
    rw [machine_ExpandMismatches_eq _ _ _ _ _ _ (hfits _ _ a b ha hb),
      machine_collapsed_eq INSERTION DELETION a b ha hb
        ((List.range (min a b)).map (fun k : Nat =>
          if query ((a - min a b + k : Nat) : Int) = target (k : Int) then SEQUENCE_MATCH
          else SEQUENCE_MISMATCH))
        (by rw [List.length_map, List.length_range])]
    exact ExpandMismatches_ins_del _ queryLen _ targetLen a b hq ht
  have hdi : ∀ (a b : Nat), a < 2147483648 → b < 2147483648 → 0 < queryLen → 0 < targetLen →
      Machine.ExpandMismatches query queryLen target targetLen
          [⟨DELETION, a⟩, ⟨INSERTION, b⟩]
        = .ok (Machine.AppendToCigar
            (Machine.appendUnits
              (Machine.AppendToCigar [] DELETION ((a - min a b : Nat) : Int))
              ((List.range (min a b)).map (fun k : Nat =>
                if query (k : Int) = target ((a - min a b + k : Nat) : Int) then SEQUENCE_MATCH
                else SEQUENCE_MISMATCH)))
            INSERTION ((b - min a b : Nat) : Int)) := by
    intro a b ha hb hq ht
    rw [machine_ExpandMismatches_eq _ _ _ _ _ _ (hfits _ _ a b ha hb),
      machine_collapsed_eq DELETION INSERTION a b ha hb
        ((List.range (min a b)).map (fun k : Nat =>
          if query (k : Int) = target ((a - min a b + k : Nat) : Int) then SEQUENCE_MATCH
          else SEQUENCE_MISMATCH))
        (by rw [List.length_map, List.length_range])]
    exact ExpandMismatches_del_ins _ queryLen _ targetLen a b hq ht
  refine ⟨?_, ?_, ?_, ?_, ?_⟩
  · intro a b ha _ ha2 hb2 hq ht
    exact hid a b ha2 hb2 (by omega) (by omega)
  · intro a b _ _ ha2 hb2 hq ht
    exact hdi a b ha2 hb2 (by omega) (by omega)
  · intro hq ht hne
    rw [hid 1 1 (by decide) (by decide) (by omega) (by omega)]
    simp [Machine.appendUnits, Machine.AppendToCigar, hne, show List.range 1 = [0] from rfl,
      show toUInt32 1 = 1 from rfl]
  · intro hq ht heq
    rw [hid 1 1 (by decide) (by decide) (by omega) (by omega)]
    simp [Machine.appendUnits, Machine.AppendToCigar, heq, show List.range 1 = [0] from rfl,
      show toUInt32 1 = 1 from rfl]
  · intro hq ht
    rw [hid 3 1 (by decide) (by decide) (by omega) (by omega)]
    by_cases h : query 2 = target 0 <;>
      simp [Machine.appendUnits, Machine.AppendToCigar, h, show List.range 1 = [0] from rfl,
        show toUInt32 1 = 1 from rfl, show toUInt32 2 = 2 from rfl]

/-- The collapse of `[Insertion x 3, Deletion x 1]` over `AAC` and `G`, of
`[Deletion x 2, Insertion x 1]` over `C` and `AC`, and of `[Insertion x 1, Deletion x 1]`
over `C` and `G` and over `G` and `G`. -/
theorem Machine.ExpandMismatches_two_runs_witness :
    Machine.ExpandMismatches (memory 'N' ['A', 'A', 'C']) 3 (memory 'N' ['G']) 1
        [⟨INSERTION, 3⟩, ⟨DELETION, 1⟩]
      = .ok [⟨INSERTION, 2⟩, ⟨SEQUENCE_MISMATCH, 1⟩] ∧
    Machine.ExpandMismatches (memory 'N' ['C']) 1 (memory 'N' ['A', 'C']) 2
        [⟨DELETION, 2⟩, ⟨INSERTION, 1⟩]
      = .ok [⟨DELETION, 1⟩, ⟨SEQUENCE_MATCH, 1⟩] ∧
    Machine.ExpandMismatches (memory 'N' ['C']) 1 (memory 'N' ['G']) 1
        [⟨INSERTION, 1⟩, ⟨DELETION, 1⟩]
      = .ok [⟨SEQUENCE_MISMATCH, 1⟩] ∧
    Machine.ExpandMismatches (memory 'N' ['G']) 1 (memory 'N' ['G']) 1
        [⟨INSERTION, 1⟩, ⟨DELETION, 1⟩]
      = .ok [⟨SEQUENCE_MATCH, 1⟩] ∧
    Machine.ExpandMismatches (memory 'N' ['A', 'A', 'C']) 3 (memory 'N' ['G']) 1
        [⟨INSERTION, 3⟩, ⟨DELETION, 1⟩]
      = .ok [⟨INSERTION, 2⟩,
          ⟨if memory 'N' ['A', 'A', 'C'] 2 = memory 'N' ['G'] 0 then SEQUENCE_MATCH
            else SEQUENCE_MISMATCH, 1⟩] :=
  ⟨(Machine.ExpandMismatches_two_runs (memory 'N' ['A', 'A', 'C']) 3 (memory 'N' ['G']) 1).1
      3 1 (by decide) (by decide) (by decide) (by decide) (by decide) (by decide),
    (Machine.ExpandMismatches_two_runs (memory 'N' ['C']) 1 (memory 'N' ['A', 'C']) 2).2.1
      2 1 (by decide) (by decide) (by decide) (by decide) (by decide) (by decide),
    (Machine.ExpandMismatches_two_runs (memory 'N' ['C']) 1 (memory 'N' ['G']) 1).2.2.1
      (by decide) (by decide) (by decide),
    (Machine.ExpandMismatches_two_runs (memory 'N' ['G']) 1 (memory 'N' ['G']) 1).2.2.2.1
      (by decide) (by decide) (by decide),
    (Machine.ExpandMismatches_two_runs (memory 'N' ['A', 'A', 'C']) 3
      (memory 'N' ['G']) 1).2.2.2.2 (by decide) (by decide)⟩

/-! ## Consistent input, with the source's integer widths -/

/-- C14, as stated, fails: the run sequence `[Insertion x 2147483649, Deletion x 1]` is
well-formed and its spans are `queryLen = 2147483649` and `targetLen = 1`.  The `int32_t`
variable `leftHang` is `-2147483648`, `queryPos` moves from 0 to `-2147483648`, and the
diagonal loop reads `query[-2147483648]`, outside the bases of the query. -/
theorem Machine.ExpandMismatches_consistent_input_counterexample :
    (∀ op ∈ ([⟨INSERTION, 2147483649⟩, ⟨DELETION, 1⟩] : Cigar), 0 < op.length) ∧
    List.Chain' (fun a b : CigarOperation => a.type ≠ b.type)
      [⟨INSERTION, 2147483649⟩, ⟨DELETION, 1⟩] ∧
    (∀ op ∈ ([⟨INSERTION, 2147483649⟩, ⟨DELETION, 1⟩] : Cigar), IsEditOperation op.type) ∧
    (querySpan [⟨INSERTION, 2147483649⟩, ⟨DELETION, 1⟩] : Int) ≤ 2147483649 ∧
    (targetSpan [⟨INSERTION, 2147483649⟩, ⟨DELETION, 1⟩] : Int) ≤ 1 ∧
    Machine.ExpandMismatchesChecked (fun _ => 'A') 2147483649 (fun _ => 'A') 1
        [⟨INSERTION, 2147483649⟩, ⟨DELETION, 1⟩]
      = .error (.indexOutOfRange (-2147483648)) := by
  refine ⟨by decide, by simp, by decide, by decide, by decide, rfl⟩

/-- C14, amended.  For every well-formed run sequence (all lengths positive, no two
adjacent runs with the same operation, operations among the four) whose run lengths are
each below `2^31` and add up to less than `2^32`, whose query span is at most `queryLen`
and whose target span is at most `targetLen`, `ExpandMismatches` returns a result, so the
malformed-alignment check never fires; and `ExpandMismatches` with checked reads returns
the same result, so every read `query[queryPos]`, `target[targetPos]` made during a
collapse has `0 <= queryPos < queryLen` and `0 <= targetPos < targetLen`. -/
theorem Machine.ExpandMismatches_consistent_input (query : Int → Char) (queryLen : Int)
    (target : Int → Char) (targetLen : Int) (cigar : Cigar) (hfits : Fits cigar)
    (hpos : ∀ op ∈ cigar, 0 < op.length)
    (hdist : List.Chain' (fun a b => a.type ≠ b.type) cigar)
    (hfour : ∀ op ∈ cigar, IsEditOperation op.type)
    (hq : (querySpan cigar : Int) ≤ queryLen) (ht : (targetSpan cigar : Int) ≤ targetLen) :
    ∃ ret, Machine.ExpandMismatches query queryLen target targetLen cigar = .ok ret ∧
      Machine.ExpandMismatchesChecked query queryLen target targetLen cigar = .ok ret := by
  unfold Machine.ExpandMismatches Machine.ExpandMismatchesChecked
  by_cases hlen : cigar.length ≤ 1
  · exact ⟨cigar, by simp [hlen], by simp [hlen]⟩
  · obtain ⟨st, h1, h2⟩ := Pancake.ExpandMismatches.loop_consistent (fun n => query n) queryLen
      (fun n => target n) targetLen
      cigar cigar.length 1 { queryPos := 0, targetPos := 0, lastAddedOp := -1, ret := [] }
      (le_refl 1) (by omega) (by simpa using fun op hop => ⟨hfour op hop, hpos op hop⟩)
      (by simpa [NoAdjacentSame] using hdist) (by simpa using hq) (by simpa using ht)
    obtain ⟨hok, _⟩ := machine_loop_eq query queryLen target targetLen (fun n => query n)
      (fun n => target n) (fun _ => rfl) (fun _ => rfl) cigar hfits.1 cigar.length 1
      { queryPos := 0, targetPos := 0, lastAddedOp := -1, ret := [] } (le_refl 1) (by simp)
      (by simpa [totalLength_nil] using hfits.2)
    obtain ⟨g1, _⟩ := hok st h1
    have g2 := machine_loopChecked_ok query queryLen target targetLen (fun n => query n)
      (fun n => target n) (fun _ => rfl) (fun _ => rfl) cigar hfits.1 cigar.length 1
      { queryPos := 0, targetPos := 0, lastAddedOp := -1, ret := [] } st (le_refl 1)
      (by simpa [totalLength_nil] using hfits.2) h2
    have hl : Machine.lift { queryPos := 0, targetPos := 0, lastAddedOp := -1, ret := [] }
        = { queryPos := 0, targetPos := 0, lastAddedOp := -1, ret := [] } := rfl
    rw [hl] at g1 g2
    refine ⟨Machine.ExpandMismatches.remainder cigar (Machine.lift st), ?_, ?_⟩
    · simp only [hlen, if_false, g1]
    · simp only [hlen, if_false, g2]

/-- The run sequence `1= 2I 1D 1=` over `ACGT` and `AGT`, with the lengths 4 and 3. -/
theorem Machine.ExpandMismatches_consistent_input_witness :
    Fits [⟨SEQUENCE_MATCH, 1⟩, ⟨INSERTION, 2⟩, ⟨DELETION, 1⟩, ⟨SEQUENCE_MATCH, 1⟩] ∧
    ∃ ret, Machine.ExpandMismatches (memory 'N' ['A', 'C', 'G', 'T']) 4
        (memory 'N' ['A', 'G', 'T']) 3
        [⟨SEQUENCE_MATCH, 1⟩, ⟨INSERTION, 2⟩, ⟨DELETION, 1⟩, ⟨SEQUENCE_MATCH, 1⟩] = .ok ret ∧
      Machine.ExpandMismatchesChecked (memory 'N' ['A', 'C', 'G', 'T']) 4
        (memory 'N' ['A', 'G', 'T']) 3
        [⟨SEQUENCE_MATCH, 1⟩, ⟨INSERTION, 2⟩, ⟨DELETION, 1⟩, ⟨SEQUENCE_MATCH, 1⟩] = .ok ret :=
  ⟨by decide,
    Machine.ExpandMismatches_consistent_input (memory 'N' ['A', 'C', 'G', 'T']) 4
      (memory 'N' ['A', 'G', 'T']) 3
      [⟨SEQUENCE_MATCH, 1⟩, ⟨INSERTION, 2⟩, ⟨DELETION, 1⟩, ⟨SEQUENCE_MATCH, 1⟩]
      (by decide) (by decide) (by simp) (by decide) (by decide) (by decide)⟩

/-! ## A run after a collapsed pair, with the source's integer widths -/

/-- What `ExpandMismatches` returns on an insertion/deletion pair alone, and on the pair
followed by one run. -/
theorem Machine.ExpandMismatches_pair_and_run (query : Int → Char) (queryLen : Int)
    (target : Int → Char) (targetLen : Int) (p c r : CigarOperation)
    (hpair : isIndelPair p c = true) :
    Machine.ExpandMismatches query queryLen target targetLen [p, c]
      = (if (0 : Int) ≥ queryLen ∨ (0 : Int) ≥ targetLen then
          .error (.invalidCigar 0 0 queryLen targetLen)
        else
          .ok (Machine.ExpandMismatches.collapse query target p c 1
            { queryPos := 0, targetPos := 0, lastAddedOp := -1, ret := [] }).ret) ∧
    Machine.ExpandMismatches query queryLen target targetLen [p, c, r]
      = (if (0 : Int) ≥ queryLen ∨ (0 : Int) ≥ targetLen then
          .error (.invalidCigar 0 0 queryLen targetLen)
        else
          .ok (Machine.AppendToCigar (Machine.ExpandMismatches.collapse query target p c 1
            { queryPos := 0, targetPos := 0, lastAddedOp := -1, ret := [] }).ret
            r.type (toInt32 r.length))) := by
  have hlast : (Machine.ExpandMismatches.collapse query target p c 1
      { queryPos := 0, targetPos := 0, lastAddedOp := -1, ret := [] }).lastAddedOp = 1 := rfl
  by_cases hchk : (0 : Int) ≥ queryLen ∨ (0 : Int) ≥ targetLen
  · simp [Machine.ExpandMismatches, Machine.ExpandMismatches.loop, hchk]
  · simp [Machine.ExpandMismatches, Machine.ExpandMismatches.loop, hchk, hpair,
      Machine.ExpandMismatches.remainder, hlast]

/-- C16, as stated, fails: on `[Deletion x 1, Insertion x 3, Insertion x 4294967294]` the
pair is rewritten into `[Match x 1, Insertion x 2]`; the third run is then appended with
the `int32_t` length `-2`, and the `uint32_t` sum `2 + 4294967294` is 0: the result ends
with `Insertion x 0`, which does not hold the length of the third run. -/
theorem Machine.ExpandMismatches_run_after_pair_counterexample :
    Machine.ExpandMismatches (fun _ => 'A') 4294967297 (fun _ => 'A') 1
        [⟨DELETION, 1⟩, ⟨INSERTION, 3⟩, ⟨INSERTION, 4294967294⟩]
      = .ok [⟨SEQUENCE_MATCH, 1⟩, ⟨INSERTION, 0⟩] ∧
    ([⟨SEQUENCE_MATCH, 1⟩, ⟨INSERTION, 0⟩] : Cigar).getLast? = some ⟨INSERTION, 0⟩ ∧
    ¬ ((⟨INSERTION, 4294967294⟩ : CigarOperation).length
      ≤ (⟨INSERTION, 0⟩ : CigarOperation).length) := by
  refine ⟨rfl, rfl, by decide⟩

/-- C16, amended.  For every three-run sequence `[p, c, r]` in which `p` and `c` are an
insertion/deletion pair, in either order, and on which `ExpandMismatches` returns, the
result is the result of `ExpandMismatches` on `[p, c]` with the run `r` appended to it by
`AppendToCigar`; so when `r` is not empty the output ends with a run of the operation of
`r`, and that run holds the full length of `r` when the three run lengths are each below
`2^31` and add up to less than `2^32`. -/
theorem Machine.ExpandMismatches_run_after_pair (query : Int → Char) (queryLen : Int)
    (target : Int → Char) (targetLen : Int) (p c r : CigarOperation) (ret : Cigar)
    (hpair : (p.type = INSERTION ∧ c.type = DELETION) ∨
      (p.type = DELETION ∧ c.type = INSERTION))
    (h : Machine.ExpandMismatches query queryLen target targetLen [p, c, r] = .ok ret) :
    ∃ ret2, Machine.ExpandMismatches query queryLen target targetLen [p, c] = .ok ret2 ∧
      ret = Machine.AppendToCigar ret2 r.type (toInt32 r.length) ∧
      (0 < r.length → r.length < 4294967296 →
        ∃ last, ret.getLast? = some last ∧ last.type = r.type) ∧
      (0 < r.length → Fits [p, c, r] →
        ∃ last, ret.getLast? = some last ∧ last.type = r.type ∧ r.length ≤ last.length) := by
  have hp : isIndelPair p c = true := (isIndelPair_iff p c).mpr hpair
  obtain ⟨e2, e3⟩ := Machine.ExpandMismatches_pair_and_run query queryLen target targetLen p c r hp
  have h3 := h
  rw [e3] at h3
  split at h3
  · exact absurd h3 (by simp)
  · rename_i hchk
    simp only [Except.ok.injEq] at h3
    rw [if_neg hchk] at e2
    refine ⟨_, e2, h3.symm, ?_, ?_⟩
    · intro hr hr2
      rw [← h3]
      apply Machine.AppendToCigar_getLast_type
      unfold toInt32
      have : r.length % 4294967296 = r.length := Nat.mod_eq_of_lt hr2
      rw [this]
      split <;> omega
    · intro hr hfits
      have hex := (machine_ExpandMismatches_eq query queryLen target targetLen [p, c, r] ret
        hfits).mp h
      rw [Pancake.ExpandMismatches_pair_run _ queryLen _ targetLen p c r hp] at hex
      split at hex
      · exact absurd hex (by simp)
      · simp only [Except.ok.injEq] at hex
        rw [← hex]
        exact Pancake.AppendToCigar_getLast _ _ _ hr

/-- The run `2I` after the pair `2I 1D` over `ACGT` and `T`: the pair alone gives `1I 1X`,
and the three runs give `1I 1X 2I`. -/
theorem Machine.ExpandMismatches_run_after_pair_witness :
    Machine.ExpandMismatches (memory 'N' ['A', 'C', 'G', 'T']) 4 (memory 'N' ['T']) 1
        [⟨INSERTION, 2⟩, ⟨DELETION, 1⟩, ⟨INSERTION, 2⟩]
      = .ok [⟨INSERTION, 1⟩, ⟨SEQUENCE_MISMATCH, 1⟩, ⟨INSERTION, 2⟩] ∧
    ∃ ret2, Machine.ExpandMismatches (memory 'N' ['A', 'C', 'G', 'T']) 4 (memory 'N' ['T']) 1
        [⟨INSERTION, 2⟩, ⟨DELETION, 1⟩] = .ok ret2 ∧
      [⟨INSERTION, 1⟩, ⟨SEQUENCE_MISMATCH, 1⟩, ⟨INSERTION, 2⟩]
        = Machine.AppendToCigar ret2 INSERTION (toInt32 2) ∧
      (0 < 2 → 2 < 4294967296 → ∃ last,
        ([⟨INSERTION, 1⟩, ⟨SEQUENCE_MISMATCH, 1⟩, ⟨INSERTION, 2⟩] : Cigar).getLast?
          = some last ∧ last.type = INSERTION) ∧
      (0 < 2 → Fits [⟨INSERTION, 2⟩, ⟨DELETION, 1⟩, ⟨INSERTION, 2⟩] → ∃ last,
        ([⟨INSERTION, 1⟩, ⟨SEQUENCE_MISMATCH, 1⟩, ⟨INSERTION, 2⟩] : Cigar).getLast?
          = some last ∧ last.type = INSERTION ∧ 2 ≤ last.length) :=
  ⟨rfl, Machine.ExpandMismatches_run_after_pair (memory 'N' ['A', 'C', 'G', 'T']) 4
    (memory 'N' ['T']) 1
    ⟨INSERTION, 2⟩ ⟨DELETION, 1⟩ ⟨INSERTION, 2⟩
    [⟨INSERTION, 1⟩, ⟨SEQUENCE_MISMATCH, 1⟩, ⟨INSERTION, 2⟩]
    (Or.inl ⟨rfl, rfl⟩) rfl⟩

end Pancake
